import Mathlib

/-!
# Graph representations and traversals of `graphs/graph-terminology/trees.cpp`

A shallow embedding of the three storage strategies (`EdgeList`, `AdjacencyList`,
`AdjacencyMatrix`) and of the two traversals (`dfs`, `bfs`), followed by the
properties proved about them.

Modelling conventions
* `std::unordered_map<K, V>` is an association list with unique keys; only lookups,
  `emplace`, `operator[]` and `at` are used by the code, so the iteration order of
  the table never matters.
* `std::unordered_set<T>` (the visited set) is a list used only through membership.
* `std::vector` is a `List`; `push_back` appends at the end; the unchecked
  `operator[]` reports `GraphError.outOfBounds` when the index is outside the vector.
* `unordered_map::at` reports `GraphError.outOfRange` when the key is missing.
* `int` indices are natural numbers: an index is always a former matrix dimension,
  which stays far below `2^31` for any matrix that fits in memory.
* The recursion of `_dfs` and the `while` loop of `bfs` take a step budget (`fuel`);
  running out of it is reported as `GraphError.outOfFuel`.
-/

namespace Edugator

/-- Ways in which the modelled code can fail to return a value. -/
inductive GraphError where
  | outOfRange
  | outOfBounds
  | outOfFuel
  deriving DecidableEq, Repr

section Containers

variable {K V : Type} [DecidableEq K]

/-- The value stored under key `k`, as found by `unordered_map::find`. -/
def mapFind : List (K × V) → K → Option V
  | [], _ => none
  | (k', v) :: m, k => if k' = k then some v else mapFind m k

/-- Checked lookup `m.at(k)`: throws `std::out_of_range` when `k` is missing. -/
def mapAt (m : List (K × V)) (k : K) : Except GraphError V :=
  match mapFind m k with
  | some v => .ok v
  | none => .error .outOfRange

/-- Table after `m.emplace(k, v)`: nothing happens when `k` is already a key. -/
def mapEmplace (m : List (K × V)) (k : K) (v : V) : List (K × V) :=
  match mapFind m k with
  | some _ => m
  | none => m ++ [(k, v)]

/-- Update of the value stored under `k` through a reference to it. -/
def mapModify : List (K × V) → K → (V → V) → List (K × V)
  | [], _, _ => []
  | (k', v) :: m, k, f => if k' = k then (k', f v) :: m else (k', v) :: mapModify m k f

/-- Read access `m[k]`: the key is inserted with the default value `d` when missing;
returns the value read and the table afterwards. -/
def mapSubscript (m : List (K × V)) (k : K) (d : V) : V × List (K × V) :=
  match mapFind m k with
  | some v => (v, m)
  | none => (d, m ++ [(k, d)])

/-- Table after the assignment `m[k] = v`. -/
def mapAssign (m : List (K × V)) (k : K) (v : V) : List (K × V) :=
  match mapFind m k with
  | some _ => mapModify m k (fun _ => v)
  | none => m ++ [(k, v)]

/-- Unchecked read `M[i][j]` of a vector of vectors. -/
def matGet (M : List (List Bool)) (i j : Nat) : Except GraphError Bool :=
  match M[i]? with
  | none => .error .outOfBounds
  | some row =>
    match row[j]? with
    | none => .error .outOfBounds
    | some b => .ok b

/-- Unchecked write `M[i][j] = b` of a vector of vectors. -/
def matSet (M : List (List Bool)) (i j : Nat) (b : Bool) : Except GraphError (List (List Bool)) :=
  match M[i]? with
  | none => .error .outOfBounds
  | some row => if j < row.length then .ok (M.set i (row.set j b)) else .error .outOfBounds

end Containers

/-- The abstract class `Graph<T>` as seen through a `const` reference: the only
`const` member function is `getNeighbors`. -/
structure Graph (T : Type) where
  getNeighbors : T → Except GraphError (List T)

/-! ## EdgeList -/

/-- Class `EdgeList<T>`: a flat sequence of (source, target) pairs. -/
structure EdgeList (T : Type) where
  _edges : List (T × T) := []
  deriving DecidableEq, Repr

namespace EdgeList
variable {T : Type} [DecidableEq T]

/-- Member `EdgeList::addVertex`: does nothing. -/
def addVertex (g : EdgeList T) (_v : T) : EdgeList T := g

/-- Member `EdgeList::isAdjacent`: linear search for the pair; returns the answer
and the object afterwards. -/
def isAdjacent (g : EdgeList T) (v1 v2 : T) : Except GraphError Bool × EdgeList T :=
  (.ok (g._edges.any (fun edge => decide (edge = (v1, v2)))), g)

/-- Member `EdgeList::addEdge`: appends the pair. -/
def addEdge (g : EdgeList T) (v1 v2 : T) : EdgeList T :=
  { _edges := g._edges ++ [(v1, v2)] }

/-- Member `EdgeList::getNeighbors`: the targets of the pairs whose source is `v`. -/
def getNeighbors (g : EdgeList T) (v : T) : Except GraphError (List T) :=
  .ok ((g._edges.filter (fun edge => decide (edge.1 = v))).map (fun edge => edge.2))

/-- An `EdgeList` used through `const Graph<T>&`. -/
def toGraph (g : EdgeList T) : Graph T := ⟨g.getNeighbors⟩

end EdgeList

/-! ## AdjacencyList -/

/-- Class `AdjacencyList<T>`: a table from vertex to its out-neighbour sequence. -/
structure AdjacencyList (T : Type) where
  _adjacencyList : List (T × List T) := []
  deriving DecidableEq, Repr

namespace AdjacencyList
variable {T : Type} [DecidableEq T]

/-- Member `AdjacencyList::addVertex`: `emplace` of an empty neighbour sequence. -/
def addVertex (g : AdjacencyList T) (v : T) : AdjacencyList T :=
  { _adjacencyList := mapEmplace g._adjacencyList v [] }

/-- Member `AdjacencyList::addEdge`: registers both endpoints, then
`_adjacencyList[v1].push_back(v2)`. -/
def addEdge (g : AdjacencyList T) (v1 v2 : T) : AdjacencyList T :=
  let g2 := (g.addVertex v1).addVertex v2
  let m := (mapSubscript g2._adjacencyList v1 []).2
  { _adjacencyList := mapModify m v1 (fun neighbors => neighbors ++ [v2]) }

/-- Member `AdjacencyList::isAdjacent`: `std::find` over `_adjacencyList[v1]`; the
subscript inserts `v1` when it is missing. Returns the answer and the object
afterwards. -/
def isAdjacent (g : AdjacencyList T) (v1 v2 : T) : Except GraphError Bool × AdjacencyList T :=
  let r := mapSubscript g._adjacencyList v1 []
  (.ok (decide (v2 ∈ r.1)), { _adjacencyList := r.2 })

/-- Member `AdjacencyList::getNeighbors`: `_adjacencyList.at(v)`. -/
def getNeighbors (g : AdjacencyList T) (v : T) : Except GraphError (List T) :=
  mapAt g._adjacencyList v

/-- An `AdjacencyList` used through `const Graph<T>&`. -/
def toGraph (g : AdjacencyList T) : Graph T := ⟨g.getNeighbors⟩

end AdjacencyList

/-! ## AdjacencyMatrix -/

/-- Class `AdjacencyMatrix<T>`: two index tables and a square boolean matrix. -/
structure AdjacencyMatrix (T : Type) where
  _vertexToIndex : List (T × Nat) := []
  _indexToVertex : List (Nat × T) := []
  _adjacencyMatrix : List (List Bool) := []
  deriving DecidableEq, Repr

namespace AdjacencyMatrix
variable {T : Type} [DecidableEq T]

/-- Member `AdjacencyMatrix::addVertex`: returns at once for a known vertex; otherwise
gives it the index `_adjacencyMatrix.size()`, grows every row by one `false` and
appends a row of `size + 1` times `false`. -/
def addVertex (g : AdjacencyMatrix T) (v : T) : AdjacencyMatrix T :=
  match mapFind g._vertexToIndex v with
  | some _ => g
  | none =>
    let v2i := mapAssign g._vertexToIndex v g._adjacencyMatrix.length
    let r := mapSubscript v2i v 0
    let i2v := mapAssign g._indexToVertex r.1 v
    let rows := g._adjacencyMatrix.map (fun row => row ++ [false])
    { _vertexToIndex := r.2
      _indexToVertex := i2v
      _adjacencyMatrix := rows ++ [List.replicate (rows.length + 1) false] }

/-- Member `AdjacencyMatrix::addEdge`: registers both endpoints, looks both indices up
with `at` and sets `_adjacencyMatrix[i][j]`. -/
def addEdge (g : AdjacencyMatrix T) (v1 v2 : T) : Except GraphError (AdjacencyMatrix T) :=
  let g2 := (g.addVertex v1).addVertex v2
  match mapAt g2._vertexToIndex v1 with
  | .error e => .error e
  | .ok i =>
    match mapAt g2._vertexToIndex v2 with
    | .error e => .error e
    | .ok j =>
      match matSet g2._adjacencyMatrix i j true with
      | .error e => .error e
      | .ok M => .ok { g2 with _adjacencyMatrix := M }

/-- Member `AdjacencyMatrix::isAdjacent`: both indices are looked up with `at`, then
`_adjacencyMatrix[i][j]` is read. Returns the answer and the object afterwards. -/
def isAdjacent (g : AdjacencyMatrix T) (v1 v2 : T) : Except GraphError Bool × AdjacencyMatrix T :=
  match mapAt g._vertexToIndex v1 with
  | .error e => (.error e, g)
  | .ok i =>
    match mapAt g._vertexToIndex v2 with
    | .error e => (.error e, g)
    | .ok j => (matGet g._adjacencyMatrix i j, g)

/-- The body of the `for` loop of `AdjacencyMatrix::getNeighbors` for the remaining
columns `js`, starting from the neighbours collected so far. -/
def neighborsLoop (g : AdjacencyMatrix T) (i : Nat) :
    List Nat → List T → Except GraphError (List T)
  | [], neighbors => .ok neighbors
  | j :: js, neighbors =>
    match matGet g._adjacencyMatrix i j with
    | .error e => .error e
    | .ok false => neighborsLoop g i js neighbors
    | .ok true =>
      match mapAt g._indexToVertex j with
      | .error e => .error e
      | .ok w => neighborsLoop g i js (neighbors ++ [w])

/-- Member `AdjacencyMatrix::getNeighbors`: the row of `v` is scanned by ascending
column and the vertex of every `true` column is collected. -/
def getNeighbors (g : AdjacencyMatrix T) (v : T) : Except GraphError (List T) :=
  match mapAt g._vertexToIndex v with
  | .error e => .error e
  | .ok i => neighborsLoop g i (List.range g._adjacencyMatrix.length) []

/-- An `AdjacencyMatrix` used through `const Graph<T>&`. -/
def toGraph (g : AdjacencyMatrix T) : Graph T := ⟨g.getNeighbors⟩

end AdjacencyMatrix

/-! ## Sequences of construction calls -/

/-- A call of one of the two mutating members of `Graph<T>`. -/
inductive Op (T : Type) where
  | addVertex (v : T)
  | addEdge (v1 v2 : T)
  deriving DecidableEq, Repr

variable {T : Type} [DecidableEq T]

/-- Vertices named by a call, in argument order. -/
def Op.touched : Op T → List T
  | .addVertex v => [v]
  | .addEdge v1 v2 => [v1, v2]

/-- Appends `v` to the list of known vertices unless it is there already. -/
def register (vs : List T) (v : T) : List T :=
  if v ∈ vs then vs else vs ++ [v]

/-- The distinct vertices named by a call sequence, in order of first appearance. -/
def firstAppearance (ops : List (Op T)) : List T :=
  ops.foldl (fun vs op => op.touched.foldl register vs) []

/-- Vertex `v` was passed to `addVertex` or was an endpoint of an `addEdge` call. -/
def Registered (ops : List (Op T)) (v : T) : Prop :=
  ∃ op ∈ ops, v ∈ op.touched

/-- The call sequence contains `addEdge(a, b)`. -/
def Recorded (ops : List (Op T)) (a b : T) : Prop :=
  Op.addEdge a b ∈ ops

/-- One call applied to an `EdgeList`. -/
def EdgeList.step (g : EdgeList T) : Op T → EdgeList T
  | .addVertex v => g.addVertex v
  | .addEdge v1 v2 => g.addEdge v1 v2

/-- The `EdgeList` built from empty by a call sequence. -/
def EdgeList.run (ops : List (Op T)) : EdgeList T :=
  ops.foldl EdgeList.step {}

/-- One call applied to an `AdjacencyList`. -/
def AdjacencyList.step (g : AdjacencyList T) : Op T → AdjacencyList T
  | .addVertex v => g.addVertex v
  | .addEdge v1 v2 => g.addEdge v1 v2

/-- The `AdjacencyList` built from empty by a call sequence. -/
def AdjacencyList.run (ops : List (Op T)) : AdjacencyList T :=
  ops.foldl AdjacencyList.step {}

/-- One call applied to an `AdjacencyMatrix`. -/
def AdjacencyMatrix.step (g : AdjacencyMatrix T) : Op T → Except GraphError (AdjacencyMatrix T)
  | .addVertex v => .ok (g.addVertex v)
  | .addEdge v1 v2 => g.addEdge v1 v2

/-- The `AdjacencyMatrix` reached from `g` by a call sequence, when no call fails. -/
def AdjacencyMatrix.runFrom (g : AdjacencyMatrix T) : List (Op T) → Except GraphError (AdjacencyMatrix T)
  | [] => .ok g
  | op :: ops =>
    match g.step op with
    | .error e => .error e
    | .ok g1 => AdjacencyMatrix.runFrom g1 ops

/-- The `AdjacencyMatrix` built from empty by a call sequence, when no call fails. -/
def AdjacencyMatrix.run (ops : List (Op T)) : Except GraphError (AdjacencyMatrix T) :=
  AdjacencyMatrix.runFrom {} ops

/-! ## Traversals -/

/-- The `for` loop of `_dfs` over the remaining neighbours; `visit` is the recursive
call. The state is the pair (visitedVertices, results). -/
def dfsLoop (visit : T → List T × List T → Except GraphError (List T × List T)) :
    List T → List T × List T → Except GraphError (List T × List T)
  | [], st => .ok st
  | neighbor :: rest, st =>
    if neighbor ∈ st.1 then dfsLoop visit rest st
    else
      match visit neighbor st with
      | .error e => .error e
      | .ok st1 => dfsLoop visit rest st1

/-- Function `_dfs`: marks `source`, appends it to the results, then recurses into
every neighbour not yet visited, in the order of `getNeighbors`. -/
def _dfs (g : Graph T) : Nat → T → List T × List T → Except GraphError (List T × List T)
  | 0, _, _ => .error .outOfFuel
  | fuel + 1, source, st =>
    match g.getNeighbors source with
    | .error e => .error e
    | .ok neighbors => dfsLoop (_dfs g fuel) neighbors (source :: st.1, st.2 ++ [source])

/-- Function `dfs`: `_dfs` from empty visited set and results. -/
def dfs (fuel : Nat) (g : Graph T) (source : T) : Except GraphError (List T) :=
  match _dfs g fuel source ([], []) with
  | .error e => .error e
  | .ok st => .ok st.2

/-- The `for` loop of `bfs` over the neighbours of the dequeued vertex. The state is
the pair (visitedVertices, q). -/
def bfsVisit : List T → List T × List T → List T × List T
  | [], st => st
  | neighbor :: rest, st =>
    if neighbor ∈ st.1 then bfsVisit rest st
    else bfsVisit rest (neighbor :: st.1, st.2 ++ [neighbor])

/-- The `while` loop of `bfs` on the state (visitedVertices, results, q). -/
def bfsLoop (g : Graph T) : Nat → List T → List T → List T → Except GraphError (List T)
  | _, _, results, [] => .ok results
  | 0, _, _, _ :: _ => .error .outOfFuel
  | fuel + 1, visitedVertices, results, current :: q =>
    match g.getNeighbors current with
    | .error e => .error e
    | .ok neighbors =>
      let st := bfsVisit neighbors (visitedVertices, q)
      bfsLoop g fuel st.1 (results ++ [current]) st.2

/-- Function `bfs`: the loop started with `source` visited and enqueued. -/
def bfs (fuel : Nat) (g : Graph T) (source : T) : Except GraphError (List T) :=
  bfsLoop g fuel [source] [] [source]

/-! ## Reference notions used to state the properties -/

/-- The edge requested by a call, if it is an `addEdge` call. -/
def Op.edge : Op T → Option (T × T)
  | .addVertex _ => none
  | .addEdge v1 v2 => some (v1, v2)

/-- The targets `b` of the calls `addEdge(v, b)` of a call sequence, in call order. -/
def targets (ops : List (Op T)) (v : T) : List T :=
  ops.filterMap (fun op =>
    match op with
    | .addVertex _ => none
    | .addEdge v1 v2 => if v1 = v then some v2 else none)

/-- Boolean form of `Recorded`. -/
def recorded (ops : List (Op T)) (a b : T) : Bool :=
  decide (Op.addEdge a b ∈ ops)

instance decidableRegistered (ops : List (Op T)) (v : T) : Decidable (Registered ops v) :=
  inferInstanceAs (Decidable (∃ op ∈ ops, v ∈ op.touched))

instance decidableRecorded (ops : List (Op T)) (a b : T) : Decidable (Recorded ops a b) :=
  inferInstanceAs (Decidable (Op.addEdge a b ∈ ops))

/-- Consistency of an `AdjacencyMatrix` with the list `vs` of its vertices in index
order and the table `E` of its edges. -/
structure AdjacencyMatrix.Inv (g : AdjacencyMatrix T) (vs : List T) (E : T → T → Bool) :
    Prop where
  nodup : vs.Nodup
  v2i : ∀ v i, mapFind g._vertexToIndex v = some i ↔ vs[i]? = some v
  i2v : ∀ i v, mapFind g._indexToVertex i = some v ↔ vs[i]? = some v
  keysV : g._vertexToIndex.map Prod.fst = vs
  keysI : g._indexToVertex.map Prod.fst = List.range vs.length
  rows : g._adjacencyMatrix.length = vs.length
  cols : ∀ row ∈ g._adjacencyMatrix, row.length = vs.length
  entry : ∀ i j a b, vs[i]? = some a → vs[j]? = some b →
    matGet g._adjacencyMatrix i j = .ok (E a b)
  support : ∀ a b, E a b = true → a ∈ vs ∧ b ∈ vs

/-- Walks of `n` edges of the relation `E` that start in `s`. -/
inductive Walk (E : T → T → Prop) (s : T) : T → Nat → Prop where
  | nil : Walk E s s 0
  | snoc {v w : T} {n : Nat} : Walk E s v n → E v w → Walk E s w (n + 1)

/-- Vertex `v` is reachable from `s` by a directed path of `E` edges (possibly empty). -/
def Reach (E : T → T → Prop) (s v : T) : Prop := ∃ n, Walk E s v n

/-- The shortest-path distance (number of edges) from `s` to `v` is `d`. -/
def IsDist (E : T → T → Prop) (s v : T) (d : Nat) : Prop :=
  Walk E s v d ∧ ∀ m, Walk E s v m → d ≤ m

/-- Vertex `u` is at most as far from `s` as `w` is: every walk to `w` is matched by a
walk to `u` that is not longer. -/
def Closer (E : T → T → Prop) (s u w : T) : Prop :=
  ∀ n, Walk E s w n → ∃ m, m ≤ n ∧ Walk E s u m

/-- The graph object `G` answers `getNeighbors` on every vertex of `U` with a sequence
that holds exactly the `E` successors, all of them again in `U`. -/
structure Closed (G : Graph T) (U : List T) (E : T → T → Prop) : Prop where
  answers : ∀ v ∈ U, ∃ ns, G.getNeighbors v = .ok ns ∧ (∀ w, w ∈ ns ↔ E v w) ∧ ∀ w ∈ ns, w ∈ U

/-- Number of vertices of `U` not in the visited set. -/
def unvisited (U Vis : List T) : Nat := U.countP (fun x => decide (x ∉ Vis))

/-- What a call of `_dfs` or of its loop adds: the new results `l` are fresh, distinct,
inside `U`, and every successor of a new vertex is visited afterwards. -/
def DfsPost (U : List T) (E : T → T → Prop) (Vis l Vis2 : List T) : Prop :=
  (∀ x, x ∈ Vis2 ↔ x ∈ Vis ∨ x ∈ l) ∧ l.Nodup ∧ (∀ x ∈ l, x ∉ Vis) ∧ (∀ x ∈ l, x ∈ U) ∧
    (∀ x ∈ l, ∀ w, E x w → w ∈ Vis2)

/-- Loop invariant of `bfs` on the state (visitedVertices, results, q). -/
structure BfsInv (U : List T) (E : T → T → Prop) (s : T) (Vis Res Q : List T) : Prop where
  vis : ∀ x, x ∈ Vis ↔ x ∈ Res ++ Q
  nodup : (Res ++ Q).Nodup
  inU : ∀ x ∈ Res ++ Q, x ∈ U
  reach : ∀ x ∈ Res ++ Q, Reach E s x
  start : (Res ++ Q).head? = some s
  sorted : (Res ++ Q).Pairwise (Closer E s)
  closed : ∀ x ∈ Res, ∀ w, E x w → w ∈ Res ++ Q
  near : ∀ c ∈ Q, ∀ x ∈ Res ++ Q, ∀ n, Walk E s c n → ∃ m, m ≤ n + 1 ∧ Walk E s x m

/-! ## Call sequences that include queries -/

/-- A call of one of the member functions `addVertex`, `addEdge`, `isAdjacent` and
`getNeighbors` of `Graph<T>`. -/
inductive Call (T : Type) where
  | addVertex (v : T)
  | addEdge (v1 v2 : T)
  | isAdjacent (v1 v2 : T)
  | getNeighbors (v : T)
  deriving DecidableEq, Repr

/-- The `addVertex` and `addEdge` calls of a call sequence, in call order: the calls
that register vertices and record edges. -/
def mutations : List (Call T) → List (Op T)
  | [] => []
  | .addVertex v :: calls => .addVertex v :: mutations calls
  | .addEdge v1 v2 :: calls => .addEdge v1 v2 :: mutations calls
  | .isAdjacent _ _ :: calls => mutations calls
  | .getNeighbors _ :: calls => mutations calls

/-- One call applied to an `EdgeList`; the answer of a query is dropped, the object
after it is kept. -/
def EdgeList.exec (g : EdgeList T) : Call T → EdgeList T
  | .addVertex v => g.addVertex v
  | .addEdge v1 v2 => g.addEdge v1 v2
  | .isAdjacent v1 v2 => (g.isAdjacent v1 v2).2
  | .getNeighbors _ => g

/-- The `EdgeList` reached from empty by a sequence of calls and queries. -/
def EdgeList.runCalls (calls : List (Call T)) : EdgeList T :=
  calls.foldl EdgeList.exec {}

/-- One call applied to an `AdjacencyList`; the answer of a query is dropped, the
object after it is kept. -/
def AdjacencyList.exec (g : AdjacencyList T) : Call T → AdjacencyList T
  | .addVertex v => g.addVertex v
  | .addEdge v1 v2 => g.addEdge v1 v2
  | .isAdjacent v1 v2 => (g.isAdjacent v1 v2).2
  | .getNeighbors _ => g

/-- The `AdjacencyList` reached from empty by a sequence of calls and queries. -/
def AdjacencyList.runCalls (calls : List (Call T)) : AdjacencyList T :=
  calls.foldl AdjacencyList.exec {}

/-- One call applied to an `AdjacencyMatrix`; the answer of a query is dropped (also
when it is an error, which the caller catches), the object after it is kept. -/
def AdjacencyMatrix.exec (g : AdjacencyMatrix T) :
    Call T → Except GraphError (AdjacencyMatrix T)
  | .addVertex v => .ok (g.addVertex v)
  | .addEdge v1 v2 => g.addEdge v1 v2
  | .isAdjacent v1 v2 => .ok (g.isAdjacent v1 v2).2
  | .getNeighbors _ => .ok g

/-- The `AdjacencyMatrix` reached from `g` by a sequence of calls and queries, when no
`addVertex` or `addEdge` call fails. -/
def AdjacencyMatrix.runCallsFrom (g : AdjacencyMatrix T) :
    List (Call T) → Except GraphError (AdjacencyMatrix T)
  | [] => .ok g
  | call :: calls =>
    match g.exec call with
    | .error e => .error e
    | .ok g1 => AdjacencyMatrix.runCallsFrom g1 calls

/-- The `AdjacencyMatrix` reached from empty by a sequence of calls and queries. -/
def AdjacencyMatrix.runCalls (calls : List (Call T)) :
    Except GraphError (AdjacencyMatrix T) :=
  AdjacencyMatrix.runCallsFrom {} calls

/-- The calls that change an `AdjacencyList`, in call order: `addVertex`, `addEdge`,
and `isAdjacent(v1, v2)`, whose `_adjacencyList[v1]` acts on the table like
`addVertex(v1)`. -/
def effects : List (Call T) → List (Op T)
  | [] => []
  | .addVertex v :: calls => .addVertex v :: effects calls
  | .addEdge v1 v2 :: calls => .addEdge v1 v2 :: effects calls
  | .isAdjacent v1 _ :: calls => .addVertex v1 :: effects calls
  | .getNeighbors _ :: calls => effects calls

/-! ## Dynamic programming exercises

A C++ `int` is a 32-bit two's complement integer: the result of every `int` addition is
reduced to the range from `-2^31` to `2^31 - 1` (`wrapInt32`). Signed overflow is
undefined behaviour in C++; the reduced value is what the compiled code produces, and
the properties below also say what holds when no addition leaves the range. Sizes and
indices are natural numbers (vectors of `2^31` or more elements and negative grid sizes
are not considered). An access outside a vector makes a function return `none`. Where
C++ leaves the order of evaluation of two operands open, the left one is evaluated
first.
-/

/-- The `int` that holds the exact value `x`: `x` reduced modulo `2^32` to the range
from `-2^31` to `2^31 - 1`. -/
def wrapInt32 (x : Int) : Int := (x + 2147483648) % 4294967296 - 2147483648

/-- Addition `a + b` of two `int` values. -/
def intAdd (a b : Int) : Int := wrapInt32 (a + b)

/-- The exact value `x` is in the range of `int`. -/
def FitsInt32 (x : Int) : Prop := -2147483648 ≤ x ∧ x ≤ 2147483647

/-- Unchecked read `memo[i][j]` of a table of integers. -/
def cellGet (memo : List (List Int)) (i j : Nat) : Option Int :=
  match memo[i]? with
  | none => none
  | some row => row[j]?

/-- Unchecked write `memo[i][j] = x` of a table of integers. -/
def cellSet (memo : List (List Int)) (i j : Nat) (x : Int) : Option (List (List Int)) :=
  match memo[i]? with
  | none => none
  | some row => if j < row.length then some (memo.set i (row.set j x)) else none

namespace MinCostClimbingStairs

/-- Function `bruteForce` of `min-cost-climbing-stairs.cpp`. -/
def bruteForce (cost : List Int) (step : Nat) : Int :=
  if h : step < cost.length then
    intAdd cost[step] (min (bruteForce cost (step + 1)) (bruteForce cost (step + 2)))
  else 0
termination_by cost.length - step

/-- Function `topDownHelper` of `min-cost-climbing-stairs.cpp`: returns the value and
the memo table afterwards; `-1` marks an entry as not yet computed. -/
def topDownHelper (cost : List Int) (memo : List Int) (step : Nat) :
    Option (Int × List Int) :=
  if h : step < cost.length then
    match memo[step]? with
    | none => none
    | some x =>
      if x ≠ -1 then some (x, memo)
      else
        match topDownHelper cost memo (step + 1) with
        | none => none
        | some (a, memo1) =>
          match topDownHelper cost memo1 (step + 2) with
          | none => none
          | some (b, memo2) =>
            if step < memo2.length then
              some (intAdd cost[step] (min a b),
                memo2.set step (intAdd cost[step] (min a b)))
            else none
  else some (0, memo)
termination_by cost.length - step

/-- Function `topDown` of `min-cost-climbing-stairs.cpp`. -/
def topDown (cost : List Int) : Option Int :=
  match topDownHelper cost (List.replicate cost.length (-1)) 0 with
  | none => none
  | some (a, memo1) =>
    match topDownHelper cost memo1 1 with
    | none => none
    | some (b, _) => some (min a b)

/-- The `for` loop of `bottomUp`; the first argument is the loop index plus one, so
that `0` means that the loop has ended. -/
def bottomUpLoop (cost : List Int) : Nat → List Int → Option (List Int)
  | 0, memo => some memo
  | i + 1, memo =>
    match cost[i]?, memo[i + 1]?, memo[i + 2]? with
    | some c, some a, some b =>
      if i < memo.length then bottomUpLoop cost i (memo.set i (intAdd c (min a b))) else none
    | _, _, _ => none

/-- Function `bottomUp` of `min-cost-climbing-stairs.cpp`: the loop index starts at
`cost.size() - 1`, which is `-1` for an empty vector, so the loop is then skipped. -/
def bottomUp (cost : List Int) : Option Int :=
  match bottomUpLoop cost cost.length (List.replicate (cost.length + 2) 0) with
  | none => none
  | some memo =>
    match memo[0]?, memo[1]? with
    | some a, some b => some (min a b)
    | _, _ => none

end MinCostClimbingStairs

namespace OneDTopDown

/-- Function `dp` of `1d-top-down.cpp`. -/
def dp (cost : List Int) (memo : List Int) (index : Nat) : Option (Int × List Int) :=
  if h : index < cost.length then
    match memo[index]? with
    | none => none
    | some x =>
      if x ≠ -1 then some (x, memo)
      else
        match dp cost memo (index + 1) with
        | none => none
        | some (a, memo1) =>
          match dp cost memo1 (index + 2) with
          | none => none
          | some (b, memo2) =>
            if index < memo2.length then
              some (intAdd cost[index] (min a b),
                memo2.set index (intAdd cost[index] (min a b)))
            else none
  else some (0, memo)
termination_by cost.length - index

/-- Function `minCostClimbingStairs` of `1d-top-down.cpp`. -/
def minCostClimbingStairs (cost : List Int) : Option Int :=
  match dp cost (List.replicate cost.length (-1)) 0 with
  | none => none
  | some (a, memo1) =>
    match dp cost memo1 1 with
    | none => none
    | some (b, _) => some (min a b)

end OneDTopDown

namespace OneDBottomUp

/-- The `for` loop of `minCostClimbingStairs` of `1d-bottom-up.cpp`; the first argument
is the loop index plus one. -/
def minCostLoop (cost : List Int) : Nat → List Int → Option (List Int)
  | 0, memo => some memo
  | i + 1, memo =>
    match cost[i]?, memo[i + 1]?, memo[i + 2]? with
    | some c, some a, some b =>
      if i < memo.length then minCostLoop cost i (memo.set i (intAdd c (min a b))) else none
    | _, _, _ => none

/-- Function `minCostClimbingStairs` of `1d-bottom-up.cpp`. -/
def minCostClimbingStairs (cost : List Int) : Option Int :=
  match minCostLoop cost cost.length (List.replicate (cost.length + 2) 0) with
  | none => none
  | some memo =>
    match memo[0]?, memo[1]? with
    | some a, some b => some (min a b)
    | _, _ => none

end OneDBottomUp

namespace UniquePaths

/-- Function `bruteForce` of `unique-paths.cpp`: returns the counter `total`
afterwards. The test `i == m - 1` is written `i + 1 = m`. -/
def bruteForce (m n i j : Nat) (total : Int) : Int :=
  if i + 1 = m ∧ j + 1 = n then intAdd total 1
  else if h : m ≤ i ∨ n ≤ j then total
  else bruteForce m n i (j + 1) (bruteForce m n (i + 1) j total)
termination_by (m - i) + (n - j)
decreasing_by
  all_goals simp_wf
  all_goals omega

/-- Function `topDownHelper` of `unique-paths.cpp`: returns the value and the memo
table afterwards; `-1` marks an entry as not yet computed. -/
def topDownHelper (i j m n : Nat) (memo : List (List Int)) :
    Option (Int × List (List Int)) :=
  if i + 1 = m ∧ j + 1 = n then some (1, memo)
  else if _h : m ≤ i ∨ n ≤ j then some (0, memo)
  else
    match cellGet memo i j with
    | none => none
    | some x =>
      if x ≠ -1 then some (x, memo)
      else
        match topDownHelper (i + 1) j m n memo with
        | none => none
        | some (a, memo1) =>
          match topDownHelper i (j + 1) m n memo1 with
          | none => none
          | some (b, memo2) =>
            match cellSet memo2 i j (intAdd a b) with
            | none => none
            | some memo3 => some (intAdd a b, memo3)
termination_by (m - i) + (n - j)
decreasing_by
  all_goals simp_wf
  all_goals omega

/-- Function `topDown` of `unique-paths.cpp`. -/
def topDown (m n : Nat) : Option Int :=
  match topDownHelper 0 0 m n (List.replicate m (List.replicate n (-1))) with
  | none => none
  | some (x, _) => some x

/-- The inner `for` loop of `bottomUp` in row `i`; the second argument is the column
index plus one. -/
def bottomUpRow (i : Nat) : Nat → List (List Int) → Option (List (List Int))
  | 0, memo => some memo
  | j + 1, memo =>
    match cellGet memo i j, cellGet memo (i + 1) j, cellGet memo i (j + 1) with
    | some x, some d, some r =>
      match cellSet memo i j (intAdd x (intAdd d r)) with
      | none => none
      | some memo1 => bottomUpRow i j memo1
    | _, _, _ => none

/-- The outer `for` loop of `bottomUp`; the second argument is the row index plus
one. -/
def bottomUpRows (n : Nat) : Nat → List (List Int) → Option (List (List Int))
  | 0, memo => some memo
  | i + 1, memo =>
    match bottomUpRow i n memo with
    | none => none
    | some memo1 => bottomUpRows n i memo1

/-- Function `bottomUp` of `unique-paths.cpp`. The write `memo[m - 1][n - 1] = 1` is
outside the table when `m` or `n` is zero. -/
def bottomUp (m n : Nat) : Option Int :=
  if 1 ≤ m ∧ 1 ≤ n then
    match cellSet (List.replicate (m + 1) (List.replicate (n + 1) 0)) (m - 1) (n - 1) 1 with
    | none => none
    | some memo0 =>
      match bottomUpRows n m memo0 with
      | none => none
      | some memo => cellGet memo 0 0
  else none

end UniquePaths

/-- A memo table of the climbing-stairs programs is sound: it has one entry per step
and every entry other than `-1` is the value of `bruteForce` at that step. -/
def MinCostClimbingStairs.MemoOK (cost memo : List Int) : Prop :=
  memo.length = cost.length ∧
    ∀ i x, memo[i]? = some x → x ≠ -1 → x = MinCostClimbingStairs.bruteForce cost i

/-- Loop invariant of `bottomUp`: the table has two extra entries and every entry from
index `k` on holds the value of `bruteForce`. -/
def MinCostClimbingStairs.LoopOK (cost : List Int) (k : Nat) (memo : List Int) : Prop :=
  memo.length = cost.length + 2 ∧
    ∀ j, k ≤ j → j < cost.length + 2 →
      memo[j]? = some (MinCostClimbingStairs.bruteForce cost j)

/-- The minimum cost from `step` on over exact integers: the recurrence of `bruteForce`
without the reduction to 32 bits. -/
def MinCostClimbingStairs.exactCost (cost : List Int) (step : Nat) : Int :=
  if h : step < cost.length then
    cost[step] + min (MinCostClimbingStairs.exactCost cost (step + 1))
      (MinCostClimbingStairs.exactCost cost (step + 2))
  else 0
termination_by cost.length - step

/-- No addition of the climbing-stairs programs leaves the range of `int`: every exact
cost fits. -/
def MinCostClimbingStairs.NoOverflow (cost : List Int) : Prop :=
  ∀ step, FitsInt32 (MinCostClimbingStairs.exactCost cost step)

namespace TwoDTopDown

/-- Function `bottomUpHelper` of `2d-top-down.cpp` (a memoised top-down helper, despite
its name). -/
def bottomUpHelper (i j m n : Nat) (memo : List (List Int)) :
    Option (Int × List (List Int)) :=
  if i + 1 = m ∧ j + 1 = n then some (1, memo)
  else if _h : m ≤ i ∨ n ≤ j then some (0, memo)
  else
    match cellGet memo i j with
    | none => none
    | some x =>
      if x ≠ -1 then some (x, memo)
      else
        match bottomUpHelper (i + 1) j m n memo with
        | none => none
        | some (a, memo1) =>
          match bottomUpHelper i (j + 1) m n memo1 with
          | none => none
          | some (b, memo2) =>
            match cellSet memo2 i j (intAdd a b) with
            | none => none
            | some memo3 => some (intAdd a b, memo3)
termination_by (m - i) + (n - j)
decreasing_by
  all_goals simp_wf
  all_goals omega

/-- Function `uniquePaths` of `2d-top-down.cpp`. -/
def uniquePaths (m n : Nat) : Option Int :=
  match bottomUpHelper 0 0 m n (List.replicate m (List.replicate n (-1))) with
  | none => none
  | some (x, _) => some x

end TwoDTopDown

namespace TwoDBottomUp

/-- The inner `for` loop of `uniquePaths` of `2d-bottom-up.cpp` in row `i`; the second
argument is the column index plus one. -/
def uniquePathsRow (i : Nat) : Nat → List (List Int) → Option (List (List Int))
  | 0, memo => some memo
  | j + 1, memo =>
    match cellGet memo i j, cellGet memo (i + 1) j, cellGet memo i (j + 1) with
    | some x, some d, some r =>
      match cellSet memo i j (intAdd x (intAdd d r)) with
      | none => none
      | some memo1 => uniquePathsRow i j memo1
    | _, _, _ => none

/-- The outer `for` loop of `uniquePaths` of `2d-bottom-up.cpp`; the second argument
is the row index plus one. -/
def uniquePathsRows (n : Nat) : Nat → List (List Int) → Option (List (List Int))
  | 0, memo => some memo
  | i + 1, memo =>
    match uniquePathsRow i n memo with
    | none => none
    | some memo1 => uniquePathsRows n i memo1

/-- Function `uniquePaths` of `2d-bottom-up.cpp`. -/
def uniquePaths (m n : Nat) : Option Int :=
  if 1 ≤ m ∧ 1 ≤ n then
    match cellSet (List.replicate (m + 1) (List.replicate (n + 1) 0)) (m - 1) (n - 1) 1 with
    | none => none
    | some memo0 =>
      match uniquePathsRows n m memo0 with
      | none => none
      | some memo => cellGet memo 0 0
  else none

end TwoDBottomUp

/-- A memo table of the top-down unique-paths programs is sound: it is `m` by `n` and
every entry other than `-1` is the number counted by `bruteForce` from that cell. -/
def UniquePaths.TblOK (m n : Nat) (memo : List (List Int)) : Prop :=
  memo.length = m ∧ (∀ row ∈ memo, row.length = n) ∧
    ∀ i j x, cellGet memo i j = some x → x ≠ -1 → x = UniquePaths.bruteForce m n i j 0

/-- The entry that the table of `bottomUp` holds at `(i, j)` when the rows from `k` on
are finished and, in row `k - 1`, the columns from `l` on: finished cells and the
extra last row and column hold the number counted by `bruteForce`, the others still
hold their initial value. -/
def UniquePaths.cellExpected (m n k l i j : Nat) : Int :=
  if (k ≤ i ∨ (i + 1 = k ∧ l ≤ j)) ∨ m ≤ i ∨ n ≤ j then UniquePaths.bruteForce m n i j 0
  else if i + 1 = m ∧ j + 1 = n then 1 else 0

/-- Loop invariant of `bottomUp`: the table is `m + 1` by `n + 1` and holds the
expected entries. -/
def UniquePaths.GridOK (m n k l : Nat) (memo : List (List Int)) : Prop :=
  memo.length = m + 1 ∧ (∀ row ∈ memo, row.length = n + 1) ∧
    ∀ i j, i ≤ m → j ≤ n → cellGet memo i j = some (UniquePaths.cellExpected m n k l i j)

/-! # Theorems -/

/-! ## Facts about the container model -/

section ContainerFacts
variable {K V : Type} [DecidableEq K]

theorem mapFind_append (m m2 : List (K × V)) (k : K) :
    mapFind (m ++ m2) k = (mapFind m k).orElse (fun _ => mapFind m2 k) := by
  induction m with
  | nil => simp [mapFind]
  | cons p m ih =>
    obtain ⟨k1, v⟩ := p
    by_cases h : k1 = k <;> simp [mapFind, h, ih]

theorem mapFind_modify (m : List (K × V)) (k k2 : K) (f : V → V) :
    mapFind (mapModify m k f) k2 = if k2 = k then (mapFind m k).map f else mapFind m k2 := by
  induction m with
  | nil => simp [mapFind, mapModify]
  | cons p m ih =>
    obtain ⟨k1, v⟩ := p
    by_cases h : k1 = k
    · subst h
      by_cases h2 : k2 = k1
      · subst h2; simp [mapFind, mapModify]
      · have h3 : ¬ k1 = k2 := fun e => h2 e.symm
        simp [mapFind, mapModify, h2, h3]
    · by_cases h2 : k2 = k
      · subst h2; simp [mapFind, mapModify, h, ih]
      · by_cases h3 : k1 = k2 <;> simp [mapFind, mapModify, h, h2, h3, ih]

theorem mapFind_emplace (m : List (K × V)) (k k2 : K) (v : V) :
    mapFind (mapEmplace m k v) k2 =
      (mapFind m k2).orElse (fun _ => if k = k2 then some v else none) := by
  unfold mapEmplace
  cases h : mapFind m k with
  | some x =>
    by_cases h2 : k = k2
    · subst h2; simp [h]
    · cases mapFind m k2 <;> simp [h2]
  | none => simp [mapFind_append, mapFind]

theorem mapFind_assign (m : List (K × V)) (k k2 : K) (v : V) :
    mapFind (mapAssign m k v) k2 = if k2 = k then some v else mapFind m k2 := by
  unfold mapAssign
  cases h : mapFind m k with
  | some x =>
    by_cases h2 : k2 = k
    · subst h2; simp [mapFind_modify, h]
    · simp [mapFind_modify, h2]
  | none =>
    by_cases h2 : k2 = k
    · subst h2; simp [mapFind_append, mapFind, h]
    · have h3 : ¬ k = k2 := fun e => h2 e.symm
      cases h4 : mapFind m k2 <;> simp [mapFind_append, mapFind, h2, h3, h4]

theorem mapSubscript_of_find {m : List (K × V)} {k : K} {x : V} (d : V)
    (h : mapFind m k = some x) : mapSubscript m k d = (x, m) := by
  simp [mapSubscript, h]

theorem mapFind_isSome_iff (m : List (K × V)) (k : K) :
    (∃ v, mapFind m k = some v) ↔ k ∈ m.map Prod.fst := by
  induction m with
  | nil => simp [mapFind]
  | cons p m ih =>
    obtain ⟨k1, v⟩ := p
    by_cases h : k1 = k
    · subst h; simp [mapFind]
    · have h3 : ¬ k = k1 := fun e => h e.symm
      simp only [mapFind, h, if_false, ih]
      simp [h3]

theorem mapAt_eq_ok {m : List (K × V)} {k : K} {v : V} :
    mapAt m k = .ok v ↔ mapFind m k = some v := by
  unfold mapAt
  cases mapFind m k <;> simp

end ContainerFacts
set_option linter.unusedSectionVars false

/-! ## Facts about call sequences -/

theorem mem_register (vs : List T) (v x : T) : x ∈ register vs v ↔ x ∈ vs ∨ x = v := by
  unfold register
  by_cases h : v ∈ vs
  · simp only [h, if_true]
    constructor
    · exact fun hx => Or.inl hx
    · rintro (hx | rfl)
      · exact hx
      · exact h
  · simp [h]

theorem nodup_register (vs : List T) (v : T) (h : vs.Nodup) : (register vs v).Nodup := by
  unfold register
  by_cases hv : v ∈ vs
  · simpa [hv] using h
  · simp only [hv, if_false]
    exact List.Nodup.append h (List.nodup_singleton v) (by simpa using hv)

theorem firstAppearance_append (ops : List (Op T)) (op : Op T) :
    firstAppearance (ops ++ [op]) = op.touched.foldl register (firstAppearance ops) := by
  simp [firstAppearance, List.foldl_append]

theorem firstAppearance_nodup (ops : List (Op T)) : (firstAppearance ops).Nodup := by
  induction ops using List.reverseRecOn with
  | nil => simp [firstAppearance]
  | append_singleton ops op ih =>
    rw [firstAppearance_append]
    cases op with
    | addVertex v => exact nodup_register _ _ ih
    | addEdge a b => exact nodup_register _ _ (nodup_register _ _ ih)

theorem mem_firstAppearance (ops : List (Op T)) (v : T) :
    v ∈ firstAppearance ops ↔ Registered ops v := by
  induction ops using List.reverseRecOn with
  | nil => simp [firstAppearance, Registered]
  | append_singleton ops op ih =>
    rw [firstAppearance_append]
    have hreg : Registered (ops ++ [op]) v ↔ Registered ops v ∨ v ∈ op.touched := by
      simp [Registered, or_and_right, exists_or]
    rw [hreg, ← ih]
    cases op with
    | addVertex w => simp [Op.touched, mem_register]
    | addEdge a b => simp [Op.touched, mem_register, or_assoc]

theorem recorded_iff (ops : List (Op T)) (a b : T) :
    recorded ops a b = true ↔ Recorded ops a b := by
  simp [recorded, Recorded]

theorem Recorded.registered {ops : List (Op T)} {a b : T} (h : Recorded ops a b) :
    Registered ops a ∧ Registered ops b :=
  ⟨⟨_, h, by simp [Op.touched]⟩, ⟨_, h, by simp [Op.touched]⟩⟩

theorem mem_targets (ops : List (Op T)) (a b : T) : b ∈ targets ops a ↔ Recorded ops a b := by
  unfold targets Recorded
  rw [List.mem_filterMap]
  constructor
  · rintro ⟨op, hop, h⟩
    cases op with
    | addVertex w => simp at h
    | addEdge v1 v2 =>
      by_cases h1 : v1 = a
      · simp [h1] at h
        subst h1 h
        exact hop
      · simp [h1] at h
  · intro h
    exact ⟨_, h, by simp⟩

theorem targets_append (ops : List (Op T)) (op : Op T) (v : T) :
    targets (ops ++ [op]) v = targets ops v ++ targets [op] v := by
  simp [targets, List.filterMap_append]

theorem targets_single_addVertex (w v : T) : targets [Op.addVertex w] v = [] := rfl

theorem targets_single_addEdge (a b v : T) :
    targets [Op.addEdge a b] v = if a = v then [b] else [] := by
  unfold targets
  by_cases h : a = v <;> simp [h]

theorem targets_of_not_registered (ops : List (Op T)) (v : T) (h : ¬ Registered ops v) :
    targets ops v = [] := by
  rw [List.eq_nil_iff_forall_not_mem]
  intro b hb
  exact h ((mem_targets ops v b).1 hb).registered.1

/-! ## Facts about `EdgeList` -/

theorem edgeList_run_append (ops : List (Op T)) (op : Op T) :
    EdgeList.run (ops ++ [op]) = (EdgeList.run ops).step op := by
  simp [EdgeList.run, List.foldl_append]

theorem edgeList_edges_run (ops : List (Op T)) :
    (EdgeList.run ops)._edges = ops.filterMap Op.edge := by
  induction ops using List.reverseRecOn with
  | nil => rfl
  | append_singleton ops op ih =>
    rw [edgeList_run_append, List.filterMap_append]
    cases op with
    | addVertex v => simp [EdgeList.step, EdgeList.addVertex, ih, Op.edge]
    | addEdge a b => simp [EdgeList.step, EdgeList.addEdge, ih, Op.edge]

theorem edgeList_mem_edges_run (ops : List (Op T)) (a b : T) :
    (a, b) ∈ (EdgeList.run ops)._edges ↔ Recorded ops a b := by
  rw [edgeList_edges_run, List.mem_filterMap]
  constructor
  · rintro ⟨op, hop, h⟩
    cases op with
    | addVertex w => simp [Op.edge] at h
    | addEdge v1 v2 =>
      simp [Op.edge] at h
      obtain ⟨rfl, rfl⟩ := h
      exact hop
  · intro h
    exact ⟨_, h, rfl⟩

theorem edgeList_getNeighbors_run (ops : List (Op T)) (v : T) :
    (EdgeList.run ops).getNeighbors v = .ok (targets ops v) := by
  unfold EdgeList.getNeighbors
  rw [edgeList_edges_run]
  congr 1
  unfold targets
  induction ops with
  | nil => rfl
  | cons op ops ih =>
    cases op with
    | addVertex w => simpa [Op.edge] using ih
    | addEdge v1 v2 =>
      by_cases h : v1 = v
      · simp [Op.edge, h, List.filterMap_cons]
        simpa using ih
      · simp [Op.edge, h, List.filterMap_cons]
        simpa using ih

theorem edgeList_isAdjacent_run (ops : List (Op T)) (a b : T) :
    ((EdgeList.run ops).isAdjacent a b).1 = .ok (recorded ops a b) := by
  unfold EdgeList.isAdjacent
  simp only
  congr 1
  rw [Bool.eq_iff_iff, recorded_iff, ← edgeList_mem_edges_run]
  simp

/-! ## Facts about `AdjacencyList` -/

theorem adjList_run_append (ops : List (Op T)) (op : Op T) :
    AdjacencyList.run (ops ++ [op]) = (AdjacencyList.run ops).step op := by
  simp [AdjacencyList.run, List.foldl_append]

/-- The table of the `AdjacencyList` built by a call sequence: exactly the registered
vertices are keys, each with its targets in call order. -/
theorem adjList_find_run (ops : List (Op T)) (v : T) :
    mapFind (AdjacencyList.run ops)._adjacencyList v =
      if v ∈ firstAppearance ops then some (targets ops v) else none := by
  induction ops using List.reverseRecOn generalizing v with
  | nil => simp [AdjacencyList.run, firstAppearance, mapFind]
  | append_singleton ops op ih =>
    rw [adjList_run_append, firstAppearance_append, targets_append]
    have hnil : ∀ w, w ∉ firstAppearance ops → targets ops w = [] := fun w hw =>
      targets_of_not_registered ops w (fun h => hw ((mem_firstAppearance ops w).2 h))
    cases op with
    | addVertex w =>
      simp only [AdjacencyList.step, AdjacencyList.addVertex, mapFind_emplace, ih, Op.touched,
        List.foldl_cons, List.foldl_nil, mem_register, targets_single_addVertex,
        List.append_nil]
      by_cases h1 : v ∈ firstAppearance ops
      · simp [h1]
      · by_cases h2 : w = v
        · subst h2; simp [h1, hnil w h1]
        · have h3 : ¬ v = w := fun e => h2 e.symm
          simp [h1, h2, h3]
    | addEdge a b =>
      have hfa : ∃ x, mapFind (mapEmplace (mapEmplace (AdjacencyList.run ops)._adjacencyList a []) b []) a
          = some x := by
        simp only [mapFind_emplace, ih]
        by_cases h1 : a ∈ firstAppearance ops <;> simp [h1]
      obtain ⟨x, hx⟩ := hfa
      simp only [AdjacencyList.step, AdjacencyList.addEdge, AdjacencyList.addVertex,
        mapSubscript_of_find [] hx, mapFind_modify, mapFind_emplace, ih, Op.touched,
        List.foldl_cons, List.foldl_nil, mem_register, targets_single_addEdge]
      by_cases h1 : v ∈ firstAppearance ops
      · by_cases h2 : v = a
        · subst h2; simp [h1]
        · have h3 : ¬ a = v := fun e => h2 e.symm
          simp [h1, h2, h3]
      · by_cases h2 : v = a
        · subst h2; simp [h1, hnil v h1]
        · have h3 : ¬ a = v := fun e => h2 e.symm
          by_cases h4 : b = v
          · subst h4; simp [h1, h2, h3, hnil b h1]
          · have h5 : ¬ v = b := fun e => h4 e.symm
            simp [h1, h2, h3, h4, h5]

theorem adjList_getNeighbors_run (ops : List (Op T)) (v : T)
    (hv : v ∈ firstAppearance ops) :
    (AdjacencyList.run ops).getNeighbors v = .ok (targets ops v) := by
  unfold AdjacencyList.getNeighbors
  rw [mapAt_eq_ok, adjList_find_run, if_pos hv]
/-! ## Facts about `AdjacencyMatrix` -/

theorem getElem?_snoc_eq_some {α : Type} (vs : List α) (v a : α) (i : Nat) :
    (vs ++ [v])[i]? = some a ↔ vs[i]? = some a ∨ (i = vs.length ∧ a = v) := by
  rcases Nat.lt_trichotomy i vs.length with h | h | h
  · rw [List.getElem?_append_left h]
    constructor
    · exact fun e => Or.inl e
    · rintro (e | ⟨e, -⟩)
      · exact e
      · omega
  · subst h
    have : vs[vs.length]? = none := List.getElem?_eq_none (le_refl _)
    simp [this, eq_comm]
  · have h1 : vs[i]? = none := List.getElem?_eq_none (by omega)
    have h2 : (vs ++ [v])[i]? = none := List.getElem?_eq_none (by simp; omega)
    rw [h1, h2]
    constructor
    · intro e; cases e
    · rintro (e | ⟨e, -⟩)
      · cases e
      · omega

theorem getElem?_some_lt {α : Type} {vs : List α} {i : Nat} {a : α} (h : vs[i]? = some a) :
    i < vs.length := by
  by_contra hc
  rw [List.getElem?_eq_none (by omega)] at h
  cases h

theorem getElem?_some_mem {α : Type} {vs : List α} {i : Nat} {a : α} (h : vs[i]? = some a) :
    a ∈ vs := by
  have hlt := getElem?_some_lt h
  rw [List.getElem?_eq_getElem hlt] at h
  cases h
  exact List.getElem_mem hlt

theorem exists_getElem?_of_mem {α : Type} {vs : List α} {a : α} (h : a ∈ vs) :
    ∃ i : Nat, vs[i]? = some a := by
  obtain ⟨i, hi, e⟩ := List.getElem_of_mem h
  exact ⟨i, by rw [List.getElem?_eq_getElem hi, e]⟩

theorem getElem?_inj_of_nodup {α : Type} {vs : List α} (hn : vs.Nodup) {i j : Nat} {a : α}
    (hi : vs[i]? = some a) (hj : vs[j]? = some a) : i = j := by
  have h1 := getElem?_some_lt hi
  have h2 := getElem?_some_lt hj
  rw [List.getElem?_eq_getElem h1] at hi
  rw [List.getElem?_eq_getElem h2] at hj
  exact (List.Nodup.getElem_inj_iff hn).1 (by rw [Option.some.inj hi, Option.some.inj hj])

theorem matGet_grow (M : List (List Bool)) (n : Nat) (hrows : M.length = n)
    (hcols : ∀ row ∈ M, row.length = n) (i j : Nat) (hi : i ≤ n) (hj : j ≤ n) :
    matGet (M.map (fun row => row ++ [false]) ++ [List.replicate (M.length + 1) false]) i j =
      if i < n ∧ j < n then matGet M i j else .ok false := by
  unfold matGet
  by_cases h1 : i < n
  · have hi2 : i < M.length := by omega
    have hrow : (M[i]).length = n := hcols _ (List.getElem_mem hi2)
    rw [List.getElem?_append_left (by simpa using hi2)]
    simp only [List.getElem?_map, List.getElem?_eq_getElem hi2, Option.map_some']
    by_cases h2 : j < n
    · rw [List.getElem?_append_left (by omega)]
      simp [h1, h2]
    · have hj2 : j = n := by omega
      subst hj2
      have : (M[i] ++ [false])[(M[i]).length]? = some false := by simp
      rw [hrow] at this
      simp [this]
  · have hi2 : i = M.length := by omega
    subst hi2
    have h3 : (List.map (fun row => row ++ [false]) M ++
        [List.replicate (M.length + 1) false])[M.length]? =
        some (List.replicate (M.length + 1) false) := by
      rw [List.getElem?_append_right (by simp)]
      simp
    rw [h3]
    have h4 : (List.replicate (M.length + 1) false)[j]? = some false := by
      rw [List.getElem?_replicate]
      simp
      omega
    simp [h4, h1]

theorem matGet_matSet {M M2 : List (List Bool)} {i j : Nat} {b : Bool}
    (h : matSet M i j b = .ok M2) (i2 j2 : Nat) :
    matGet M2 i2 j2 = if i2 = i ∧ j2 = j then .ok b else matGet M i2 j2 := by
  unfold matSet at h
  cases hrow : M[i]? with
  | none => simp [hrow] at h
  | some row =>
    simp only [hrow] at h
    by_cases hj : j < row.length
    · simp only [hj, if_true] at h
      cases h
      have hi := getElem?_some_lt hrow
      unfold matGet
      by_cases e1 : i2 = i
      · subst e1
        simp only [List.getElem?_set_self hi, hrow]
        by_cases e2 : j2 = j
        · subst e2
          simp [List.getElem?_set_self hj]
        · have e3 : ¬ j = j2 := fun e => e2 e.symm
          simp [List.getElem?_set_ne e3, e2]
      · have e3 : ¬ i = i2 := fun e => e1 e.symm
        simp [List.getElem?_set_ne e3, e1]
    · simp [hj] at h

theorem length_matSet {M M2 : List (List Bool)} {i j : Nat} {b : Bool}
    (h : matSet M i j b = .ok M2) :
    M2.length = M.length ∧ ∀ n, (∀ row ∈ M, row.length = n) → ∀ row ∈ M2, row.length = n := by
  unfold matSet at h
  cases hrow : M[i]? with
  | none => simp [hrow] at h
  | some row =>
    simp only [hrow] at h
    by_cases hj : j < row.length
    · simp only [hj, if_true] at h
      cases h
      refine ⟨by simp, ?_⟩
      intro n hn r hr
      rcases List.mem_or_eq_of_mem_set hr with h1 | h1
      · exact hn r h1
      · subst h1
        simpa using hn row (getElem?_some_mem hrow)
    · simp [hj] at h
theorem AdjacencyMatrix.addVertex_of_known (g : AdjacencyMatrix T) (v : T) (i : Nat)
    (h : mapFind g._vertexToIndex v = some i) : g.addVertex v = g := by
  simp [AdjacencyMatrix.addVertex, h]

theorem AdjacencyMatrix.addVertex_of_new (g : AdjacencyMatrix T) (v : T)
    (h : mapFind g._vertexToIndex v = none)
    (h2 : mapFind g._indexToVertex g._adjacencyMatrix.length = none) :
    g.addVertex v =
      { _vertexToIndex := g._vertexToIndex ++ [(v, g._adjacencyMatrix.length)]
        _indexToVertex := g._indexToVertex ++ [(g._adjacencyMatrix.length, v)]
        _adjacencyMatrix := g._adjacencyMatrix.map (fun row => row ++ [false]) ++
          [List.replicate (g._adjacencyMatrix.length + 1) false] } := by
  have h3 : mapFind (g._vertexToIndex ++ [(v, g._adjacencyMatrix.length)]) v =
      some g._adjacencyMatrix.length := by
    simp [mapFind_append, h, mapFind]
  simp [AdjacencyMatrix.addVertex, h, mapAssign, mapSubscript, h3, h2]

theorem AdjacencyMatrix.Inv.addVertex {g : AdjacencyMatrix T} {vs : List T} {E : T → T → Bool}
    (h : g.Inv vs E) (v : T) : (g.addVertex v).Inv (register vs v) E := by
  cases hf : mapFind g._vertexToIndex v with
  | some i =>
    have hv : v ∈ vs := getElem?_some_mem ((h.v2i v i).1 hf)
    rw [AdjacencyMatrix.addVertex_of_known g v i hf]
    simpa [register, hv] using h
  | none =>
    have hv : v ∉ vs := by
      intro hm
      obtain ⟨i, hi⟩ := exists_getElem?_of_mem hm
      have := (h.v2i v i).2 hi
      rw [hf] at this
      cases this
    have hn : mapFind g._indexToVertex g._adjacencyMatrix.length = none := by
      cases hfi : mapFind g._indexToVertex g._adjacencyMatrix.length with
      | none => rfl
      | some w =>
        have := getElem?_some_lt ((h.i2v _ w).1 hfi)
        have := h.rows
        omega
    rw [AdjacencyMatrix.addVertex_of_new g v hf hn]
    have hreg : register vs v = vs ++ [v] := by simp [register, hv]
    rw [hreg]
    have hrows := h.rows
    refine ⟨?_, ?_, ?_, ?_, ?_, ?_, ?_, ?_, ?_⟩
    · rw [← hreg]; exact nodup_register vs v h.nodup
    · intro w i
      simp only [mapFind_append, getElem?_snoc_eq_some]
      cases hw : mapFind g._vertexToIndex w with
      | some i0 =>
        have h0 := (h.v2i w i0).1 hw
        simp only [Option.orElse]
        constructor
        · intro e
          cases e
          exact Or.inl h0
        · rintro (e | ⟨-, e⟩)
          · rw [← (h.v2i w i).2 e, hw]
          · subst e
            rw [hf] at hw
            cases hw
      | none =>
        simp only [Option.orElse, mapFind]
        constructor
        · intro e
          by_cases hvw : v = w
          · subst hvw
            simp only [if_true] at e
            cases e
            exact Or.inr ⟨hrows, rfl⟩
          · simp [hvw] at e
        · rintro (e | ⟨e1, e2⟩)
          · have := (h.v2i w i).2 e
            rw [hw] at this
            cases this
          · subst e2
            simp [e1, hrows]
    · intro i w
      simp only [mapFind_append, getElem?_snoc_eq_some]
      cases hw : mapFind g._indexToVertex i with
      | some w0 =>
        have h0 := (h.i2v i w0).1 hw
        simp only [Option.orElse]
        constructor
        · intro e
          cases e
          exact Or.inl h0
        · rintro (e | ⟨e, -⟩)
          · rw [← (h.i2v i w).2 e, hw]
          · have := getElem?_some_lt h0
            omega
      | none =>
        simp only [Option.orElse, mapFind]
        constructor
        · intro e
          by_cases hvw : g._adjacencyMatrix.length = i
          · simp only [hvw, if_true] at e
            cases e
            exact Or.inr ⟨by omega, rfl⟩
          · simp [hvw] at e
        · rintro (e | ⟨e1, e2⟩)
          · have := (h.i2v i w).2 e
            rw [hw] at this
            cases this
          · subst e2
            simp [e1, hrows]
    · simp [h.keysV]
    · simp [h.keysI, List.range_succ, hrows]
    · simp [hrows]
    · intro row hrow
      simp only [List.mem_append, List.mem_map, List.mem_singleton] at hrow
      rcases hrow with ⟨r, hr, rfl⟩ | rfl
      · simp [h.cols r hr]
      · simp [hrows]
    · intro i j a b hi hj
      have hi2 := getElem?_some_lt hi
      have hj2 := getElem?_some_lt hj
      simp only [List.length_append, List.length_singleton] at hi2 hj2
      rw [matGet_grow g._adjacencyMatrix vs.length hrows h.cols i j (by omega) (by omega)]
      rw [getElem?_snoc_eq_some] at hi hj
      rcases hi with hi | ⟨hi, rfl⟩
      · rcases hj with hj | ⟨hj, rfl⟩
        · have := getElem?_some_lt hi
          have := getElem?_some_lt hj
          rw [if_pos ⟨by omega, by omega⟩]
          exact h.entry i j a b hi hj
        · rw [if_neg (by omega)]
          cases hE : E a b with
          | false => rfl
          | true => exact absurd (h.support a b hE).2 hv
      · rw [if_neg (by omega)]
        cases hE : E a b with
        | false => rfl
        | true => exact absurd (h.support a b hE).1 hv
    · intro a b hE
      have := h.support a b hE
      simp [this.1, this.2]

theorem AdjacencyMatrix.Inv.addEdge {g : AdjacencyMatrix T} {vs : List T} {E : T → T → Bool}
    (h : g.Inv vs E) (a b : T) :
    ∃ g2, g.addEdge a b = .ok g2 ∧
      g2.Inv (register (register vs a) b)
        (fun x y => E x y || (decide (x = a) && decide (y = b))) := by
  have h1 := (h.addVertex a).addVertex b
  have ha : a ∈ register (register vs a) b := by simp [mem_register]
  have hb : b ∈ register (register vs a) b := by simp [mem_register]
  have hsup : ∀ x y, E x y = true →
      x ∈ register (register vs a) b ∧ y ∈ register (register vs a) b := by
    intro x y hE
    have := h.support x y hE
    simp [mem_register, this.1, this.2]
  unfold AdjacencyMatrix.addEdge
  generalize (g.addVertex a).addVertex b = g1 at h1
  generalize register (register vs a) b = ws at h1 ha hb hsup
  obtain ⟨i, hi⟩ := exists_getElem?_of_mem ha
  obtain ⟨j, hj⟩ := exists_getElem?_of_mem hb
  have hi2 := (h1.v2i a i).2 hi
  have hj2 := (h1.v2i b j).2 hj
  have hlt := getElem?_some_lt hi
  have hjlt := getElem?_some_lt hj
  rw [← h1.rows] at hlt
  have hrow : g1._adjacencyMatrix[i]? = some (g1._adjacencyMatrix[i]) :=
    List.getElem?_eq_getElem hlt
  have hlen := h1.cols _ (List.getElem_mem hlt)
  have hset : matSet g1._adjacencyMatrix i j true =
      .ok (g1._adjacencyMatrix.set i ((g1._adjacencyMatrix[i]).set j true)) := by
    unfold matSet
    rw [hrow]
    simp only
    rw [if_pos (by omega)]
  refine ⟨{ g1 with _adjacencyMatrix :=
    g1._adjacencyMatrix.set i ((g1._adjacencyMatrix[i]).set j true) }, ?_, ?_⟩
  · simp only [mapAt, hi2, hj2, hset]
  · have hl := length_matSet hset
    refine ⟨h1.nodup, h1.v2i, h1.i2v, h1.keysV, h1.keysI, ?_, ?_, ?_, ?_⟩
    · exact hl.1.trans h1.rows
    · exact hl.2 _ h1.cols
    · intro i2 j2 x y hx hy
      show matGet _ i2 j2 = _
      rw [matGet_matSet hset i2 j2]
      by_cases hc : i2 = i ∧ j2 = j
      · obtain ⟨rfl, rfl⟩ := hc
        rw [hi] at hx
        rw [hj] at hy
        cases hx
        cases hy
        simp
      · rw [if_neg hc, h1.entry i2 j2 x y hx hy]
        have : (decide (x = a) && decide (y = b)) = false := by
          rw [Bool.and_eq_false_iff]
          by_contra hcon
          push_neg at hcon
          simp only [ne_eq, Bool.not_eq_false, decide_eq_true_eq] at hcon
          obtain ⟨rfl, rfl⟩ := hcon
          exact hc ⟨getElem?_inj_of_nodup h1.nodup hx hi, getElem?_inj_of_nodup h1.nodup hy hj⟩
        simp [this]
    · intro x y hE
      simp only [Bool.or_eq_true, Bool.and_eq_true, decide_eq_true_eq] at hE
      rcases hE with hE | ⟨rfl, rfl⟩
      · exact hsup x y hE
      · exact ⟨ha, hb⟩
theorem AdjacencyMatrix.runFrom_append (g : AdjacencyMatrix T) (ops : List (Op T)) (op : Op T) :
    AdjacencyMatrix.runFrom g (ops ++ [op]) =
      match AdjacencyMatrix.runFrom g ops with
      | .error e => .error e
      | .ok g1 => g1.step op := by
  induction ops generalizing g with
  | nil =>
    simp only [List.nil_append, AdjacencyMatrix.runFrom]
    cases g.step op <;> rfl
  | cons o ops ih =>
    simp only [List.cons_append, AdjacencyMatrix.runFrom]
    cases g.step o with
    | error e => rfl
    | ok g1 => exact ih g1

theorem recorded_append_addVertex (ops : List (Op T)) (v : T) :
    recorded (ops ++ [Op.addVertex v]) = recorded ops := by
  funext x y
  simp [recorded]

theorem recorded_append_addEdge (ops : List (Op T)) (a b : T) :
    recorded (ops ++ [Op.addEdge a b]) =
      fun x y => recorded ops x y || (decide (x = a) && decide (y = b)) := by
  funext x y
  rw [Bool.eq_iff_iff]
  simp [recorded]

theorem AdjacencyMatrix.Inv.empty :
    AdjacencyMatrix.Inv ({} : AdjacencyMatrix T) [] (recorded []) := by
  refine ⟨List.nodup_nil, ?_, ?_, rfl, rfl, rfl, ?_, ?_, ?_⟩
  · intro v i; simp [mapFind]
  · intro i v; simp [mapFind]
  · intro row hrow; simp at hrow
  · intro i j a b hi; simp at hi
  · intro a b h; simp [recorded] at h

/-- Every call sequence builds an `AdjacencyMatrix` (no call fails), and the result is
consistent with the vertices in order of first appearance and the requested edges. -/
theorem AdjacencyMatrix.run_inv (ops : List (Op T)) :
    ∃ g, AdjacencyMatrix.run ops = .ok g ∧ g.Inv (firstAppearance ops) (recorded ops) := by
  induction ops using List.reverseRecOn with
  | nil => exact ⟨{}, rfl, AdjacencyMatrix.Inv.empty⟩
  | append_singleton ops op ih =>
    obtain ⟨g, hg, hinv⟩ := ih
    unfold AdjacencyMatrix.run at hg ⊢
    rw [AdjacencyMatrix.runFrom_append, hg, firstAppearance_append]
    cases op with
    | addVertex v =>
      refine ⟨g.addVertex v, rfl, ?_⟩
      rw [recorded_append_addVertex]
      exact hinv.addVertex v
    | addEdge a b =>
      obtain ⟨g2, h2, hinv2⟩ := hinv.addEdge a b
      refine ⟨g2, h2, ?_⟩
      rw [recorded_append_addEdge]
      exact hinv2

theorem AdjacencyMatrix.Inv.neighborsLoop {g : AdjacencyMatrix T} {vs : List T}
    {E : T → T → Bool} (h : g.Inv vs E) {i : Nat} {a : T} (hi : vs[i]? = some a)
    (js : List Nat) (hjs : ∀ j ∈ js, j < vs.length) (acc : List T) :
    g.neighborsLoop i js acc =
      .ok (acc ++ (js.filterMap (fun j => vs[j]?)).filter (fun w => E a w)) := by
  induction js generalizing acc with
  | nil => simp [AdjacencyMatrix.neighborsLoop]
  | cons j js ih =>
    have hj : j < vs.length := hjs j (List.mem_cons_self _ _)
    have hjs2 : ∀ k ∈ js, k < vs.length := fun k hk => hjs k (List.mem_cons_of_mem _ hk)
    have hw : vs[j]? = some (vs[j]) := List.getElem?_eq_getElem hj
    have hent := h.entry i j a (vs[j]) hi hw
    have hiv := (h.i2v j (vs[j])).2 hw
    unfold AdjacencyMatrix.neighborsLoop
    rw [hent]
    cases hE : E a (vs[j]) with
    | false =>
      simp only
      rw [ih hjs2 acc]
      simp [List.filterMap_cons, hw, List.filter_cons, hE]
    | true =>
      simp only [mapAt, hiv]
      rw [ih hjs2 (acc ++ [vs[j]])]
      simp [List.filterMap_cons, hw, List.filter_cons, hE]

theorem filterMap_range_getElem? {α : Type} (vs : List α) :
    (List.range vs.length).filterMap (fun j => vs[j]?) = vs := by
  induction vs using List.reverseRecOn with
  | nil => rfl
  | append_singleton vs v ih =>
    rw [List.length_append, List.length_singleton, List.range_succ, List.filterMap_append]
    have h1 : (List.range vs.length).filterMap (fun j => (vs ++ [v])[j]?) =
        (List.range vs.length).filterMap (fun j => vs[j]?) := by
      apply List.filterMap_congr
      intro j hj
      rw [List.mem_range] at hj
      exact List.getElem?_append_left hj
    rw [h1, ih]
    simp

/-- The neighbours reported by a consistent matrix: the vertices in index order,
filtered by the edge table. -/
theorem AdjacencyMatrix.Inv.getNeighbors {g : AdjacencyMatrix T} {vs : List T}
    {E : T → T → Bool} (h : g.Inv vs E) {a : T} (ha : a ∈ vs) :
    g.getNeighbors a = .ok (vs.filter (fun w => E a w)) := by
  obtain ⟨i, hi⟩ := exists_getElem?_of_mem ha
  have hi2 := (h.v2i a i).2 hi
  unfold AdjacencyMatrix.getNeighbors
  simp only [mapAt, hi2]
  rw [h.neighborsLoop hi (List.range g._adjacencyMatrix.length)
    (by intro j hj; rw [List.mem_range, h.rows] at hj; exact hj) [], h.rows,
    filterMap_range_getElem?]
  simp

theorem AdjacencyMatrix.Inv.isAdjacent {g : AdjacencyMatrix T} {vs : List T}
    {E : T → T → Bool} (h : g.Inv vs E) {a b : T} (ha : a ∈ vs) (hb : b ∈ vs) :
    g.isAdjacent a b = (.ok (E a b), g) := by
  obtain ⟨i, hi⟩ := exists_getElem?_of_mem ha
  obtain ⟨j, hj⟩ := exists_getElem?_of_mem hb
  unfold AdjacencyMatrix.isAdjacent
  simp only [mapAt, (h.v2i a i).2 hi, (h.v2i b j).2 hj, h.entry i j a b hi hj]
/-! ## Walks -/

theorem Walk.append {E : T → T → Prop} {s v w : T} {n m : Nat}
    (h1 : Walk E s v n) (h2 : Walk E v w m) : Walk E s w (n + m) := by
  induction h2 with
  | nil => exact h1
  | snoc _ he ih => exact Walk.snoc ih he

theorem Reach.reach_refl (E : T → T → Prop) (s : T) : Reach E s s := ⟨0, Walk.nil⟩

theorem Reach.reach_step {E : T → T → Prop} {s v w : T} (h : Reach E s v) (he : E v w) :
    Reach E s w := by
  obtain ⟨n, hn⟩ := h
  exact ⟨n + 1, Walk.snoc hn he⟩

theorem Reach.reach_trans {E : T → T → Prop} {s v w : T} (h1 : Reach E s v) (h2 : Reach E v w) :
    Reach E s w := by
  obtain ⟨n, hn⟩ := h1
  obtain ⟨m, hm⟩ := h2
  exact ⟨n + m, hn.append hm⟩

theorem Reach.reach_head {E : T → T → Prop} {s v w : T} (he : E s v) (h : Reach E v w) :
    Reach E s w :=
  Reach.reach_trans ((Reach.reach_refl E s).reach_step he) h

theorem Closer.closer_refl (E : T → T → Prop) (s u : T) : Closer E s u u :=
  fun n h => ⟨n, le_refl n, h⟩

/-! ## Depth-first traversal -/

theorem unvisited_mono (U : List T) {Vis Vis2 : List T} (h : ∀ x, x ∈ Vis → x ∈ Vis2) :
    unvisited U Vis2 ≤ unvisited U Vis := by
  unfold unvisited
  apply List.countP_mono_left
  intro x _ hx
  simp only [decide_eq_true_eq] at hx ⊢
  exact fun hc => hx (h x hc)

theorem countP_lt_of_imp {α : Type} (p q : α → Bool) (U : List α)
    (himp : ∀ x, p x = true → q x = true) (s : α) (hs : s ∈ U) (hq : q s = true)
    (hp : p s = false) : U.countP p < U.countP q := by
  induction U with
  | nil => cases hs
  | cons u U ih =>
    have hle : U.countP p ≤ U.countP q := List.countP_mono_left (fun x _ => himp x)
    rw [List.countP_cons, List.countP_cons]
    by_cases hu : u = s
    · subst hu
      rw [hq, hp]
      simp only [if_true]
      have : (if false = true then 1 else 0) = 0 := rfl
      omega
    · have hs2 : s ∈ U := by
        rcases List.mem_cons.1 hs with h | h
        · exact absurd h.symm hu
        · exact h
      have h3 := ih hs2
      cases hpu : p u with
      | false =>
        have : (if false = true then 1 else 0) = 0 := rfl
        rw [this]
        omega
      | true =>
        rw [himp u hpu]
        omega

theorem unvisited_lt (U : List T) {Vis : List T} {s : T} (hs : s ∈ U) (hn : s ∉ Vis) :
    unvisited U (s :: Vis) < unvisited U Vis := by
  unfold unvisited
  apply countP_lt_of_imp _ _ U _ s hs
  · simpa using hn
  · simp
  · intro x hx
    simp only [decide_eq_true_eq] at hx ⊢
    exact fun hc => hx (List.mem_cons_of_mem _ hc)

theorem unvisited_le_length (U Vis : List T) : unvisited U Vis ≤ U.length :=
  List.countP_le_length _

theorem dfsLoop_spec {G : Graph T} {U : List T} {E : T → T → Prop} (fuel : Nat)
    (H : ∀ source Vis Res, source ∈ U → source ∉ Vis → unvisited U Vis ≤ fuel →
      ∃ l Vis2, _dfs G fuel source (Vis, Res) = .ok (Vis2, Res ++ source :: l) ∧
        DfsPost U E Vis (source :: l) Vis2 ∧ ∀ x ∈ source :: l, Reach E source x)
    (ns : List T) :
    ∀ Vis Res, (∀ n ∈ ns, n ∈ U) → unvisited U Vis ≤ fuel →
      ∃ l Vis2, dfsLoop (_dfs G fuel) ns (Vis, Res) = .ok (Vis2, Res ++ l) ∧
        DfsPost U E Vis l Vis2 ∧ (∀ x ∈ l, ∃ n ∈ ns, Reach E n x) ∧ ∀ n ∈ ns, n ∈ Vis2 := by
  induction ns with
  | nil =>
    intro Vis Res _ _
    refine ⟨[], Vis, by simp [dfsLoop], ⟨by simp, List.nodup_nil, ?_, ?_, ?_⟩, ?_, ?_⟩ <;>
      simp
  | cons n rest ih =>
    intro Vis Res hU hfuel
    have hUrest : ∀ m ∈ rest, m ∈ U := fun m hm => hU m (List.mem_cons_of_mem _ hm)
    by_cases hn : n ∈ Vis
    · obtain ⟨l, Vis2, hrun, hpost, hreach, hall⟩ := ih Vis Res hUrest hfuel
      refine ⟨l, Vis2, ?_, hpost, ?_, ?_⟩
      · simp only [dfsLoop, hn, if_true]
        exact hrun
      · intro x hx
        obtain ⟨m, hm, hr⟩ := hreach x hx
        exact ⟨m, List.mem_cons_of_mem _ hm, hr⟩
      · intro m hm
        rcases List.mem_cons.1 hm with rfl | hm
        · exact (hpost.1 m).2 (Or.inl hn)
        · exact hall m hm
    · obtain ⟨l1, Vis1, hrun1, hpost1, hreach1⟩ :=
        H n Vis Res (hU n (List.mem_cons_self _ _)) hn hfuel
      have hsub : ∀ x, x ∈ Vis → x ∈ Vis1 := fun x hx => (hpost1.1 x).2 (Or.inl hx)
      obtain ⟨l2, Vis2, hrun2, hpost2, hreach2, hall2⟩ :=
        ih Vis1 (Res ++ n :: l1) hUrest (le_trans (unvisited_mono U hsub) hfuel)
      obtain ⟨hm1, hnd1, hfr1, hu1, hcl1⟩ := hpost1
      obtain ⟨hm2, hnd2, hfr2, hu2, hcl2⟩ := hpost2
      refine ⟨(n :: l1) ++ l2, Vis2, ?_, ⟨?_, ?_, ?_, ?_, ?_⟩, ?_, ?_⟩
      · simp only [dfsLoop, hn, if_false, hrun1]
        rw [hrun2, List.append_assoc]
      · intro x
        rw [hm2, hm1, List.mem_append, or_assoc]
      · rw [List.nodup_append]
        refine ⟨hnd1, hnd2, ?_⟩
        intro x hx1 hx2
        exact hfr2 x hx2 ((hm1 x).2 (Or.inr hx1))
      · intro x hx
        rcases List.mem_append.1 hx with hx | hx
        · exact hfr1 x hx
        · exact fun hc => hfr2 x hx (hsub x hc)
      · intro x hx
        rcases List.mem_append.1 hx with hx | hx
        · exact hu1 x hx
        · exact hu2 x hx
      · intro x hx w hw
        rcases List.mem_append.1 hx with hx | hx
        · exact (hm2 w).2 (Or.inl (hcl1 x hx w hw))
        · exact hcl2 x hx w hw
      · intro x hx
        rcases List.mem_append.1 hx with hx | hx
        · exact ⟨n, List.mem_cons_self _ _, hreach1 x hx⟩
        · obtain ⟨m, hm, hr⟩ := hreach2 x hx
          exact ⟨m, List.mem_cons_of_mem _ hm, hr⟩
      · intro m hm
        rcases List.mem_cons.1 hm with rfl | hm
        · exact (hm2 m).2 (Or.inl ((hm1 m).2 (Or.inr (List.mem_cons_self _ _))))
        · exact hall2 m hm

theorem _dfs_spec {G : Graph T} {U : List T} {E : T → T → Prop} (hc : Closed G U E)
    (fuel : Nat) :
    ∀ source Vis Res, source ∈ U → source ∉ Vis → unvisited U Vis ≤ fuel →
      ∃ l Vis2, _dfs G fuel source (Vis, Res) = .ok (Vis2, Res ++ source :: l) ∧
        DfsPost U E Vis (source :: l) Vis2 ∧ ∀ x ∈ source :: l, Reach E source x := by
  induction fuel with
  | zero =>
    intro source Vis Res hs hn hfuel
    have := unvisited_lt U hs hn
    omega
  | succ fuel ih =>
    intro source Vis Res hs hn hfuel
    obtain ⟨ns, hns, hE, hnsU⟩ := hc.answers source hs
    have hlt := unvisited_lt U hs hn
    obtain ⟨l, Vis2, hrun, ⟨hm, hnd, hfr, hu, hcl⟩, hreach, hall⟩ :=
      dfsLoop_spec fuel ih ns (source :: Vis) (Res ++ [source]) hnsU (by omega)
    refine ⟨l, Vis2, ?_, ⟨?_, ?_, ?_, ?_, ?_⟩, ?_⟩
    · simp only [_dfs, hns]
      rw [hrun, List.append_assoc, List.singleton_append]
    · intro x
      rw [hm, List.mem_cons, List.mem_cons]
      tauto
    · rw [List.nodup_cons]
      exact ⟨fun h => hfr source h (List.mem_cons_self _ _), hnd⟩
    · intro x hx
      rcases List.mem_cons.1 hx with rfl | hx
      · exact hn
      · exact fun h => hfr x hx (List.mem_cons_of_mem _ h)
    · intro x hx
      rcases List.mem_cons.1 hx with rfl | hx
      · exact hs
      · exact hu x hx
    · intro x hx w hw
      rcases List.mem_cons.1 hx with rfl | hx
      · exact hall w ((hE w).2 hw)
      · exact hcl x hx w hw
    · intro x hx
      rcases List.mem_cons.1 hx with rfl | hx
      · exact Reach.reach_refl E x
      · obtain ⟨n, hn2, hr⟩ := hreach x hx
        exact Reach.reach_head ((hE n).1 hn2) hr

/-- Depth-first traversal over a closed vertex universe: with a budget of at least
the size of the universe `dfs` returns, and the result is duplicate-free, starts with
the start vertex and holds exactly the vertices reachable from it. -/
theorem dfs_spec {G : Graph T} {U : List T} {E : T → T → Prop} (hc : Closed G U E)
    {s : T} (hs : s ∈ U) {fuel : Nat} (hfuel : U.length ≤ fuel) :
    ∃ r, dfs fuel G s = .ok r ∧ r.Nodup ∧ r.head? = some s ∧ ∀ v, v ∈ r ↔ Reach E s v := by
  obtain ⟨l, Vis2, hrun, ⟨hm, hnd, _, _, hcl⟩, hreach⟩ :=
    _dfs_spec hc fuel s [] [] hs (by simp) (le_trans (unvisited_le_length U []) hfuel)
  refine ⟨s :: l, ?_, hnd, rfl, ?_⟩
  · simp only [dfs, hrun, List.nil_append]
  · intro v
    constructor
    · exact hreach v
    · rintro ⟨n, hw⟩
      induction hw with
      | nil => exact List.mem_cons_self _ _
      | snoc _ he ih =>
        have := (hm _).1 (hcl _ ih _ he)
        simpa using this
/-! ## Breadth-first traversal -/

theorem bfsVisit_spec (ns : List T) :
    ∀ Vis Q : List T, ∃ Vis2 added, bfsVisit ns (Vis, Q) = (Vis2, Q ++ added) ∧
      (∀ x, x ∈ Vis2 ↔ x ∈ Vis ∨ x ∈ added) ∧ added.Nodup ∧
      (∀ x ∈ added, x ∉ Vis ∧ x ∈ ns) ∧ ∀ n ∈ ns, n ∈ Vis2 := by
  induction ns with
  | nil =>
    intro Vis Q
    exact ⟨Vis, [], by simp [bfsVisit], by simp, List.nodup_nil, by simp, by simp⟩
  | cons n rest ih =>
    intro Vis Q
    by_cases hn : n ∈ Vis
    · obtain ⟨Vis2, added, hrun, hm, hnd, hfr, hall⟩ := ih Vis Q
      refine ⟨Vis2, added, ?_, hm, hnd, ?_, ?_⟩
      · simp only [bfsVisit, hn, if_true]
        exact hrun
      · exact fun x hx => ⟨(hfr x hx).1, List.mem_cons_of_mem _ (hfr x hx).2⟩
      · intro m hm2
        rcases List.mem_cons.1 hm2 with rfl | hm2
        · exact (hm m).2 (Or.inl hn)
        · exact hall m hm2
    · obtain ⟨Vis2, added, hrun, hm, hnd, hfr, hall⟩ := ih (n :: Vis) (Q ++ [n])
      refine ⟨Vis2, n :: added, ?_, ?_, ?_, ?_, ?_⟩
      · simp only [bfsVisit, hn, if_false]
        rw [hrun, List.append_assoc, List.singleton_append]
      · intro x
        rw [hm, List.mem_cons, List.mem_cons]
        tauto
      · rw [List.nodup_cons]
        exact ⟨fun h => (hfr n h).1 (List.mem_cons_self _ _), hnd⟩
      · intro x hx
        rcases List.mem_cons.1 hx with rfl | hx
        · exact ⟨hn, List.mem_cons_self _ _⟩
        · exact ⟨fun h => (hfr x hx).1 (List.mem_cons_of_mem _ h),
            List.mem_cons_of_mem _ (hfr x hx).2⟩
      · intro m hm2
        rcases List.mem_cons.1 hm2 with rfl | hm2
        · exact (hm m).2 (Or.inl (List.mem_cons_self _ _))
        · exact hall m hm2

theorem BfsInv.init (U : List T) (E : T → T → Prop) {s : T} (hs : s ∈ U) :
    BfsInv U E s [s] [] [s] := by
  refine ⟨by simp, by simp, ?_, ?_, rfl, by simp, by simp, ?_⟩
  · intro x hx
    simp only [List.nil_append, List.mem_singleton] at hx
    subst hx
    exact hs
  · intro x hx
    simp only [List.nil_append, List.mem_singleton] at hx
    subst hx
    exact Reach.reach_refl E x
  · intro c hc x hx n _
    simp only [List.nil_append, List.mem_singleton] at hc hx
    subst hc hx
    exact ⟨0, Nat.zero_le _, Walk.nil⟩

theorem BfsInv.start_mem {U : List T} {E : T → T → Prop} {s : T} {Vis Res Q : List T}
    (inv : BfsInv U E s Vis Res Q) : s ∈ Res ++ Q :=
  List.mem_of_mem_head? inv.start

theorem BfsInv.head_closer {U : List T} {E : T → T → Prop} {s c : T} {Vis Res Q : List T}
    (inv : BfsInv U E s Vis Res (c :: Q)) : ∀ y ∈ Q, Closer E s c y := by
  have h := inv.sorted
  rw [List.pairwise_append] at h
  exact (List.pairwise_cons.1 h.2.1).1

/-- Every walk from the start either ends inside the discovered vertices or is longer
than some walk to the vertex at the front of the queue. -/
theorem BfsInv.frontier {U : List T} {E : T → T → Prop} {s c : T} {Vis Res Q : List T}
    (inv : BfsInv U E s Vis Res (c :: Q)) :
    ∀ y n, Walk E s y n → y ∈ Res ++ c :: Q ∨ ∃ k, k < n ∧ Walk E s c k := by
  intro y n hw
  induction hw with
  | nil => exact Or.inl inv.start_mem
  | @snoc v w n hv he ih =>
    rcases ih with hin | ⟨k, hk, hck⟩
    · rcases List.mem_append.1 hin with hres | hq
      · exact Or.inl (inv.closed v hres w he)
      · rcases List.mem_cons.1 hq with rfl | hq
        · exact Or.inr ⟨n, Nat.lt_succ_self n, hv⟩
        · obtain ⟨m, hm, hcm⟩ := inv.head_closer v hq n hv
          exact Or.inr ⟨m, by omega, hcm⟩
    · exact Or.inr ⟨k, by omega, hck⟩

theorem BfsInv.advance {G : Graph T} {U : List T} {E : T → T → Prop} (hc : Closed G U E)
    {s c : T} {Vis Res Q ns : List T} (inv : BfsInv U E s Vis Res (c :: Q))
    (hns : G.getNeighbors c = .ok ns) :
    BfsInv U E s (bfsVisit ns (Vis, Q)).1 (Res ++ [c]) (bfsVisit ns (Vis, Q)).2 := by
  have hcS : c ∈ Res ++ c :: Q := List.mem_append_right _ (List.mem_cons_self _ _)
  obtain ⟨ns2, hns2, hE, hnsU⟩ := hc.answers c (inv.inU c hcS)
  rw [hns] at hns2
  cases hns2
  obtain ⟨Vis2, added, hrun, hm, hnd, hfr, hall⟩ := bfsVisit_spec ns Vis Q
  rw [hrun]
  have hS : (Res ++ [c]) ++ (Q ++ added) = (Res ++ c :: Q) ++ added := by simp
  have hfresh : ∀ x ∈ added, x ∉ Res ++ c :: Q :=
    fun x hx h => (hfr x hx).1 ((inv.vis x).2 h)
  have hEdge : ∀ x ∈ added, E c x := fun x hx => (hE x).1 (hfr x hx).2
  have hK : ∀ y ∈ added, ∀ n, Walk E s y n → ∃ k, k < n ∧ Walk E s c k := by
    intro y hy n hw
    rcases inv.frontier y n hw with h | h
    · exact absurd h (hfresh y hy)
    · exact h
  have hcloser : ∀ y ∈ Q ++ added, ∀ n, Walk E s y n → ∃ k, k ≤ n ∧ Walk E s c k := by
    intro y hy n hw
    rcases List.mem_append.1 hy with hy | hy
    · exact inv.head_closer y hy n hw
    · obtain ⟨k, hk, hck⟩ := hK y hy n hw
      exact ⟨k, by omega, hck⟩
  have hnear : ∀ x ∈ (Res ++ c :: Q) ++ added, ∀ k, Walk E s c k →
      ∃ m, m ≤ k + 1 ∧ Walk E s x m := by
    intro x hx k hck
    rcases List.mem_append.1 hx with hx | hx
    · exact inv.near c (List.mem_cons_self _ _) x hx k hck
    · exact ⟨k + 1, le_refl _, Walk.snoc hck (hEdge x hx)⟩
  refine ⟨?_, ?_, ?_, ?_, ?_, ?_, ?_, ?_⟩
  · intro x
    show x ∈ Vis2 ↔ x ∈ (Res ++ [c]) ++ (Q ++ added)
    rw [hS, hm, inv.vis]
    exact List.mem_append.symm
  · show ((Res ++ [c]) ++ (Q ++ added)).Nodup
    rw [hS, List.nodup_append]
    exact ⟨inv.nodup, hnd, fun x hx1 hx2 => hfresh x hx2 hx1⟩
  · intro x hx
    have hx2 : x ∈ (Res ++ c :: Q) ++ added := by rw [← hS]; exact hx
    rcases List.mem_append.1 hx2 with h | h
    · exact inv.inU x h
    · exact hnsU x (hfr x h).2
  · intro x hx
    have hx2 : x ∈ (Res ++ c :: Q) ++ added := by rw [← hS]; exact hx
    rcases List.mem_append.1 hx2 with h | h
    · exact inv.reach x h
    · exact (inv.reach c hcS).reach_step (hEdge x h)
  · show ((Res ++ [c]) ++ (Q ++ added)).head? = some s
    rw [hS, List.head?_append, inv.start]
    rfl
  · show ((Res ++ [c]) ++ (Q ++ added)).Pairwise (Closer E s)
    rw [hS, List.pairwise_append]
    refine ⟨inv.sorted, List.pairwise_of_forall_mem_list ?_, ?_⟩
    · intro x hx y hy n hw
      obtain ⟨k, hk, hck⟩ := hK y hy n hw
      exact ⟨k + 1, by omega, Walk.snoc hck (hEdge x hx)⟩
    · intro u hu y hy n hw
      obtain ⟨k, hk, hck⟩ := hK y hy n hw
      obtain ⟨m, hm2, hum⟩ := inv.near c (List.mem_cons_self _ _) u hu k hck
      exact ⟨m, by omega, hum⟩
  · intro x hx w hw
    show w ∈ (Res ++ [c]) ++ (Q ++ added)
    rw [hS]
    rcases List.mem_append.1 hx with h | h
    · exact List.mem_append_left _ (inv.closed x h w hw)
    · rw [List.mem_singleton] at h
      subst h
      have := (hm w).1 (hall w ((hE w).2 hw))
      rw [inv.vis] at this
      exact List.mem_append.2 this
  · intro y hy x hx n hw
    have hx2 : x ∈ (Res ++ c :: Q) ++ added := by rw [← hS]; exact hx
    obtain ⟨k, hk, hck⟩ := hcloser y hy n hw
    obtain ⟨m, hm2, hxm⟩ := hnear x hx2 k hck
    exact ⟨m, by omega, hxm⟩

theorem length_le_of_nodup_subset {l U : List T} (hnd : l.Nodup) (hsub : ∀ x ∈ l, x ∈ U) :
    l.length ≤ U.length :=
  (List.Nodup.subperm hnd hsub).length_le

theorem bfsLoop_spec {G : Graph T} {U : List T} {E : T → T → Prop} (hc : Closed G U E)
    {s : T} (fuel : Nat) :
    ∀ Vis Res Q, BfsInv U E s Vis Res Q → U.length ≤ fuel + Res.length →
      ∃ r Vis2, bfsLoop G fuel Vis Res Q = .ok r ∧ BfsInv U E s Vis2 r [] := by
  induction fuel with
  | zero =>
    intro Vis Res Q inv hfuel
    cases Q with
    | nil => exact ⟨Res, Vis, by simp [bfsLoop], inv⟩
    | cons c Q =>
      have := length_le_of_nodup_subset inv.nodup inv.inU
      simp only [List.length_append, List.length_cons] at this
      omega
  | succ fuel ih =>
    intro Vis Res Q inv hfuel
    cases Q with
    | nil => exact ⟨Res, Vis, by simp [bfsLoop], inv⟩
    | cons c Q =>
      have hcS : c ∈ Res ++ c :: Q := List.mem_append_right _ (List.mem_cons_self _ _)
      obtain ⟨ns, hns, -, -⟩ := hc.answers c (inv.inU c hcS)
      have inv2 := inv.advance hc hns
      have hlen : U.length ≤ fuel + (Res ++ [c]).length := by
        simp only [List.length_append, List.length_singleton]
        omega
      obtain ⟨r, Vis2, hrun, hinv⟩ := ih _ _ _ inv2 hlen
      refine ⟨r, Vis2, ?_, hinv⟩
      simp only [bfsLoop, hns]
      exact hrun

/-- Breadth-first traversal over a closed vertex universe: with a budget of at least
the size of the universe `bfs` returns, and the result is duplicate-free, starts with
the start vertex, holds exactly the vertices reachable from it, and lists them by
non-decreasing distance from the start. -/
theorem bfs_spec {G : Graph T} {U : List T} {E : T → T → Prop} (hc : Closed G U E)
    {s : T} (hs : s ∈ U) {fuel : Nat} (hfuel : U.length ≤ fuel) :
    ∃ r, bfs fuel G s = .ok r ∧ r.Nodup ∧ r.head? = some s ∧ (∀ v, v ∈ r ↔ Reach E s v) ∧
      r.Pairwise (Closer E s) := by
  obtain ⟨r, Vis2, hrun, inv⟩ :=
    bfsLoop_spec hc fuel [s] [] [s] (BfsInv.init U E hs) (by simpa using hfuel)
  have hnd := inv.nodup
  have hst := inv.start
  have hso := inv.sorted
  rw [List.append_nil] at hnd hst hso
  refine ⟨r, hrun, hnd, hst, ?_, hso⟩
  intro v
  constructor
  · intro hv
    exact inv.reach v (by simpa using hv)
  · rintro ⟨n, hw⟩
    induction hw with
    | nil => simpa using inv.start_mem
    | snoc _ he ih => simpa using inv.closed _ ih _ he

theorem Closer.dist_le {E : T → T → Prop} {s u w : T} (h : Closer E s u w) {du dw : Nat}
    (hu : IsDist E s u du) (hw : IsDist E s w dw) : du ≤ dw := by
  obtain ⟨m, hm, hum⟩ := h dw hw.1
  exact le_trans (hu.2 m hum) hm
/-! ## The three representations as closed graphs -/

theorem edgeList_closed_run (ops : List (Op T)) (extra : List T) :
    Closed (EdgeList.run ops).toGraph (extra ++ firstAppearance ops) (Recorded ops) := by
  refine ⟨fun v _ => ⟨targets ops v, edgeList_getNeighbors_run ops v, ?_, ?_⟩⟩
  · exact fun w => mem_targets ops v w
  · intro w hw
    exact List.mem_append_right _
      ((mem_firstAppearance ops w).2 ((mem_targets ops v w).1 hw).registered.2)

theorem adjList_closed_run (ops : List (Op T)) :
    Closed (AdjacencyList.run ops).toGraph (firstAppearance ops) (Recorded ops) := by
  refine ⟨fun v hv => ⟨targets ops v, adjList_getNeighbors_run ops v hv, ?_, ?_⟩⟩
  · exact fun w => mem_targets ops v w
  · intro w hw
    exact (mem_firstAppearance ops w).2 ((mem_targets ops v w).1 hw).registered.2

theorem AdjacencyMatrix.mem_filter_recorded (ops : List (Op T)) (a w : T) :
    w ∈ (firstAppearance ops).filter (fun x => recorded ops a x) ↔ Recorded ops a w := by
  rw [List.mem_filter, recorded_iff, mem_firstAppearance]
  exact ⟨fun h => h.2, fun h => ⟨h.registered.2, h⟩⟩

theorem AdjacencyMatrix.closed_of_inv {g : AdjacencyMatrix T} {ops : List (Op T)}
    (h : g.Inv (firstAppearance ops) (recorded ops)) :
    Closed g.toGraph (firstAppearance ops) (Recorded ops) := by
  refine ⟨fun v hv => ⟨_, h.getNeighbors hv, ?_, ?_⟩⟩
  · exact fun w => AdjacencyMatrix.mem_filter_recorded ops v w
  · intro w hw
    exact (List.mem_filter.1 hw).1

/-! ## A larger budget does not change a result -/

theorem dfsLoop_mono {visit visit2 : T → List T × List T → Except GraphError (List T × List T)}
    (h : ∀ n st r, visit n st = .ok r → visit2 n st = .ok r) (ns : List T) :
    ∀ st r, dfsLoop visit ns st = .ok r → dfsLoop visit2 ns st = .ok r := by
  induction ns with
  | nil => intro st r hr; simpa [dfsLoop] using hr
  | cons n rest ih =>
    intro st r hr
    by_cases hn : n ∈ st.1
    · simp only [dfsLoop, hn, if_true] at hr ⊢
      exact ih st r hr
    · simp only [dfsLoop, hn, if_false] at hr ⊢
      cases hv : visit n st with
      | error e => simp [hv] at hr
      | ok st1 =>
        rw [hv] at hr
        rw [h n st st1 hv]
        exact ih st1 r hr

theorem _dfs_mono (G : Graph T) (fuel : Nat) :
    ∀ source st r, _dfs G fuel source st = .ok r → _dfs G (fuel + 1) source st = .ok r := by
  induction fuel with
  | zero => intro source st r hr; simp [_dfs] at hr
  | succ fuel ih =>
    intro source st r hr
    rw [_dfs] at hr ⊢
    cases hns : G.getNeighbors source with
    | error e => simp [hns] at hr
    | ok ns =>
      rw [hns] at hr
      exact dfsLoop_mono ih ns _ r hr

theorem dfs_mono {G : Graph T} {fuel fuel2 : Nat} {s : T} {r : List T}
    (h : dfs fuel G s = .ok r) (hle : fuel ≤ fuel2) : dfs fuel2 G s = .ok r := by
  induction hle with
  | refl => exact h
  | @step m _ ih =>
    unfold dfs at ih ⊢
    cases hrun : _dfs G m s ([], []) with
    | error e => simp [hrun] at ih
    | ok st =>
      rw [hrun] at ih
      rw [_dfs_mono G m s _ st hrun]
      exact ih

theorem bfsLoop_mono (G : Graph T) (fuel : Nat) :
    ∀ Vis Res Q r, bfsLoop G fuel Vis Res Q = .ok r → bfsLoop G (fuel + 1) Vis Res Q = .ok r := by
  induction fuel with
  | zero =>
    intro Vis Res Q r hr
    cases Q with
    | nil => simpa [bfsLoop] using hr
    | cons c Q => simp [bfsLoop] at hr
  | succ fuel ih =>
    intro Vis Res Q r hr
    cases Q with
    | nil => simpa [bfsLoop] using hr
    | cons c Q =>
      rw [bfsLoop] at hr ⊢
      cases hns : G.getNeighbors c with
      | error e => simp [hns] at hr
      | ok ns =>
        rw [hns] at hr
        exact ih _ _ _ r hr

theorem bfs_mono {G : Graph T} {fuel fuel2 : Nat} {s : T} {r : List T}
    (h : bfs fuel G s = .ok r) (hle : fuel ≤ fuel2) : bfs fuel2 G s = .ok r := by
  induction hle with
  | refl => exact h
  | step _ ih => exact bfsLoop_mono G _ _ _ _ r ih

/-! ## Distances exist for reachable vertices -/

theorem Reach.exists_dist {E : T → T → Prop} {s v : T} (h : Reach E s v) :
    ∃ d, IsDist E s v d := by
  classical
  exact ⟨Nat.find h, Nat.find_spec h, fun m hm => Nat.find_min' h hm⟩

/-- Traversal facts shared by the three representations: over a closed universe both
traversals return a result that does not depend on the budget once it is large
enough, and the results have the stated shape. -/
theorem traversal_spec {G : Graph T} {U : List T} {E : T → T → Prop} (hc : Closed G U E)
    {s : T} (hs : s ∈ U) :
    ∃ rd rb, (∀ fuel, U.length ≤ fuel → dfs fuel G s = .ok rd) ∧
      (∀ fuel, U.length ≤ fuel → bfs fuel G s = .ok rb) ∧
      rd.Nodup ∧ rd.head? = some s ∧ (∀ v, v ∈ rd ↔ Reach E s v) ∧
      rb.Nodup ∧ rb.head? = some s ∧ (∀ v, v ∈ rb ↔ Reach E s v) ∧
      rb.Pairwise (Closer E s) := by
  obtain ⟨rd, hd, hd1, hd2, hd3⟩ := dfs_spec hc hs (le_refl U.length)
  obtain ⟨rb, hb, hb1, hb2, hb3, hb4⟩ := bfs_spec hc hs (le_refl U.length)
  exact ⟨rd, rb, fun fuel hf => dfs_mono hd hf, fun fuel hf => bfs_mono hb hf,
    hd1, hd2, hd3, hb1, hb2, hb3, hb4⟩
theorem adjList_isAdjacent_run (ops : List (Op T)) (a b : T) :
    ((AdjacencyList.run ops).isAdjacent a b).1 = .ok (recorded ops a b) := by
  unfold AdjacencyList.isAdjacent mapSubscript
  have hfind := adjList_find_run ops a
  by_cases ha : a ∈ firstAppearance ops
  · rw [if_pos ha] at hfind
    simp only [hfind]
    congr 1
    rw [Bool.eq_iff_iff, recorded_iff, ← mem_targets]
    simp
  · rw [if_neg ha] at hfind
    simp only [hfind]
    congr 1
    rw [Bool.eq_iff_iff, recorded_iff]
    constructor
    · intro h; simp at h
    · intro h
      exact absurd ((mem_firstAppearance ops a).2 h.registered.1) ha

theorem AdjacencyMatrix.run_snoc {ops : List (Op T)} {g : AdjacencyMatrix T}
    (h : AdjacencyMatrix.run ops = .ok g) (op : Op T) :
    AdjacencyMatrix.run (ops ++ [op]) = g.step op := by
  unfold AdjacencyMatrix.run at h ⊢
  rw [AdjacencyMatrix.runFrom_append, h]

theorem recorded_snoc_self (ops : List (Op T)) (a b : T) :
    recorded (ops ++ [Op.addEdge a b]) a b = true := by
  simp [recorded]

theorem registered_snoc_addEdge (ops : List (Op T)) (a b : T) :
    a ∈ firstAppearance (ops ++ [Op.addEdge a b]) ∧
      b ∈ firstAppearance (ops ++ [Op.addEdge a b]) := by
  constructor <;> rw [mem_firstAppearance] <;>
    exact ⟨Op.addEdge a b, by simp, by simp [Op.touched]⟩

/-! ## The properties -/

/-- C1: in each of the three representations, for every state built from empty by
`addVertex`/`addEdge` calls and all vertices `a`, `b` (also `a = b`), after
`addEdge(a, b)` the query `isAdjacent(a, b)` returns true and `b` is an element of
`getNeighbors(a)`; for the matrix the `addEdge` call itself succeeds. -/
theorem addEdge_then_adjacent (ops : List (Op T)) (a b : T) :
    ((((EdgeList.run ops).addEdge a b).isAdjacent a b).1 = .ok true ∧
      ∃ ns, ((EdgeList.run ops).addEdge a b).getNeighbors a = .ok ns ∧ b ∈ ns) ∧
    ((((AdjacencyList.run ops).addEdge a b).isAdjacent a b).1 = .ok true ∧
      ∃ ns, ((AdjacencyList.run ops).addEdge a b).getNeighbors a = .ok ns ∧ b ∈ ns) ∧
    (∃ g g2, AdjacencyMatrix.run ops = .ok g ∧ g.addEdge a b = .ok g2 ∧
      (g2.isAdjacent a b).1 = .ok true ∧
      ∃ ns, g2.getNeighbors a = .ok ns ∧ b ∈ ns) := by
  have hrec : Recorded (ops ++ [Op.addEdge a b]) a b := by simp [Recorded]
  have hreg := registered_snoc_addEdge ops a b
  refine ⟨?_, ?_, ?_⟩
  · have e : (EdgeList.run ops).addEdge a b = EdgeList.run (ops ++ [Op.addEdge a b]) := by
      rw [edgeList_run_append]; rfl
    rw [e, edgeList_isAdjacent_run, recorded_snoc_self]
    exact ⟨rfl, _, edgeList_getNeighbors_run _ a, (mem_targets _ a b).2 hrec⟩
  · have e : (AdjacencyList.run ops).addEdge a b =
        AdjacencyList.run (ops ++ [Op.addEdge a b]) := by
      rw [adjList_run_append]; rfl
    rw [e, adjList_isAdjacent_run, recorded_snoc_self]
    exact ⟨rfl, _, adjList_getNeighbors_run _ a hreg.1, (mem_targets _ a b).2 hrec⟩
  · obtain ⟨g, hg, -⟩ := AdjacencyMatrix.run_inv ops
    obtain ⟨g2, hg2, hinv2⟩ := AdjacencyMatrix.run_inv (ops ++ [Op.addEdge a b])
    rw [AdjacencyMatrix.run_snoc hg] at hg2
    refine ⟨g, g2, hg, hg2, ?_, _, hinv2.getNeighbors hreg.1, ?_⟩
    · rw [hinv2.isAdjacent hreg.1 hreg.2, recorded_snoc_self]
    · exact (AdjacencyMatrix.mem_filter_recorded _ a b).2 hrec

/-- C2: in each of the three representations, after any sequence of
`addVertex`/`addEdge` calls on an empty graph, `isAdjacent(a, b)` returns a boolean
that is true exactly when the sequence contains the call `addEdge(a, b)`: for all
`a`, `b` on the `EdgeList`, for registered `a`, `b` on the other two. No edge is made
up, and a recorded edge is still reported after any further calls `more`. -/
theorem isAdjacent_iff_recorded (ops : List (Op T)) :
    (∀ a b, ∃ r, ((EdgeList.run ops).isAdjacent a b).1 = .ok r ∧
      (r = true ↔ Recorded ops a b)) ∧
    (∀ a b, Registered ops a → Registered ops b →
      ∃ r, ((AdjacencyList.run ops).isAdjacent a b).1 = .ok r ∧
        (r = true ↔ Recorded ops a b)) ∧
    (∃ g, AdjacencyMatrix.run ops = .ok g ∧ ∀ a b, Registered ops a → Registered ops b →
      ∃ r, (g.isAdjacent a b).1 = .ok r ∧ (r = true ↔ Recorded ops a b)) ∧
    (∀ more a b, Recorded ops a b →
      ((EdgeList.run (ops ++ more)).isAdjacent a b).1 = .ok true ∧
      ((AdjacencyList.run (ops ++ more)).isAdjacent a b).1 = .ok true ∧
      ∃ g, AdjacencyMatrix.run (ops ++ more) = .ok g ∧ (g.isAdjacent a b).1 = .ok true) := by
  refine ⟨?_, ?_, ?_, ?_⟩
  · exact fun a b => ⟨_, edgeList_isAdjacent_run ops a b, recorded_iff ops a b⟩
  · exact fun a b _ _ => ⟨_, adjList_isAdjacent_run ops a b, recorded_iff ops a b⟩
  · obtain ⟨g, hg, hinv⟩ := AdjacencyMatrix.run_inv ops
    refine ⟨g, hg, fun a b ha hb => ⟨recorded ops a b, ?_, recorded_iff ops a b⟩⟩
    rw [hinv.isAdjacent ((mem_firstAppearance ops a).2 ha) ((mem_firstAppearance ops b).2 hb)]
  · intro more a b hrec
    have hrec2 : Recorded (ops ++ more) a b := List.mem_append_left _ hrec
    have hr : recorded (ops ++ more) a b = true := (recorded_iff _ a b).2 hrec2
    refine ⟨?_, ?_, ?_⟩
    · rw [edgeList_isAdjacent_run, hr]
    · rw [adjList_isAdjacent_run, hr]
    · obtain ⟨g, hg, hinv⟩ := AdjacencyMatrix.run_inv (ops ++ more)
      refine ⟨g, hg, ?_⟩
      rw [hinv.isAdjacent ((mem_firstAppearance _ a).2 hrec2.registered.1)
        ((mem_firstAppearance _ b).2 hrec2.registered.2), hr]

/-- Witness for C2: the calls `addEdge(1, 2)`, `addVertex(3)`. -/
theorem isAdjacent_iff_recorded_witness :
    Registered [Op.addEdge 1 2, Op.addVertex 3] 2 ∧ Registered [Op.addEdge 1 2, Op.addVertex 3] 1 ∧
    (∃ r, ((AdjacencyList.run [Op.addEdge 1 2, Op.addVertex 3]).isAdjacent 2 1).1 = .ok r ∧
      (r = true ↔ Recorded [Op.addEdge 1 2, Op.addVertex 3] 2 1)) ∧
    ((EdgeList.run ([Op.addEdge 1 2, Op.addVertex 3] ++ [Op.addEdge 3 1])).isAdjacent 1 2).1 =
      .ok true :=
  have h2 : Registered [Op.addEdge 1 2, Op.addVertex 3] 2 := by decide
  have h1 : Registered [Op.addEdge 1 2, Op.addVertex 3] 1 := by decide
  ⟨h2, h1, (isAdjacent_iff_recorded [Op.addEdge 1 2, Op.addVertex 3]).2.1 2 1 h2 h1,
    ((isAdjacent_iff_recorded [Op.addEdge 1 2, Op.addVertex 3]).2.2.2 [Op.addEdge 3 1] 1 2
      (by decide)).1⟩
theorem dfs_of_closed {G : Graph T} {U : List T} {E : T → T → Prop} (hc : Closed G U E)
    {s : T} (hs : s ∈ U) :
    ∃ r, (∀ fuel, U.length ≤ fuel → dfs fuel G s = .ok r) ∧ r.Nodup ∧ r.head? = some s ∧
      ∀ v, v ∈ r ↔ Reach E s v := by
  obtain ⟨rd, _, hd, _, h1, h2, h3, _⟩ := traversal_spec hc hs
  exact ⟨rd, hd, h1, h2, h3⟩

theorem bfs_order_of_closed {G : Graph T} {U : List T} {E : T → T → Prop} (hc : Closed G U E)
    {s : T} (hs : s ∈ U) :
    ∃ r, (∀ fuel, U.length ≤ fuel → bfs fuel G s = .ok r) ∧
      r.Pairwise (fun u w => ∀ du dw, IsDist E s u du → IsDist E s w dw → du ≤ dw) ∧
      ∀ v ∈ r, ∃ d, IsDist E s v d := by
  obtain ⟨_, rb, _, hb, _, _, _, _, _, h3, h4⟩ := traversal_spec hc hs
  refine ⟨rb, hb, ?_, ?_⟩
  · refine h4.imp ?_
    intro u w hcl du dw hu hw
    exact hcl.dist_le hu hw
  · exact fun v hv => ((h3 v).1 hv).exists_dist

theorem dfs_bfs_perm_of_closed {G : Graph T} {U : List T} {E : T → T → Prop}
    (hc : Closed G U E) {s : T} (hs : s ∈ U) :
    ∃ rd rb, (∀ fuel, U.length ≤ fuel → dfs fuel G s = .ok rd) ∧
      (∀ fuel, U.length ≤ fuel → bfs fuel G s = .ok rb) ∧
      rd.Nodup ∧ rb.Nodup ∧ rd.length = rb.length ∧ (∀ v, v ∈ rd ↔ v ∈ rb) ∧ rd.Perm rb := by
  obtain ⟨rd, rb, hd, hb, hd1, _, hd3, hb1, _, hb3, _⟩ := traversal_spec hc hs
  have hmem : ∀ v, v ∈ rd ↔ v ∈ rb := fun v => (hd3 v).trans (hb3 v).symm
  have hperm : rd.Perm rb := (List.perm_ext_iff_of_nodup hd1 hb1).2 hmem
  exact ⟨rd, rb, hd, hb, hd1, hb1, hperm.length_eq, hmem, hperm⟩

/-- C3: in each of the three representations, for every graph built from empty by
`addVertex`/`addEdge` calls and every registered start vertex `s`, `dfs` returns (for
every step budget of at least the number of distinct vertices) a duplicate-free
sequence whose first element is `s` and whose elements are exactly the vertices
reachable from `s` along recorded edges. -/
theorem dfs_visits_reachable_once (ops : List (Op T)) (s : T) (hs : Registered ops s) :
    (∃ r, (∀ fuel, (firstAppearance ops).length ≤ fuel →
        dfs fuel (EdgeList.run ops).toGraph s = .ok r) ∧
      r.Nodup ∧ r.head? = some s ∧ ∀ v, v ∈ r ↔ Reach (Recorded ops) s v) ∧
    (∃ r, (∀ fuel, (firstAppearance ops).length ≤ fuel →
        dfs fuel (AdjacencyList.run ops).toGraph s = .ok r) ∧
      r.Nodup ∧ r.head? = some s ∧ ∀ v, v ∈ r ↔ Reach (Recorded ops) s v) ∧
    (∃ g r, AdjacencyMatrix.run ops = .ok g ∧
      (∀ fuel, (firstAppearance ops).length ≤ fuel → dfs fuel g.toGraph s = .ok r) ∧
      r.Nodup ∧ r.head? = some s ∧ ∀ v, v ∈ r ↔ Reach (Recorded ops) s v) := by
  have hs2 := (mem_firstAppearance ops s).2 hs
  obtain ⟨g, hg, hinv⟩ := AdjacencyMatrix.run_inv ops
  obtain ⟨r, hr⟩ := dfs_of_closed (AdjacencyMatrix.closed_of_inv hinv) hs2
  exact ⟨dfs_of_closed (edgeList_closed_run ops []) hs2,
    dfs_of_closed (adjList_closed_run ops) hs2, g, r, hg, hr⟩

/-- Witness for C3: the branching graph `1 → 2`, `1 → 3`, `2 → 4` held in an
`EdgeList`, started at `1`. -/
theorem dfs_visits_reachable_once_witness :
    Registered [Op.addEdge 1 2, Op.addEdge 1 3, Op.addEdge 2 4] 1 ∧
    dfs 4 (EdgeList.run [Op.addEdge 1 2, Op.addEdge 1 3, Op.addEdge 2 4]).toGraph 1 =
      .ok [1, 2, 4, 3] ∧
    ∀ v, v ∈ [1, 2, 4, 3] ↔ Reach (Recorded [Op.addEdge 1 2, Op.addEdge 1 3, Op.addEdge 2 4]) 1 v := by
  have hreg : Registered [Op.addEdge 1 2, Op.addEdge 1 3, Op.addEdge 2 4] 1 := by decide
  have hrun : dfs 4 (EdgeList.run [Op.addEdge 1 2, Op.addEdge 1 3, Op.addEdge 2 4]).toGraph 1 =
      .ok [1, 2, 4, 3] := rfl
  obtain ⟨⟨r, hr, -, -, hreach⟩, -⟩ :=
    dfs_visits_reachable_once [Op.addEdge 1 2, Op.addEdge 1 3, Op.addEdge 2 4] 1 hreg
  have h4 := hr 4 (by decide)
  rw [hrun] at h4
  cases h4
  exact ⟨hreg, hrun, hreach⟩

/-- C4: in each of the three representations, for every graph built from empty and
every registered start vertex `s`, `bfs` returns a sequence ordered by non-decreasing
shortest-path distance from `s`: when `u` comes before `w` in the output, the distance
of `u` is at most the distance of `w`; every output vertex has a distance. -/
theorem bfs_ordered_by_distance (ops : List (Op T)) (s : T) (hs : Registered ops s) :
    (∃ r, (∀ fuel, (firstAppearance ops).length ≤ fuel →
        bfs fuel (EdgeList.run ops).toGraph s = .ok r) ∧
      r.Pairwise (fun u w => ∀ du dw, IsDist (Recorded ops) s u du →
        IsDist (Recorded ops) s w dw → du ≤ dw) ∧
      ∀ v ∈ r, ∃ d, IsDist (Recorded ops) s v d) ∧
    (∃ r, (∀ fuel, (firstAppearance ops).length ≤ fuel →
        bfs fuel (AdjacencyList.run ops).toGraph s = .ok r) ∧
      r.Pairwise (fun u w => ∀ du dw, IsDist (Recorded ops) s u du →
        IsDist (Recorded ops) s w dw → du ≤ dw) ∧
      ∀ v ∈ r, ∃ d, IsDist (Recorded ops) s v d) ∧
    (∃ g r, AdjacencyMatrix.run ops = .ok g ∧
      (∀ fuel, (firstAppearance ops).length ≤ fuel → bfs fuel g.toGraph s = .ok r) ∧
      r.Pairwise (fun u w => ∀ du dw, IsDist (Recorded ops) s u du →
        IsDist (Recorded ops) s w dw → du ≤ dw) ∧
      ∀ v ∈ r, ∃ d, IsDist (Recorded ops) s v d) := by
  have hs2 := (mem_firstAppearance ops s).2 hs
  obtain ⟨g, hg, hinv⟩ := AdjacencyMatrix.run_inv ops
  obtain ⟨r, hr⟩ := bfs_order_of_closed (AdjacencyMatrix.closed_of_inv hinv) hs2
  exact ⟨bfs_order_of_closed (edgeList_closed_run ops []) hs2,
    bfs_order_of_closed (adjList_closed_run ops) hs2, g, r, hg, hr⟩

/-- Witness for C4: the graph `1 → 2`, `2 → 3`, `1 → 3`, `3 → 4` held in an
`AdjacencyList`, started at `1`; vertex `3` is output before `4`. -/
theorem bfs_ordered_by_distance_witness :
    Registered [Op.addEdge 1 2, Op.addEdge 2 3, Op.addEdge 1 3, Op.addEdge 3 4] 1 ∧
    bfs 4 (AdjacencyList.run
      [Op.addEdge 1 2, Op.addEdge 2 3, Op.addEdge 1 3, Op.addEdge 3 4]).toGraph 1 =
      .ok [1, 2, 3, 4] ∧
    [1, 2, 3, 4].Pairwise (fun u w => ∀ du dw,
      IsDist (Recorded [Op.addEdge 1 2, Op.addEdge 2 3, Op.addEdge 1 3, Op.addEdge 3 4]) 1 u du →
      IsDist (Recorded [Op.addEdge 1 2, Op.addEdge 2 3, Op.addEdge 1 3, Op.addEdge 3 4]) 1 w dw →
      du ≤ dw) := by
  have hreg : Registered [Op.addEdge 1 2, Op.addEdge 2 3, Op.addEdge 1 3, Op.addEdge 3 4] 1 := by
    decide
  have hrun : bfs 4 (AdjacencyList.run
      [Op.addEdge 1 2, Op.addEdge 2 3, Op.addEdge 1 3, Op.addEdge 3 4]).toGraph 1 =
      .ok [1, 2, 3, 4] := rfl
  obtain ⟨-, ⟨r, hr, hsorted, -⟩, -⟩ :=
    bfs_ordered_by_distance [Op.addEdge 1 2, Op.addEdge 2 3, Op.addEdge 1 3, Op.addEdge 3 4] 1 hreg
  have h4 := hr 4 (by decide)
  rw [hrun] at h4
  cases h4
  exact ⟨hreg, hrun, hsorted⟩

/-- C5: in each of the three representations, for every graph built from empty and
every registered start vertex, the results of `dfs` and `bfs` are both duplicate-free,
have the same length and the same elements: each is a permutation of the other. -/
theorem dfs_bfs_same_vertices (ops : List (Op T)) (s : T) (hs : Registered ops s) :
    (∃ rd rb, (∀ fuel, (firstAppearance ops).length ≤ fuel →
        dfs fuel (EdgeList.run ops).toGraph s = .ok rd) ∧
      (∀ fuel, (firstAppearance ops).length ≤ fuel →
        bfs fuel (EdgeList.run ops).toGraph s = .ok rb) ∧
      rd.Nodup ∧ rb.Nodup ∧ rd.length = rb.length ∧ (∀ v, v ∈ rd ↔ v ∈ rb) ∧ rd.Perm rb) ∧
    (∃ rd rb, (∀ fuel, (firstAppearance ops).length ≤ fuel →
        dfs fuel (AdjacencyList.run ops).toGraph s = .ok rd) ∧
      (∀ fuel, (firstAppearance ops).length ≤ fuel →
        bfs fuel (AdjacencyList.run ops).toGraph s = .ok rb) ∧
      rd.Nodup ∧ rb.Nodup ∧ rd.length = rb.length ∧ (∀ v, v ∈ rd ↔ v ∈ rb) ∧ rd.Perm rb) ∧
    (∃ g rd rb, AdjacencyMatrix.run ops = .ok g ∧
      (∀ fuel, (firstAppearance ops).length ≤ fuel → dfs fuel g.toGraph s = .ok rd) ∧
      (∀ fuel, (firstAppearance ops).length ≤ fuel → bfs fuel g.toGraph s = .ok rb) ∧
      rd.Nodup ∧ rb.Nodup ∧ rd.length = rb.length ∧ (∀ v, v ∈ rd ↔ v ∈ rb) ∧ rd.Perm rb) := by
  have hs2 := (mem_firstAppearance ops s).2 hs
  obtain ⟨g, hg, hinv⟩ := AdjacencyMatrix.run_inv ops
  obtain ⟨rd, rb, hr⟩ := dfs_bfs_perm_of_closed (AdjacencyMatrix.closed_of_inv hinv) hs2
  exact ⟨dfs_bfs_perm_of_closed (edgeList_closed_run ops []) hs2,
    dfs_bfs_perm_of_closed (adjList_closed_run ops) hs2, g, rd, rb, hg, hr⟩

/-- Witness for C5: the branching graph `1 → 2`, `1 → 3`, `2 → 4` held in an
`AdjacencyMatrix`, started at `1`: `dfs` gives `[1, 2, 4, 3]`, `bfs` gives
`[1, 2, 3, 4]`. -/
theorem dfs_bfs_same_vertices_witness :
    Registered [Op.addEdge 1 2, Op.addEdge 1 3, Op.addEdge 2 4] 1 ∧
    ∃ g, AdjacencyMatrix.run [Op.addEdge 1 2, Op.addEdge 1 3, Op.addEdge 2 4] = .ok g ∧
      dfs 4 g.toGraph 1 = .ok [1, 2, 4, 3] ∧ bfs 4 g.toGraph 1 = .ok [1, 2, 3, 4] ∧
      [1, 2, 4, 3].Perm [1, 2, 3, 4] := by
  have hreg : Registered [Op.addEdge 1 2, Op.addEdge 1 3, Op.addEdge 2 4] 1 := by decide
  obtain ⟨-, -, g, rd, rb, hg, hd, hb, -, -, -, -, hperm⟩ :=
    dfs_bfs_same_vertices [Op.addEdge 1 2, Op.addEdge 1 3, Op.addEdge 2 4] 1 hreg
  have hd4 := hd 4 (by decide)
  have hb4 := hb 4 (by decide)
  have hrun : AdjacencyMatrix.run [Op.addEdge 1 2, Op.addEdge 1 3, Op.addEdge 2 4] =
      .ok ⟨[(1, 0), (2, 1), (3, 2), (4, 3)], [(0, 1), (1, 2), (2, 3), (3, 4)],
        [[false, true, true, false], [false, false, false, true],
         [false, false, false, false], [false, false, false, false]]⟩ := rfl
  rw [hrun] at hg
  cases hg
  have e1 : dfs 4 (AdjacencyMatrix.toGraph ⟨[(1, 0), (2, 1), (3, 2), (4, 3)],
      [(0, 1), (1, 2), (2, 3), (3, 4)],
      [[false, true, true, false], [false, false, false, true],
       [false, false, false, false], [false, false, false, false]]⟩) 1 = .ok [1, 2, 4, 3] := rfl
  have e2 : bfs 4 (AdjacencyMatrix.toGraph ⟨[(1, 0), (2, 1), (3, 2), (4, 3)],
      [(0, 1), (1, 2), (2, 3), (3, 4)],
      [[false, true, true, false], [false, false, false, true],
       [false, false, false, false], [false, false, false, false]]⟩) 1 = .ok [1, 2, 3, 4] := rfl
  rw [e1] at hd4
  rw [e2] at hb4
  cases hd4
  cases hb4
  exact ⟨hreg, _, hrun, e1, e2, hperm⟩
/-- C6, counterexample: after the calls `addEdge(2, 1)`, `addEdge(0, 1)`,
`addEdge(0, 2)` the `AdjacencyList` lists the neighbours of `0` as `1, 2` (call order)
and the `AdjacencyMatrix` as `2, 1` (index order), so `bfs` from `0` visits
`[0, 1, 2]` on the list and `[0, 2, 1]` on the matrix. -/
theorem bfs_list_matrix_order_differs :
    ∃ g, AdjacencyMatrix.run [Op.addEdge 2 1, Op.addEdge 0 1, Op.addEdge 0 2] = .ok g ∧
      bfs 3 (AdjacencyList.run [Op.addEdge 2 1, Op.addEdge 0 1, Op.addEdge 0 2]).toGraph 0 =
        .ok [0, 1, 2] ∧
      bfs 3 g.toGraph 0 = .ok [0, 2, 1] ∧
      bfs 3 (AdjacencyList.run [Op.addEdge 2 1, Op.addEdge 0 1, Op.addEdge 0 2]).toGraph 0 ≠
        bfs 3 g.toGraph 0 := by
  refine ⟨⟨[(2, 0), (1, 1), (0, 2)], [(0, 2), (1, 1), (2, 0)],
    [[false, true, false], [false, false, false], [true, true, false]]⟩, rfl, rfl, rfl, ?_⟩
  intro h
  have e1 : bfs 3 (AdjacencyList.run
      [Op.addEdge 2 1, Op.addEdge 0 1, Op.addEdge 0 2]).toGraph 0 = .ok [0, 1, 2] := rfl
  have e2 : bfs 3 (AdjacencyMatrix.toGraph ⟨[(2, 0), (1, 1), (0, 2)],
      [(0, 2), (1, 1), (2, 0)],
      [[false, true, false], [false, false, false], [true, true, false]]⟩) 0 =
      .ok [0, 2, 1] := rfl
  rw [e1, e2] at h
  simp at h

/-- C6, amended: for every call sequence applied to an empty `AdjacencyList` and to an
empty `AdjacencyMatrix` and every registered start vertex, `bfs` returns on both, both
results are duplicate-free and start with the start vertex, and they hold the same
vertices: each is a permutation of the other. -/
theorem bfs_list_matrix_same_vertices (ops : List (Op T)) (s : T) (hs : Registered ops s) :
    ∃ g rl rm, AdjacencyMatrix.run ops = .ok g ∧
      (∀ fuel, (firstAppearance ops).length ≤ fuel →
        bfs fuel (AdjacencyList.run ops).toGraph s = .ok rl) ∧
      (∀ fuel, (firstAppearance ops).length ≤ fuel → bfs fuel g.toGraph s = .ok rm) ∧
      rl.Nodup ∧ rm.Nodup ∧ rl.head? = some s ∧ rm.head? = some s ∧ rl.Perm rm := by
  have hs2 := (mem_firstAppearance ops s).2 hs
  obtain ⟨g, hg, hinv⟩ := AdjacencyMatrix.run_inv ops
  obtain ⟨_, rl, _, hl, _, _, _, hl1, hl2, hl3, _⟩ := traversal_spec (adjList_closed_run ops) hs2
  obtain ⟨_, rm, _, hm, _, _, _, hm1, hm2, hm3, _⟩ :=
    traversal_spec (AdjacencyMatrix.closed_of_inv hinv) hs2
  exact ⟨g, rl, rm, hg, hl, hm, hl1, hm1, hl2, hm2,
    (List.perm_ext_iff_of_nodup hl1 hm1).2 (fun v => (hl3 v).trans (hm3 v).symm)⟩

/-- Witness for the amended C6: the call sequence of the counterexample. -/
theorem bfs_list_matrix_same_vertices_witness :
    Registered [Op.addEdge 2 1, Op.addEdge 0 1, Op.addEdge 0 2] 0 ∧
    ∃ g rl rm, AdjacencyMatrix.run [Op.addEdge 2 1, Op.addEdge 0 1, Op.addEdge 0 2] = .ok g ∧
      bfs 3 (AdjacencyList.run [Op.addEdge 2 1, Op.addEdge 0 1, Op.addEdge 0 2]).toGraph 0 =
        .ok rl ∧
      bfs 3 g.toGraph 0 = .ok rm ∧ rl.Perm rm := by
  have hreg : Registered [Op.addEdge 2 1, Op.addEdge 0 1, Op.addEdge 0 2] 0 := by decide
  obtain ⟨g, rl, rm, hg, hl, hm, -, -, -, -, hperm⟩ :=
    bfs_list_matrix_same_vertices [Op.addEdge 2 1, Op.addEdge 0 1, Op.addEdge 0 2] 0 hreg
  exact ⟨hreg, g, rl, rm, hg, hl 3 (by decide), hm 3 (by decide), hperm⟩
theorem register_eq_append (vs : List T) (v : T) : ∃ l, register vs v = vs ++ l := by
  unfold register
  by_cases h : v ∈ vs
  · exact ⟨[], by simp [h]⟩
  · exact ⟨[v], by simp [h]⟩

theorem foldl_register_eq_append (ws vs : List T) : ∃ l, ws.foldl register vs = vs ++ l := by
  induction ws generalizing vs with
  | nil => exact ⟨[], by simp⟩
  | cons w ws ih =>
    obtain ⟨l1, h1⟩ := register_eq_append vs w
    obtain ⟨l2, h2⟩ := ih (register vs w)
    exact ⟨l1 ++ l2, by rw [List.foldl_cons, h2, h1, List.append_assoc]⟩

theorem firstAppearance_extends (ops more : List (Op T)) :
    ∃ l, firstAppearance (ops ++ more) = firstAppearance ops ++ l := by
  induction more using List.reverseRecOn with
  | nil => exact ⟨[], by simp⟩
  | append_singleton more op ih =>
    obtain ⟨l1, h1⟩ := ih
    obtain ⟨l2, h2⟩ := foldl_register_eq_append op.touched (firstAppearance (ops ++ more))
    exact ⟨l1 ++ l2, by rw [← List.append_assoc, firstAppearance_append, h2, h1,
      List.append_assoc]⟩

theorem getElem?_of_extends {α : Type} {vs l : List α} {i : Nat} {a : α}
    (h : vs[i]? = some a) : (vs ++ l)[i]? = some a := by
  rw [List.getElem?_append_left (getElem?_some_lt h)]
  exact h

/-- C7: after every sequence of `addVertex`/`addEdge` calls on an initially empty
`AdjacencyMatrix` that touches `N` distinct vertices (the length of the duplicate-free
list of registered vertices in order of first appearance): the matrix has `N` rows of
`N` columns each, both index tables have `N` entries with distinct keys and are
mutually inverse, the indices in use are exactly `0, ..., N-1`, vertex number `i` in
order of first appearance has index `i`, and further calls never change the index of
a registered vertex. -/
theorem matrix_dimension_and_indices (ops : List (Op T)) :
    (firstAppearance ops).Nodup ∧ (∀ v, v ∈ firstAppearance ops ↔ Registered ops v) ∧
    ∃ g, AdjacencyMatrix.run ops = .ok g ∧
      g._adjacencyMatrix.length = (firstAppearance ops).length ∧
      (∀ row ∈ g._adjacencyMatrix, row.length = (firstAppearance ops).length) ∧
      g._vertexToIndex.length = (firstAppearance ops).length ∧
      g._indexToVertex.length = (firstAppearance ops).length ∧
      (g._vertexToIndex.map Prod.fst).Nodup ∧ (g._indexToVertex.map Prod.fst).Nodup ∧
      (∀ v i, mapFind g._vertexToIndex v = some i ↔ mapFind g._indexToVertex i = some v) ∧
      (∀ i, (∃ v, mapFind g._indexToVertex i = some v) ↔ i < (firstAppearance ops).length) ∧
      (∀ v i, mapFind g._vertexToIndex v = some i ↔ (firstAppearance ops)[i]? = some v) ∧
      (∀ more v i, mapFind g._vertexToIndex v = some i →
        ∃ g2, AdjacencyMatrix.run (ops ++ more) = .ok g2 ∧
          mapFind g2._vertexToIndex v = some i) := by
  refine ⟨firstAppearance_nodup ops, mem_firstAppearance ops, ?_⟩
  obtain ⟨g, hg, hinv⟩ := AdjacencyMatrix.run_inv ops
  refine ⟨g, hg, hinv.rows, hinv.cols, ?_, ?_, ?_, ?_, ?_, ?_, hinv.v2i, ?_⟩
  · rw [← hinv.keysV, List.length_map]
  · have := congrArg List.length hinv.keysI
    rw [List.length_map, List.length_range] at this
    exact this
  · rw [hinv.keysV]; exact hinv.nodup
  · rw [hinv.keysI]; exact List.nodup_range _
  · intro v i
    rw [hinv.v2i, hinv.i2v]
  · intro i
    constructor
    · rintro ⟨v, hv⟩
      exact getElem?_some_lt ((hinv.i2v i v).1 hv)
    · intro hi
      exact ⟨_, (hinv.i2v i _).2 (List.getElem?_eq_getElem hi)⟩
  · intro more v i hv
    obtain ⟨g2, hg2, hinv2⟩ := AdjacencyMatrix.run_inv (ops ++ more)
    obtain ⟨l, hl⟩ := firstAppearance_extends ops more
    refine ⟨g2, hg2, (hinv2.v2i v i).2 ?_⟩
    rw [hl]
    exact getElem?_of_extends ((hinv.v2i v i).1 hv)

theorem AdjacencyMatrix.isAdjacent_ok_mem {g : AdjacencyMatrix T} {vs : List T}
    {E : T → T → Bool} (h : g.Inv vs E) {x y : T} {r : Bool}
    (hr : (g.isAdjacent x y).1 = .ok r) : x ∈ vs ∧ y ∈ vs := by
  unfold AdjacencyMatrix.isAdjacent mapAt at hr
  cases hx : mapFind g._vertexToIndex x with
  | none => simp [hx] at hr
  | some i =>
    cases hy : mapFind g._vertexToIndex y with
    | none => simp [hx, hy] at hr
    | some j =>
      exact ⟨getElem?_some_mem ((h.v2i x i).1 hx), getElem?_some_mem ((h.v2i y j).1 hy)⟩

theorem getElem?_register {vs : List T} {i : Nat} {a : T} (v : T) (h : vs[i]? = some a) :
    (register vs v)[i]? = some a := by
  obtain ⟨l, hl⟩ := register_eq_append vs v
  rw [hl]
  exact getElem?_of_extends h

theorem AdjacencyMatrix.Inv.entry_lt {g : AdjacencyMatrix T} {vs : List T}
    {E : T → T → Bool} (h : g.Inv vs E) {i j : Nat} (hi : i < g._adjacencyMatrix.length)
    (hj : j < g._adjacencyMatrix.length) :
    ∃ x y, vs[i]? = some x ∧ vs[j]? = some y ∧ matGet g._adjacencyMatrix i j = .ok (E x y) := by
  rw [h.rows] at hi hj
  exact ⟨vs[i], vs[j], List.getElem?_eq_getElem hi, List.getElem?_eq_getElem hj,
    h.entry i j _ _ (List.getElem?_eq_getElem hi) (List.getElem?_eq_getElem hj)⟩

/-- C8: for every `AdjacencyMatrix` built from empty and every vertex `v`:
`addVertex(v)` leaves every entry `M[i][j]` below the old dimension unchanged, and
when `v` is new the entries of the added row and of the added column are all false;
`addEdge(a, b)` succeeds, sets `M[index(a)][index(b)]` to true and changes no other
entry below the old dimension; every edge reported by `isAdjacent` before either
call is still reported after it. -/
theorem matrix_frame (ops : List (Op T)) :
    ∃ g, AdjacencyMatrix.run ops = .ok g ∧
      (∀ v i j, i < g._adjacencyMatrix.length → j < g._adjacencyMatrix.length →
        matGet (g.addVertex v)._adjacencyMatrix i j = matGet g._adjacencyMatrix i j) ∧
      (∀ v, ¬ Registered ops v → ∀ k, k ≤ g._adjacencyMatrix.length →
        matGet (g.addVertex v)._adjacencyMatrix k g._adjacencyMatrix.length = .ok false ∧
        matGet (g.addVertex v)._adjacencyMatrix g._adjacencyMatrix.length k = .ok false) ∧
      (∀ a b, ∃ g2 ia ib, g.addEdge a b = .ok g2 ∧
        mapFind g2._vertexToIndex a = some ia ∧ mapFind g2._vertexToIndex b = some ib ∧
        matGet g2._adjacencyMatrix ia ib = .ok true ∧
        ∀ i j, i < g._adjacencyMatrix.length → j < g._adjacencyMatrix.length →
          ¬ (i = ia ∧ j = ib) →
          matGet g2._adjacencyMatrix i j = matGet g._adjacencyMatrix i j) ∧
      (∀ x y, (g.isAdjacent x y).1 = .ok true →
        (∀ v, ((g.addVertex v).isAdjacent x y).1 = .ok true) ∧
        ∀ a b, ∃ g2, g.addEdge a b = .ok g2 ∧ (g2.isAdjacent x y).1 = .ok true) := by
  obtain ⟨g, hg, hinv⟩ := AdjacencyMatrix.run_inv ops
  refine ⟨g, hg, ?_, ?_, ?_, ?_⟩
  · intro v i j hi hj
    obtain ⟨x, y, hx, hy, he⟩ := hinv.entry_lt hi hj
    rw [he]
    exact (hinv.addVertex v).entry i j x y (getElem?_register v hx) (getElem?_register v hy)
  · intro v hv k hk
    have hv2 : v ∉ firstAppearance ops := fun h => hv ((mem_firstAppearance ops v).1 h)
    have hreg : register (firstAppearance ops) v = firstAppearance ops ++ [v] := by
      simp [register, hv2]
    have hinv2 := hinv.addVertex v
    rw [hreg] at hinv2
    have hn : (firstAppearance ops ++ [v])[g._adjacencyMatrix.length]? = some v := by
      rw [hinv.rows]; simp
    have hk2 : k < (firstAppearance ops ++ [v]).length := by
      rw [List.length_append, List.length_singleton, ← hinv.rows]; omega
    have hkk := List.getElem?_eq_getElem hk2
    have hfalse : ∀ p q, (p = v ∨ q = v) → recorded ops p q = false := by
      intro p q hpq
      cases hE : recorded ops p q with
      | false => rfl
      | true =>
        have := hinv.support p q hE
        rcases hpq with rfl | rfl
        · exact absurd this.1 hv2
        · exact absurd this.2 hv2
    constructor
    · rw [hinv2.entry k _ _ v hkk hn]
      exact congrArg Except.ok (hfalse _ _ (Or.inr rfl))
    · rw [hinv2.entry _ k v _ hn hkk]
      exact congrArg Except.ok (hfalse _ _ (Or.inl rfl))
  · intro a b
    obtain ⟨g2, hg2, hinv2⟩ := hinv.addEdge a b
    have ha : a ∈ register (register (firstAppearance ops) a) b := by simp [mem_register]
    have hb : b ∈ register (register (firstAppearance ops) a) b := by simp [mem_register]
    obtain ⟨ia, hia⟩ := exists_getElem?_of_mem ha
    obtain ⟨ib, hib⟩ := exists_getElem?_of_mem hb
    refine ⟨g2, ia, ib, hg2, (hinv2.v2i a ia).2 hia, (hinv2.v2i b ib).2 hib, ?_, ?_⟩
    · rw [hinv2.entry ia ib a b hia hib]
      simp
    · intro i j hi hj hne
      obtain ⟨x, y, hx, hy, he⟩ := hinv.entry_lt hi hj
      have hx2 := getElem?_register b (getElem?_register a hx)
      have hy2 := getElem?_register b (getElem?_register a hy)
      rw [he, hinv2.entry i j x y hx2 hy2]
      have : (decide (x = a) && decide (y = b)) = false := by
        rw [Bool.and_eq_false_iff]
        by_contra hcon
        push_neg at hcon
        simp only [ne_eq, Bool.not_eq_false, decide_eq_true_eq] at hcon
        obtain ⟨rfl, rfl⟩ := hcon
        exact hne ⟨getElem?_inj_of_nodup hinv2.nodup hx2 hia,
          getElem?_inj_of_nodup hinv2.nodup hy2 hib⟩
      simp [this]
  · intro x y hxy
    obtain ⟨hx, hy⟩ := AdjacencyMatrix.isAdjacent_ok_mem hinv hxy
    rw [hinv.isAdjacent hx hy] at hxy
    have hE : recorded ops x y = true := by
      simpa using hxy
    constructor
    · intro v
      rw [(hinv.addVertex v).isAdjacent ((mem_register _ v x).2 (Or.inl hx))
        ((mem_register _ v y).2 (Or.inl hy)), hE]
    · intro a b
      obtain ⟨g2, hg2, hinv2⟩ := hinv.addEdge a b
      refine ⟨g2, hg2, ?_⟩
      rw [hinv2.isAdjacent (by simp [mem_register, hx]) (by simp [mem_register, hy])]
      simp [hE]
/-- Witness for C7: after `addEdge(7, 5)`, `addVertex(7)`, `addEdge(5, 9)` the three
touched vertices `7, 5, 9` have the indices `0, 1, 2`, and vertex `5` keeps index `1`
after a further `addEdge(3, 5)`. -/
theorem matrix_dimension_and_indices_witness :
    ∃ g, AdjacencyMatrix.run [Op.addEdge 7 5, Op.addVertex 7, Op.addEdge 5 9] = .ok g ∧
      g._adjacencyMatrix.length = 3 ∧ g._vertexToIndex.length = 3 ∧
      mapFind g._vertexToIndex 5 = some 1 ∧
      ∃ g2, AdjacencyMatrix.run ([Op.addEdge 7 5, Op.addVertex 7, Op.addEdge 5 9] ++
        [Op.addEdge 3 5]) = .ok g2 ∧ mapFind g2._vertexToIndex 5 = some 1 := by
  obtain ⟨-, -, g, hg, hrows, -, hlen, -, -, -, -, -, hidx, hkeep⟩ :=
    matrix_dimension_and_indices [Op.addEdge 7 5, Op.addVertex 7, Op.addEdge 5 9]
  have h5 : mapFind g._vertexToIndex 5 = some 1 := (hidx 5 1).2 rfl
  exact ⟨g, hg, hrows, hlen, h5, hkeep [Op.addEdge 3 5] 5 1 h5⟩

/-- Witness for C8: on the matrix built by `addEdge(1, 2)`, adding the new vertex `3`
keeps `M[0][1]` and yields a false entry `M[2][2]`; `isAdjacent(1, 2)` stays true after
`addEdge(2, 1)`. -/
theorem matrix_frame_witness :
    ∃ g, AdjacencyMatrix.run [Op.addEdge 1 2] = .ok g ∧
      matGet (g.addVertex 3)._adjacencyMatrix 0 1 = matGet g._adjacencyMatrix 0 1 ∧
      matGet (g.addVertex 3)._adjacencyMatrix 2 g._adjacencyMatrix.length = .ok false ∧
      ∃ g2, g.addEdge 2 1 = .ok g2 ∧ (g2.isAdjacent 1 2).1 = .ok true := by
  obtain ⟨g, hg, hkeep, hnew, -, hadj⟩ := matrix_frame [Op.addEdge 1 2]
  have hrun : AdjacencyMatrix.run [Op.addEdge 1 2] =
      .ok ⟨[(1, 0), (2, 1)], [(0, 1), (1, 2)], [[false, true], [false, false]]⟩ := rfl
  rw [hrun] at hg
  cases hg
  exact ⟨_, hrun, hkeep 3 0 1 (by decide) (by decide),
    (hnew 3 (by decide) 2 (by decide)).1, (hadj 1 2 rfl).2 2 1⟩

theorem mapEmplace_of_find {K V : Type} [DecidableEq K] {m : List (K × V)} {k : K} {x : V}
    (d : V) (h : mapFind m k = some x) : mapEmplace m k d = m := by
  simp [mapEmplace, h]

theorem mapEmplace_idem {K V : Type} [DecidableEq K] (m : List (K × V)) (k : K) (d : V) :
    mapEmplace (mapEmplace m k d) k d = mapEmplace m k d := by
  have h : ∃ x, mapFind (mapEmplace m k d) k = some x := by
    rw [mapFind_emplace]
    cases mapFind m k with
    | none => exact ⟨d, by simp⟩
    | some x => exact ⟨x, by simp⟩
  obtain ⟨x, hx⟩ := h
  exact mapEmplace_of_find d hx

/-- C9: `addVertex` is idempotent in each of the three representations: on every state
built from empty, applying `addVertex(v)` twice gives the same state as applying it
once, and applying it when `v` is already registered leaves the state unchanged (on
the `EdgeList` it never changes the state). -/
theorem addVertex_idempotent (ops : List (Op T)) (v : T) :
    (((EdgeList.run ops).addVertex v).addVertex v = (EdgeList.run ops).addVertex v ∧
      (EdgeList.run ops).addVertex v = EdgeList.run ops) ∧
    (((AdjacencyList.run ops).addVertex v).addVertex v = (AdjacencyList.run ops).addVertex v ∧
      (Registered ops v → (AdjacencyList.run ops).addVertex v = AdjacencyList.run ops)) ∧
    (∃ g, AdjacencyMatrix.run ops = .ok g ∧
      (g.addVertex v).addVertex v = g.addVertex v ∧
      (Registered ops v → g.addVertex v = g)) := by
  refine ⟨⟨rfl, rfl⟩, ⟨?_, ?_⟩, ?_⟩
  · simp only [AdjacencyList.addVertex, mapEmplace_idem]
  · intro hv
    have hfind := adjList_find_run ops v
    rw [if_pos ((mem_firstAppearance ops v).2 hv)] at hfind
    simp only [AdjacencyList.addVertex, mapEmplace_of_find [] hfind]
  · obtain ⟨g, hg, hinv⟩ := AdjacencyMatrix.run_inv ops
    refine ⟨g, hg, ?_, ?_⟩
    · have hinv2 := hinv.addVertex v
      obtain ⟨i, hi⟩ := exists_getElem?_of_mem
        ((mem_register (firstAppearance ops) v v).2 (Or.inr rfl))
      exact AdjacencyMatrix.addVertex_of_known _ v i ((hinv2.v2i v i).2 hi)
    · intro hv
      obtain ⟨i, hi⟩ := exists_getElem?_of_mem ((mem_firstAppearance ops v).2 hv)
      exact AdjacencyMatrix.addVertex_of_known g v i ((hinv.v2i v i).2 hi)

/-- Witness for C9: vertex `2` is registered by `addEdge(1, 2)`, so `addVertex(2)`
changes neither the `AdjacencyList` nor the `AdjacencyMatrix`. -/
theorem addVertex_idempotent_witness :
    Registered [Op.addEdge 1 2, Op.addEdge 2 3] 2 ∧
    (AdjacencyList.run [Op.addEdge 1 2, Op.addEdge 2 3]).addVertex 2 =
      AdjacencyList.run [Op.addEdge 1 2, Op.addEdge 2 3] ∧
    ∃ g, AdjacencyMatrix.run [Op.addEdge 1 2, Op.addEdge 2 3] = .ok g ∧ g.addVertex 2 = g := by
  have hreg : Registered [Op.addEdge 1 2, Op.addEdge 2 3] 2 := by decide
  obtain ⟨-, ⟨-, hl⟩, g, hg, -, hm⟩ := addVertex_idempotent [Op.addEdge 1 2, Op.addEdge 2 3] 2
  exact ⟨hreg, hl hreg, g, hg, hm hreg⟩

theorem keys_mapEmplace {K V : Type} [DecidableEq K] (m : List (K × V)) (k : K) (d : V) :
    (mapEmplace m k d).map Prod.fst = register (m.map Prod.fst) k := by
  unfold mapEmplace register
  cases h : mapFind m k with
  | some x =>
    have : k ∈ m.map Prod.fst := (mapFind_isSome_iff m k).1 ⟨x, h⟩
    simp only [this, if_true]
  | none =>
    have : k ∉ m.map Prod.fst := by
      intro hc
      obtain ⟨x, hx⟩ := (mapFind_isSome_iff m k).2 hc
      rw [h] at hx
      cases hx
    simp only [this, if_false, List.map_append, List.map_cons, List.map_nil]

theorem keys_mapModify {K V : Type} [DecidableEq K] (m : List (K × V)) (k : K) (f : V → V) :
    (mapModify m k f).map Prod.fst = m.map Prod.fst := by
  induction m with
  | nil => rfl
  | cons p m ih =>
    obtain ⟨k1, v⟩ := p
    by_cases h : k1 = k <;> simp [mapModify, h, ih]

theorem mapFind_of_mem {K V : Type} [DecidableEq K] {m : List (K × V)}
    (hn : (m.map Prod.fst).Nodup) {k : K} {v : V} (h : (k, v) ∈ m) : mapFind m k = some v := by
  induction m with
  | nil => cases h
  | cons p m ih =>
    obtain ⟨k1, v1⟩ := p
    rw [List.map_cons, List.nodup_cons] at hn
    rcases List.mem_cons.1 h with h | h
    · cases h
      simp [mapFind]
    · have hne : ¬ k1 = k := by
        rintro rfl
        exact hn.1 (List.mem_map.2 ⟨(k1, v), h, rfl⟩)
      simp only [mapFind, hne, if_false]
      exact ih hn.2 h

/-- The keys of the `AdjacencyList` table are the registered vertices. -/
theorem adjList_keys_run (ops : List (Op T)) :
    (AdjacencyList.run ops)._adjacencyList.map Prod.fst = firstAppearance ops := by
  induction ops using List.reverseRecOn with
  | nil => rfl
  | append_singleton ops op ih =>
    rw [adjList_run_append, firstAppearance_append]
    cases op with
    | addVertex v =>
      simp only [AdjacencyList.step, AdjacencyList.addVertex, keys_mapEmplace, ih, Op.touched,
        List.foldl_cons, List.foldl_nil]
    | addEdge a b =>
      have hfa : ∃ x, mapFind (mapEmplace (mapEmplace (AdjacencyList.run ops)._adjacencyList
          a []) b []) a = some x := by
        apply (mapFind_isSome_iff _ a).2
        rw [keys_mapEmplace, keys_mapEmplace]
        simp [mem_register]
      obtain ⟨x, hx⟩ := hfa
      simp only [AdjacencyList.step, AdjacencyList.addEdge, AdjacencyList.addVertex,
        mapSubscript_of_find [] hx, keys_mapModify, keys_mapEmplace, ih, Op.touched,
        List.foldl_cons, List.foldl_nil]

/-- C10: after every sequence of `addVertex`/`addEdge` calls on an initially empty
`AdjacencyList`, every vertex passed to `addVertex` or used as an endpoint of
`addEdge` is a key of the table and `getNeighbors` succeeds on it, and every vertex
that occurs in a stored neighbour sequence is itself a key. -/
theorem adjacencyList_keys_complete (ops : List (Op T)) :
    (∀ v, Registered ops v →
      v ∈ (AdjacencyList.run ops)._adjacencyList.map Prod.fst ∧
      ∃ ns, (AdjacencyList.run ops).getNeighbors v = .ok ns) ∧
    (∀ entry ∈ (AdjacencyList.run ops)._adjacencyList, ∀ w ∈ entry.2,
      w ∈ (AdjacencyList.run ops)._adjacencyList.map Prod.fst ∧
      ∃ ns, (AdjacencyList.run ops).getNeighbors w = .ok ns) := by
  have key : ∀ v, Registered ops v →
      v ∈ (AdjacencyList.run ops)._adjacencyList.map Prod.fst ∧
      ∃ ns, (AdjacencyList.run ops).getNeighbors v = .ok ns := by
    intro v hv
    have hv2 := (mem_firstAppearance ops v).2 hv
    exact ⟨by rw [adjList_keys_run]; exact hv2, _, adjList_getNeighbors_run ops v hv2⟩
  refine ⟨key, ?_⟩
  rintro ⟨k, ns⟩ hentry w hw
  have hnd : ((AdjacencyList.run ops)._adjacencyList.map Prod.fst).Nodup := by
    rw [adjList_keys_run]; exact firstAppearance_nodup ops
  have hfind := mapFind_of_mem hnd hentry
  rw [adjList_find_run] at hfind
  by_cases hk : k ∈ firstAppearance ops
  · rw [if_pos hk] at hfind
    cases hfind
    exact key w ((mem_targets ops k w).1 hw).registered.2
  · rw [if_neg hk] at hfind
    cases hfind

/-- Witness for C10: after `addEdge(1, 2)`, `addVertex(4)` the vertex `4` has an (empty)
entry and the stored neighbour `2` is a key. -/
theorem adjacencyList_keys_complete_witness :
    Registered [Op.addEdge 1 2, Op.addVertex 4] 4 ∧
    (∃ ns, (AdjacencyList.run [Op.addEdge 1 2, Op.addVertex 4]).getNeighbors 4 = .ok ns) ∧
    2 ∈ (AdjacencyList.run [Op.addEdge 1 2, Op.addVertex 4])._adjacencyList.map Prod.fst := by
  have hreg : Registered [Op.addEdge 1 2, Op.addVertex 4] 4 := by decide
  have h := adjacencyList_keys_complete [Op.addEdge 1 2, Op.addVertex 4]
  exact ⟨hreg, (h.1 4 hreg).2, (h.2 (1, [2]) (by decide) 2 (by decide)).1⟩
theorem pairwise_index_of_nodup {α : Type} {vs : List α} (hn : vs.Nodup) :
    vs.Pairwise (fun x y => ∀ i j : Nat, vs[i]? = some x → vs[j]? = some y → i < j) := by
  rw [List.pairwise_iff_getElem]
  intro p q hp hq hpq i j hi hj
  have e1 := getElem?_inj_of_nodup hn hi (List.getElem?_eq_getElem hp)
  have e2 := getElem?_inj_of_nodup hn hj (List.getElem?_eq_getElem hq)
  omega

/-- C11: for every sequence of `addVertex`/`addEdge` calls from empty and every
registered vertex `v`: on the `EdgeList` and on the `AdjacencyList`, `getNeighbors(v)`
is the list of the targets `b` of the calls `addEdge(v, b)` in call order, duplicates
kept; on the `AdjacencyMatrix` it holds exactly the vertices `w` with a recorded edge
from `v` to `w`, each once, by ascending index (it is the list of vertices in order of
first appearance filtered by the recorded edges). -/
theorem getNeighbors_order (ops : List (Op T)) (v : T) (hv : Registered ops v) :
    (EdgeList.run ops).getNeighbors v = .ok (targets ops v) ∧
    (AdjacencyList.run ops).getNeighbors v = .ok (targets ops v) ∧
    ∃ g ns, AdjacencyMatrix.run ops = .ok g ∧ g.getNeighbors v = .ok ns ∧
      ns = (firstAppearance ops).filter (fun w => decide (Recorded ops v w)) ∧
      ns.Nodup ∧ (∀ w, w ∈ ns ↔ Recorded ops v w) ∧
      ns.Pairwise (fun x y => ∀ i j, mapFind g._vertexToIndex x = some i →
        mapFind g._vertexToIndex y = some j → i < j) := by
  have hv2 := (mem_firstAppearance ops v).2 hv
  obtain ⟨g, hg, hinv⟩ := AdjacencyMatrix.run_inv ops
  refine ⟨edgeList_getNeighbors_run ops v, adjList_getNeighbors_run ops v hv2,
    g, _, hg, hinv.getNeighbors hv2, rfl, ?_, ?_, ?_⟩
  · exact (firstAppearance_nodup ops).filter _
  · exact AdjacencyMatrix.mem_filter_recorded ops v
  · refine List.Pairwise.filter _ ?_
    refine (pairwise_index_of_nodup (firstAppearance_nodup ops)).imp ?_
    intro x y h i j hi hj
    exact h i j ((hinv.v2i x i).1 hi) ((hinv.v2i y j).1 hj)

/-- Witness for C11: after `addEdge(3, 1)`, `addEdge(2, 1)`, `addEdge(2, 3)`,
`addEdge(2, 1)` the neighbours of `2` are `1, 3, 1` on the `AdjacencyList` and `3, 1`
on the `AdjacencyMatrix` (vertex `3` has index `0`, vertex `1` has index `1`). -/
theorem getNeighbors_order_witness :
    Registered [Op.addEdge 3 1, Op.addEdge 2 1, Op.addEdge 2 3, Op.addEdge 2 1] 2 ∧
    (AdjacencyList.run
      [Op.addEdge 3 1, Op.addEdge 2 1, Op.addEdge 2 3, Op.addEdge 2 1]).getNeighbors 2 =
      .ok [1, 3, 1] ∧
    ∃ g, AdjacencyMatrix.run
        [Op.addEdge 3 1, Op.addEdge 2 1, Op.addEdge 2 3, Op.addEdge 2 1] = .ok g ∧
      g.getNeighbors 2 = .ok [3, 1] := by
  have hreg : Registered [Op.addEdge 3 1, Op.addEdge 2 1, Op.addEdge 2 3, Op.addEdge 2 1] 2 := by
    decide
  obtain ⟨-, hl, g, ns, hg, hns, hform, -⟩ :=
    getNeighbors_order [Op.addEdge 3 1, Op.addEdge 2 1, Op.addEdge 2 3, Op.addEdge 2 1] 2 hreg
  refine ⟨hreg, hl, g, hg, ?_⟩
  rw [hns, hform]
  rfl

theorem getNeighbors_error_of_unregistered (ops : List (Op T)) (v : T)
    (hv : ¬ Registered ops v) :
    (AdjacencyList.run ops).getNeighbors v = .error .outOfRange ∧
    ∃ g, AdjacencyMatrix.run ops = .ok g ∧ g.getNeighbors v = .error .outOfRange := by
  have hv2 : v ∉ firstAppearance ops := fun h => hv ((mem_firstAppearance ops v).1 h)
  constructor
  · unfold AdjacencyList.getNeighbors mapAt
    rw [adjList_find_run, if_neg hv2]
  · obtain ⟨g, hg, hinv⟩ := AdjacencyMatrix.run_inv ops
    refine ⟨g, hg, ?_⟩
    have hnone : mapFind g._vertexToIndex v = none := by
      cases h : mapFind g._vertexToIndex v with
      | none => rfl
      | some i => exact absurd (getElem?_some_mem ((hinv.v2i v i).1 h)) hv2
    unfold AdjacencyMatrix.getNeighbors mapAt
    rw [hnone]

theorem adjList_isAdjacent_state (g : AdjacencyList T) (v1 v2 : T) :
    (g.isAdjacent v1 v2).2 = g.addVertex v1 := by
  unfold AdjacencyList.isAdjacent AdjacencyList.addVertex mapSubscript mapEmplace
  cases mapFind g._adjacencyList v1 <;> rfl

theorem AdjacencyMatrix.isAdjacent_state (g : AdjacencyMatrix T) (v1 v2 : T) :
    (g.isAdjacent v1 v2).2 = g := by
  unfold AdjacencyMatrix.isAdjacent
  cases mapAt g._vertexToIndex v1 with
  | error e => rfl
  | ok i =>
    cases mapAt g._vertexToIndex v2 with
    | error e => rfl
    | ok j => rfl

theorem edgeList_foldl_exec (calls : List (Call T)) :
    ∀ g : EdgeList T, calls.foldl EdgeList.exec g = (mutations calls).foldl EdgeList.step g := by
  induction calls with
  | nil => intro g; rfl
  | cons call calls ih =>
    intro g
    cases call <;> simp only [List.foldl_cons, mutations, ih] <;> rfl

/-- Queries never change an `EdgeList`: the object reached by calls and queries is the
one built by the `addVertex` and `addEdge` calls alone. -/
theorem edgeList_runCalls (calls : List (Call T)) :
    EdgeList.runCalls calls = EdgeList.run (mutations calls) :=
  edgeList_foldl_exec calls {}

theorem adjList_foldl_exec (calls : List (Call T)) :
    ∀ g : AdjacencyList T,
      calls.foldl AdjacencyList.exec g = (effects calls).foldl AdjacencyList.step g := by
  induction calls with
  | nil => intro g; rfl
  | cons call calls ih =>
    intro g
    cases call with
    | addVertex v => simp only [List.foldl_cons, effects, ih]; rfl
    | addEdge a b => simp only [List.foldl_cons, effects, ih]; rfl
    | isAdjacent a b =>
      simp only [List.foldl_cons, effects, ih, AdjacencyList.exec, AdjacencyList.step,
        adjList_isAdjacent_state]
    | getNeighbors v => simp only [List.foldl_cons, effects, ih]; rfl

/-- The `AdjacencyList` reached by calls and queries is the one built by its `addVertex`
and `addEdge` calls together with one `addVertex(v1)` for every query
`isAdjacent(v1, v2)`. -/
theorem adjList_runCalls (calls : List (Call T)) :
    AdjacencyList.runCalls calls = AdjacencyList.run (effects calls) :=
  adjList_foldl_exec calls {}

theorem AdjacencyMatrix.runCallsFrom_eq (calls : List (Call T)) :
    ∀ g : AdjacencyMatrix T,
      AdjacencyMatrix.runCallsFrom g calls = AdjacencyMatrix.runFrom g (mutations calls) := by
  induction calls with
  | nil => intro g; rfl
  | cons call calls ih =>
    intro g
    cases call with
    | addVertex v =>
      simp only [AdjacencyMatrix.runCallsFrom, mutations, AdjacencyMatrix.runFrom,
        AdjacencyMatrix.exec, AdjacencyMatrix.step, ih]
    | addEdge a b =>
      simp only [AdjacencyMatrix.runCallsFrom, mutations, AdjacencyMatrix.runFrom,
        AdjacencyMatrix.exec, AdjacencyMatrix.step]
      cases g.addEdge a b with
      | error e => rfl
      | ok g1 => exact ih g1
    | isAdjacent a b =>
      simp only [AdjacencyMatrix.runCallsFrom, mutations, AdjacencyMatrix.exec,
        AdjacencyMatrix.isAdjacent_state, ih]
    | getNeighbors v =>
      simp only [AdjacencyMatrix.runCallsFrom, mutations, AdjacencyMatrix.exec, ih]

/-- Queries never change an `AdjacencyMatrix`: the object reached by calls and queries
is the one built by the `addVertex` and `addEdge` calls alone. -/
theorem AdjacencyMatrix.runCalls_eq (calls : List (Call T)) :
    AdjacencyMatrix.runCalls calls = AdjacencyMatrix.run (mutations calls) :=
  AdjacencyMatrix.runCallsFrom_eq calls {}

theorem not_registered_effects (calls : List (Call T)) (v : T)
    (hv : ¬ Registered (mutations calls) v) (hq : ∀ b, Call.isAdjacent v b ∉ calls) :
    ¬ Registered (effects calls) v := by
  induction calls with
  | nil => exact hv
  | cons call calls ih =>
    have hq2 : ∀ b, Call.isAdjacent v b ∉ calls :=
      fun b hb => hq b (List.mem_cons_of_mem _ hb)
    have hcons : ∀ (op : Op T) (ops : List (Op T)),
        Registered (op :: ops) v ↔ v ∈ op.touched ∨ Registered ops v := by
      intro op ops
      simp [Registered]
    cases call with
    | addVertex w =>
      simp only [mutations, effects, hcons] at hv ⊢
      exact fun h => h.elim (fun h1 => hv (Or.inl h1)) (fun h2 => ih (fun h3 => hv (Or.inr h3)) hq2 h2)
    | addEdge a b =>
      simp only [mutations, effects, hcons] at hv ⊢
      exact fun h => h.elim (fun h1 => hv (Or.inl h1)) (fun h2 => ih (fun h3 => hv (Or.inr h3)) hq2 h2)
    | isAdjacent a b =>
      simp only [mutations, effects, hcons] at hv ⊢
      rintro (h1 | h2)
      · simp only [Op.touched, List.mem_singleton] at h1
        subst h1
        exact hq b (List.mem_cons_self _ _)
      · exact ih hv hq2 h2
    | getNeighbors w =>
      simp only [mutations, effects] at hv ⊢
      exact ih hv hq2

/-- What does hold of `getNeighbors` on an unknown vertex in every state reached by
calls and queries: it fails on the `AdjacencyMatrix` for every vertex that was never
registered, and on the `AdjacencyList` when the vertex was, in addition, never the first
argument of an `isAdjacent` query. -/
theorem getNeighbors_error_after_calls (calls : List (Call T)) (v : T)
    (hv : ¬ Registered (mutations calls) v) :
    (∃ g, AdjacencyMatrix.runCalls calls = .ok g ∧ g.getNeighbors v = .error .outOfRange) ∧
    ((∀ b, Call.isAdjacent v b ∉ calls) →
      (AdjacencyList.runCalls calls).getNeighbors v = .error .outOfRange) := by
  constructor
  · rw [AdjacencyMatrix.runCalls_eq]
    exact (getNeighbors_error_of_unregistered (mutations calls) v hv).2
  · intro hq
    rw [adjList_runCalls]
    exact (getNeighbors_error_of_unregistered (effects calls) v
      (not_registered_effects calls v hv hq)).1

/-- C12, the code at the failing input: vertex `5` is never passed to `addVertex` or
`addEdge`. After `addEdge(1, 2)` the call `getNeighbors(5)` fails on the
`AdjacencyList`; after `addEdge(1, 2)` and the query `isAdjacent(5, 1)` it returns the
empty sequence instead. On the `AdjacencyMatrix` it still fails after the same calls. -/
theorem adjList_getNeighbors_after_isAdjacent :
    ¬ Registered (mutations [Call.addEdge 1 2, Call.isAdjacent 5 1]) 5 ∧
    (AdjacencyList.runCalls [Call.addEdge 1 2]).getNeighbors 5 = .error .outOfRange ∧
    (AdjacencyList.runCalls [Call.addEdge 1 2, Call.isAdjacent 5 1]).getNeighbors 5 =
      .ok [] ∧
    ∃ g, AdjacencyMatrix.runCalls [Call.addEdge 1 2, Call.isAdjacent 5 1] = .ok g ∧
      g.getNeighbors 5 = .error .outOfRange :=
  ⟨by decide, rfl, rfl, _, rfl, rfl⟩
theorem recorded_false_of_unregistered (ops : List (Op T)) (v1 v2 : T)
    (h : ¬ Registered ops v1 ∨ ¬ Registered ops v2) : recorded ops v1 v2 = false := by
  cases hr : recorded ops v1 v2 with
  | false => rfl
  | true =>
    have hreg := ((recorded_iff ops v1 v2).1 hr).registered
    rcases h with h | h
    · exact absurd hreg.1 h
    · exact absurd hreg.2 h

theorem AdjacencyMatrix.find_none_of_unregistered {g : AdjacencyMatrix T} {ops : List (Op T)}
    (hinv : g.Inv (firstAppearance ops) (recorded ops)) {v : T} (hv : ¬ Registered ops v) :
    mapFind g._vertexToIndex v = none := by
  cases h : mapFind g._vertexToIndex v with
  | none => rfl
  | some i =>
    exact absurd ((mem_firstAppearance ops v).1 (getElem?_some_mem ((hinv.v2i v i).1 h))) hv

theorem adjList_isAdjacent_of_registered (ops : List (Op T)) (v1 v2 : T)
    (h1 : Registered ops v1) :
    (AdjacencyList.run ops).isAdjacent v1 v2 =
      (.ok (recorded ops v1 v2), AdjacencyList.run ops) := by
  have hres := adjList_isAdjacent_run ops v1 v2
  have hfind := adjList_find_run ops v1
  rw [if_pos ((mem_firstAppearance ops v1).2 h1)] at hfind
  have hst : ((AdjacencyList.run ops).isAdjacent v1 v2).2 = AdjacencyList.run ops := by
    simp only [AdjacencyList.isAdjacent, mapSubscript, hfind]
  exact Prod.ext hres hst

/-- What does hold of the state after an `isAdjacent` query: the `EdgeList` and the
`AdjacencyMatrix` are never changed, the `AdjacencyList` is not changed when the first
argument is registered. -/
theorem isAdjacent_keeps_state (ops : List (Op T)) (v1 v2 : T) :
    ((EdgeList.run ops).isAdjacent v1 v2).2 = EdgeList.run ops ∧
    (∃ g, AdjacencyMatrix.run ops = .ok g ∧ (g.isAdjacent v1 v2).2 = g) ∧
    (Registered ops v1 →
      ((AdjacencyList.run ops).isAdjacent v1 v2).2 = AdjacencyList.run ops) := by
  refine ⟨rfl, ?_, ?_⟩
  · obtain ⟨g, hg, -⟩ := AdjacencyMatrix.run_inv ops
    refine ⟨g, hg, ?_⟩
    unfold AdjacencyMatrix.isAdjacent
    cases mapAt g._vertexToIndex v1 with
    | error e => rfl
    | ok i =>
      cases mapAt g._vertexToIndex v2 with
      | error e => rfl
      | ok j => rfl
  · intro h1
    rw [adjList_isAdjacent_of_registered ops v1 v2 h1]

/-- C13, counterexample: on the `AdjacencyList` built by `addEdge(1, 2)` the query
`isAdjacent(1, 5)` names the unregistered vertex `5` and returns false; no error is
raised. -/
theorem adjList_isAdjacent_returns_false :
    ¬ Registered [Op.addEdge 1 2] 5 ∧
    ((AdjacencyList.run [Op.addEdge 1 2]).isAdjacent 1 5).1 = .ok false :=
  ⟨by decide, rfl⟩

/-- C13, amended: for every state built from empty and all `v1`, `v2` of which at
least one was never registered: on the `AdjacencyMatrix`, `isAdjacent(v1, v2)` raises
the missing-key error of `unordered_map::at` and returns no boolean; on the `EdgeList`
it returns false; on the `AdjacencyList` it returns false when `v1` is registered
(only `v2` is unknown, and `v2` is never looked up). -/
theorem isAdjacent_unregistered (ops : List (Op T)) (v1 v2 : T)
    (h : ¬ Registered ops v1 ∨ ¬ Registered ops v2) :
    (∃ g, AdjacencyMatrix.run ops = .ok g ∧ (g.isAdjacent v1 v2).1 = .error .outOfRange) ∧
    ((EdgeList.run ops).isAdjacent v1 v2).1 = .ok false ∧
    (Registered ops v1 → ((AdjacencyList.run ops).isAdjacent v1 v2).1 = .ok false) := by
  have hrec := recorded_false_of_unregistered ops v1 v2 h
  refine ⟨?_, ?_, ?_⟩
  · obtain ⟨g, hg, hinv⟩ := AdjacencyMatrix.run_inv ops
    refine ⟨g, hg, ?_⟩
    unfold AdjacencyMatrix.isAdjacent mapAt
    by_cases h1 : Registered ops v1
    · have h2 : ¬ Registered ops v2 := by
        rcases h with h | h
        · exact absurd h1 h
        · exact h
      obtain ⟨i, hi⟩ := exists_getElem?_of_mem ((mem_firstAppearance ops v1).2 h1)
      rw [(hinv.v2i v1 i).2 hi, AdjacencyMatrix.find_none_of_unregistered hinv h2]
    · rw [AdjacencyMatrix.find_none_of_unregistered hinv h1]
  · rw [edgeList_isAdjacent_run, hrec]
  · intro h1
    rw [adjList_isAdjacent_run, hrec]

/-- Witness for the amended C13: after `addEdge(1, 2)` vertex `5` is unknown. -/
theorem isAdjacent_unregistered_witness :
    (¬ Registered [Op.addEdge 1 2] 1 ∨ ¬ Registered [Op.addEdge 1 2] 5) ∧
    (∃ g, AdjacencyMatrix.run [Op.addEdge 1 2] = .ok g ∧
      (g.isAdjacent 1 5).1 = .error .outOfRange) ∧
    ((EdgeList.run [Op.addEdge 1 2]).isAdjacent 1 5).1 = .ok false ∧
    ((AdjacencyList.run [Op.addEdge 1 2]).isAdjacent 1 5).1 = .ok false :=
  have h := isAdjacent_unregistered [Op.addEdge 1 2] 1 5 (Or.inr (by decide))
  ⟨Or.inr (by decide), h.1, h.2.1, h.2.2 (by decide)⟩

/-- C14, the code at the failing input: on the `AdjacencyList` built by
`addEdge(1, 2)` vertex `5` is not registered and `getNeighbors(5)` fails; the query
`isAdjacent(5, 1)` returns false and leaves a different object behind, in which `5` is
a key with an empty neighbour sequence, so that `getNeighbors(5)` now succeeds. -/
theorem adjList_isAdjacent_registers_vertex :
    ¬ Registered [Op.addEdge 1 2] 5 ∧
    (AdjacencyList.run [Op.addEdge 1 2]).getNeighbors 5 = .error .outOfRange ∧
    ((AdjacencyList.run [Op.addEdge 1 2]).isAdjacent 5 1).1 = .ok false ∧
    ((AdjacencyList.run [Op.addEdge 1 2]).isAdjacent 5 1).2 =
      { _adjacencyList := [(1, [2]), (2, []), (5, [])] } ∧
    ((AdjacencyList.run [Op.addEdge 1 2]).isAdjacent 5 1).2 ≠
      AdjacencyList.run [Op.addEdge 1 2] ∧
    ((AdjacencyList.run [Op.addEdge 1 2]).isAdjacent 5 1).2.getNeighbors 5 = .ok [] :=
  ⟨by decide, rfl, rfl, rfl, by decide, rfl⟩
theorem Closed.reach_mem {G : Graph T} {U : List T} {E : T → T → Prop} (hc : Closed G U E)
    {s v : T} (hs : s ∈ U) (h : Reach E s v) : v ∈ U := by
  obtain ⟨n, hw⟩ := h
  induction hw with
  | nil => exact hs
  | snoc _ he ih =>
    obtain ⟨ns, -, hE, hU⟩ := hc.answers _ ih
    exact hU _ ((hE _).2 he)

theorem safety_of_closed {G : Graph T} {U : List T} {E : T → T → Prop} (hc : Closed G U E)
    {s : T} (hs : s ∈ U) :
    ∃ rd rb, (∀ fuel, U.length ≤ fuel → dfs fuel G s = .ok rd) ∧
      (∀ fuel, U.length ≤ fuel → bfs fuel G s = .ok rb) ∧
      rd.Nodup ∧ rb.Nodup ∧
      (∀ v ∈ rd, v ∈ U ∧ ∃ ns, G.getNeighbors v = .ok ns) ∧
      (∀ v ∈ rb, v ∈ U ∧ ∃ ns, G.getNeighbors v = .ok ns) := by
  obtain ⟨rd, rb, hd, hb, hd1, _, hd3, hb1, _, hb3, _⟩ := traversal_spec hc hs
  have key : ∀ v, Reach E s v → v ∈ U ∧ ∃ ns, G.getNeighbors v = .ok ns := by
    intro v hv
    have hvU := hc.reach_mem hs hv
    obtain ⟨ns, hns, -⟩ := hc.answers v hvU
    exact ⟨hvU, ns, hns⟩
  exact ⟨rd, rb, hd, hb, hd1, hb1, fun v hv => key v ((hd3 v).1 hv),
    fun v hv => key v ((hb3 v).1 hv)⟩

/-- C15: in each of the three representations, for every graph built from empty by
`addVertex`/`addEdge` calls and every registered start vertex, `dfs` and `bfs` return
a sequence and raise no error (for every step budget of at least the number of
distinct vertices). Every vertex on which the traversal calls `getNeighbors`, which
are the vertices of the result, is registered and `getNeighbors` succeeds on it, so no
table lookup is out of range and no matrix access is out of bounds. The result of
`dfs` has no duplicates: `_dfs` appends its argument to the results at every entry,
so it is entered at most once per distinct vertex. -/
theorem traversal_never_fails (ops : List (Op T)) (s : T) (hs : Registered ops s) :
    (∃ rd rb, (∀ fuel, (firstAppearance ops).length ≤ fuel →
        dfs fuel (EdgeList.run ops).toGraph s = .ok rd) ∧
      (∀ fuel, (firstAppearance ops).length ≤ fuel →
        bfs fuel (EdgeList.run ops).toGraph s = .ok rb) ∧
      rd.Nodup ∧ rb.Nodup ∧
      (∀ v ∈ rd, Registered ops v ∧ ∃ ns, (EdgeList.run ops).getNeighbors v = .ok ns) ∧
      (∀ v ∈ rb, Registered ops v ∧ ∃ ns, (EdgeList.run ops).getNeighbors v = .ok ns)) ∧
    (∃ rd rb, (∀ fuel, (firstAppearance ops).length ≤ fuel →
        dfs fuel (AdjacencyList.run ops).toGraph s = .ok rd) ∧
      (∀ fuel, (firstAppearance ops).length ≤ fuel →
        bfs fuel (AdjacencyList.run ops).toGraph s = .ok rb) ∧
      rd.Nodup ∧ rb.Nodup ∧
      (∀ v ∈ rd, Registered ops v ∧ ∃ ns, (AdjacencyList.run ops).getNeighbors v = .ok ns) ∧
      (∀ v ∈ rb, Registered ops v ∧ ∃ ns, (AdjacencyList.run ops).getNeighbors v = .ok ns)) ∧
    (∃ g rd rb, AdjacencyMatrix.run ops = .ok g ∧
      (∀ fuel, (firstAppearance ops).length ≤ fuel → dfs fuel g.toGraph s = .ok rd) ∧
      (∀ fuel, (firstAppearance ops).length ≤ fuel → bfs fuel g.toGraph s = .ok rb) ∧
      rd.Nodup ∧ rb.Nodup ∧
      (∀ v ∈ rd, Registered ops v ∧ ∃ ns, g.getNeighbors v = .ok ns) ∧
      (∀ v ∈ rb, Registered ops v ∧ ∃ ns, g.getNeighbors v = .ok ns)) := by
  have hs2 := (mem_firstAppearance ops s).2 hs
  have conv : ∀ {G : Graph T}, Closed G (firstAppearance ops) (Recorded ops) →
      ∃ rd rb, (∀ fuel, (firstAppearance ops).length ≤ fuel → dfs fuel G s = .ok rd) ∧
        (∀ fuel, (firstAppearance ops).length ≤ fuel → bfs fuel G s = .ok rb) ∧
        rd.Nodup ∧ rb.Nodup ∧
        (∀ v ∈ rd, Registered ops v ∧ ∃ ns, G.getNeighbors v = .ok ns) ∧
        (∀ v ∈ rb, Registered ops v ∧ ∃ ns, G.getNeighbors v = .ok ns) := by
    intro G hc
    obtain ⟨rd, rb, hd, hb, hd1, hb1, hd2, hb2⟩ := safety_of_closed hc hs2
    exact ⟨rd, rb, hd, hb, hd1, hb1,
      fun v hv => ⟨(mem_firstAppearance ops v).1 (hd2 v hv).1, (hd2 v hv).2⟩,
      fun v hv => ⟨(mem_firstAppearance ops v).1 (hb2 v hv).1, (hb2 v hv).2⟩⟩
  obtain ⟨g, hg, hinv⟩ := AdjacencyMatrix.run_inv ops
  obtain ⟨rd, rb, hr⟩ := conv (AdjacencyMatrix.closed_of_inv hinv)
  exact ⟨conv (edgeList_closed_run ops []), conv (adjList_closed_run ops), g, rd, rb, hg, hr⟩

/-- Witness for C15: the cyclic graph `1 → 2`, `2 → 1`, `2 → 2` held in an
`AdjacencyMatrix`, started at `1`. -/
theorem traversal_never_fails_witness :
    Registered [Op.addEdge 1 2, Op.addEdge 2 1, Op.addEdge 2 2] 1 ∧
    ∃ g rd rb, AdjacencyMatrix.run [Op.addEdge 1 2, Op.addEdge 2 1, Op.addEdge 2 2] = .ok g ∧
      dfs 2 g.toGraph 1 = .ok rd ∧ bfs 2 g.toGraph 1 = .ok rb ∧ rd.Nodup ∧ rb.Nodup := by
  have hreg : Registered [Op.addEdge 1 2, Op.addEdge 2 1, Op.addEdge 2 2] 1 := by decide
  obtain ⟨-, -, g, rd, rb, hg, hd, hb, hd1, hb1, -⟩ :=
    traversal_never_fails [Op.addEdge 1 2, Op.addEdge 2 1, Op.addEdge 2 2] 1 hreg
  exact ⟨hreg, g, rd, rb, hg, hd 2 (by decide), hb 2 (by decide), hd1, hb1⟩

theorem dfs_of_error {G : Graph T} {s : T} {e : GraphError}
    (h : G.getNeighbors s = .error e) (fuel : Nat) : dfs (fuel + 1) G s = .error e := by
  simp only [dfs, _dfs, h]

theorem bfs_of_error {G : Graph T} {s : T} {e : GraphError}
    (h : G.getNeighbors s = .error e) (fuel : Nat) : bfs (fuel + 1) G s = .error e := by
  simp only [bfs, bfsLoop, h]

theorem dfs_of_no_neighbors {G : Graph T} {s : T} (h : G.getNeighbors s = .ok [])
    (fuel : Nat) : dfs (fuel + 1) G s = .ok [s] := by
  simp only [dfs, _dfs, h, dfsLoop, List.nil_append]

theorem bfs_of_no_neighbors {G : Graph T} {s : T} (h : G.getNeighbors s = .ok [])
    (fuel : Nat) : bfs (fuel + 1) G s = .ok [s] := by
  cases fuel <;> simp only [bfs, bfsLoop, h, bfsVisit, List.nil_append]

/-- C16, counterexample: vertex `5` is not present in the `EdgeList` built by
`addEdge(1, 2)`, yet `dfs` and `bfs` started at `5` both return the sequence `[5]`. -/
theorem edgeList_traversal_from_absent_vertex :
    ¬ Registered [Op.addEdge 1 2] 5 ∧
    dfs 1 (EdgeList.run [Op.addEdge 1 2]).toGraph 5 = .ok [5] ∧
    bfs 1 (EdgeList.run [Op.addEdge 1 2]).toGraph 5 = .ok [5] :=
  ⟨by decide, rfl, rfl⟩

/-- C16, amended: for every graph reached from empty by any sequence of `addVertex`,
`addEdge`, `isAdjacent` and `getNeighbors` calls, and every start vertex `s` that was
never passed to `addVertex` and is not an endpoint of a recorded edge: on the
`AdjacencyMatrix`, `dfs` and `bfs` fail with the missing-key error of the first
`getNeighbors` call and return no sequence; on the `EdgeList`, which keeps no vertex
set, both return the one-element sequence `[s]`; on the `AdjacencyList` both fail with
the missing-key error provided `s` was never the first argument of an `isAdjacent`
call. -/
theorem traversal_from_absent_vertex (calls : List (Call T)) (s : T)
    (hs : ¬ Registered (mutations calls) s) (fuel : Nat) :
    (∃ g, AdjacencyMatrix.runCalls calls = .ok g ∧
      dfs (fuel + 1) g.toGraph s = .error .outOfRange ∧
      bfs (fuel + 1) g.toGraph s = .error .outOfRange) ∧
    (dfs (fuel + 1) (EdgeList.runCalls calls).toGraph s = .ok [s] ∧
      bfs (fuel + 1) (EdgeList.runCalls calls).toGraph s = .ok [s]) ∧
    ((∀ v2, Call.isAdjacent s v2 ∉ calls) →
      dfs (fuel + 1) (AdjacencyList.runCalls calls).toGraph s = .error .outOfRange ∧
      bfs (fuel + 1) (AdjacencyList.runCalls calls).toGraph s = .error .outOfRange) := by
  obtain ⟨-, g, hg, hm⟩ := getNeighbors_error_of_unregistered (mutations calls) s hs
  have he : (EdgeList.runCalls calls).toGraph.getNeighbors s = .ok [] := by
    show (EdgeList.runCalls calls).getNeighbors s = .ok []
    rw [edgeList_runCalls, edgeList_getNeighbors_run,
      targets_of_not_registered (mutations calls) s hs]
  have hm2 : g.toGraph.getNeighbors s = .error .outOfRange := hm
  refine ⟨⟨g, ?_, dfs_of_error hm2 fuel, bfs_of_error hm2 fuel⟩,
    ⟨dfs_of_no_neighbors he fuel, bfs_of_no_neighbors he fuel⟩, ?_⟩
  · rw [AdjacencyMatrix.runCalls_eq]
    exact hg
  · intro hq
    have hl : (AdjacencyList.runCalls calls).toGraph.getNeighbors s = .error .outOfRange := by
      show (AdjacencyList.runCalls calls).getNeighbors s = .error .outOfRange
      rw [adjList_runCalls]
      exact (getNeighbors_error_of_unregistered (effects calls) s
        (not_registered_effects calls s hs hq)).1
    exact ⟨dfs_of_error hl fuel, bfs_of_error hl fuel⟩

/-- Witness for the amended C16: start vertex `5` after `addEdge(1, 2)`, the query
`isAdjacent(1, 5)` and the query `getNeighbors(1)`. -/
theorem traversal_from_absent_vertex_witness :
    ¬ Registered (mutations
      [Call.addEdge 1 2, Call.isAdjacent 1 5, Call.getNeighbors 1]) 5 ∧
    (∀ v2, Call.isAdjacent 5 v2 ∉
      [Call.addEdge 1 2, Call.isAdjacent 1 5, Call.getNeighbors 1]) ∧
    dfs 3 (AdjacencyList.runCalls
      [Call.addEdge 1 2, Call.isAdjacent 1 5, Call.getNeighbors 1]).toGraph 5 =
      .error .outOfRange ∧
    bfs 3 (EdgeList.runCalls
      [Call.addEdge 1 2, Call.isAdjacent 1 5, Call.getNeighbors 1]).toGraph 5 = .ok [5] :=
  have hq : ∀ v2, Call.isAdjacent 5 v2 ∉
      [Call.addEdge 1 2, Call.isAdjacent 1 5, Call.getNeighbors 1] := by
    intro v2 h
    simp at h
  have h := traversal_from_absent_vertex
    [Call.addEdge 1 2, Call.isAdjacent 1 5, Call.getNeighbors 1] 5 (by decide) 2
  ⟨by decide, hq, (h.2.2 hq).1, h.2.1.2⟩

/-- The start vertex `5` after `addEdge(1, 2)` and the query `isAdjacent(5, 1)`: the
query has made `5` a key of the `AdjacencyList`, and `dfs` and `bfs` from `5` return
`[5]` there, while they still fail on the `AdjacencyMatrix`. -/
theorem adjList_traversal_after_isAdjacent :
    ¬ Registered (mutations [Call.addEdge 1 2, Call.isAdjacent 5 1]) 5 ∧
    dfs 1 (AdjacencyList.runCalls [Call.addEdge 1 2, Call.isAdjacent 5 1]).toGraph 5 =
      .ok [5] ∧
    bfs 1 (AdjacencyList.runCalls [Call.addEdge 1 2, Call.isAdjacent 5 1]).toGraph 5 =
      .ok [5] ∧
    ∃ g, AdjacencyMatrix.runCalls [Call.addEdge 1 2, Call.isAdjacent 5 1] = .ok g ∧
      dfs 1 g.toGraph 5 = .error .outOfRange ∧ bfs 1 g.toGraph 5 = .error .outOfRange :=
  ⟨by decide, rfl, rfl, _, rfl, rfl, rfl⟩

/-- C17: in each of the three representations, on the graph built from empty by
`addEdge(A, B)`, `addEdge(A, C)`, `addEdge(B, D)` in this order, `bfs` from `A` returns
exactly `[A, B, C, D]` and `dfs` from `A` returns exactly `[A, B, D, C]` (for every
step budget from four on). -/
theorem branching_scenario (k : Nat) :
    (bfs (4 + k) (EdgeList.run
        [Op.addEdge 'A' 'B', Op.addEdge 'A' 'C', Op.addEdge 'B' 'D']).toGraph 'A' =
        .ok ['A', 'B', 'C', 'D'] ∧
      dfs (4 + k) (EdgeList.run
        [Op.addEdge 'A' 'B', Op.addEdge 'A' 'C', Op.addEdge 'B' 'D']).toGraph 'A' =
        .ok ['A', 'B', 'D', 'C']) ∧
    (bfs (4 + k) (AdjacencyList.run
        [Op.addEdge 'A' 'B', Op.addEdge 'A' 'C', Op.addEdge 'B' 'D']).toGraph 'A' =
        .ok ['A', 'B', 'C', 'D'] ∧
      dfs (4 + k) (AdjacencyList.run
        [Op.addEdge 'A' 'B', Op.addEdge 'A' 'C', Op.addEdge 'B' 'D']).toGraph 'A' =
        .ok ['A', 'B', 'D', 'C']) ∧
    (∃ g, AdjacencyMatrix.run
        [Op.addEdge 'A' 'B', Op.addEdge 'A' 'C', Op.addEdge 'B' 'D'] = .ok g ∧
      bfs (4 + k) g.toGraph 'A' = .ok ['A', 'B', 'C', 'D'] ∧
      dfs (4 + k) g.toGraph 'A' = .ok ['A', 'B', 'D', 'C']) := by
  have hk : 4 ≤ 4 + k := Nat.le_add_right 4 k
  have e1 : bfs 4 (EdgeList.run
      [Op.addEdge 'A' 'B', Op.addEdge 'A' 'C', Op.addEdge 'B' 'D']).toGraph 'A' =
      .ok ['A', 'B', 'C', 'D'] := rfl
  have e2 : dfs 4 (EdgeList.run
      [Op.addEdge 'A' 'B', Op.addEdge 'A' 'C', Op.addEdge 'B' 'D']).toGraph 'A' =
      .ok ['A', 'B', 'D', 'C'] := rfl
  have e3 : bfs 4 (AdjacencyList.run
      [Op.addEdge 'A' 'B', Op.addEdge 'A' 'C', Op.addEdge 'B' 'D']).toGraph 'A' =
      .ok ['A', 'B', 'C', 'D'] := rfl
  have e4 : dfs 4 (AdjacencyList.run
      [Op.addEdge 'A' 'B', Op.addEdge 'A' 'C', Op.addEdge 'B' 'D']).toGraph 'A' =
      .ok ['A', 'B', 'D', 'C'] := rfl
  have e5 : bfs 4 (AdjacencyMatrix.toGraph ⟨[('A', 0), ('B', 1), ('C', 2), ('D', 3)],
      [(0, 'A'), (1, 'B'), (2, 'C'), (3, 'D')],
      [[false, true, true, false], [false, false, false, true],
       [false, false, false, false], [false, false, false, false]]⟩) 'A' =
      .ok ['A', 'B', 'C', 'D'] := rfl
  have e6 : dfs 4 (AdjacencyMatrix.toGraph ⟨[('A', 0), ('B', 1), ('C', 2), ('D', 3)],
      [(0, 'A'), (1, 'B'), (2, 'C'), (3, 'D')],
      [[false, true, true, false], [false, false, false, true],
       [false, false, false, false], [false, false, false, false]]⟩) 'A' =
      .ok ['A', 'B', 'D', 'C'] := rfl
  exact ⟨⟨bfs_mono e1 hk, dfs_mono e2 hk⟩, ⟨bfs_mono e3 hk, dfs_mono e4 hk⟩,
    ⟨_, rfl, bfs_mono e5 hk, dfs_mono e6 hk⟩⟩

theorem targets_snoc_addVertex (ops : List (Op T)) (v w : T) :
    targets (ops ++ [Op.addVertex v]) w = targets ops w := by
  rw [targets_append, targets_single_addVertex, List.append_nil]

theorem targets_eq_nil_of_no_edge (ops : List (Op T)) (v : T)
    (h : ∀ b, ¬ Recorded ops v b) : targets ops v = [] := by
  rw [List.eq_nil_iff_forall_not_mem]
  exact fun b hb => h b ((mem_targets ops v b).1 hb)

/-- C18: in each of the three representations, for every state built from empty in
which no edge mentions `E`, after `addVertex(E)` both `dfs` and `bfs` started at `E`
return exactly the one-element sequence `[E]` (for every positive step budget). -/
theorem isolated_vertex (ops : List (Op T)) (E : T)
    (h : ∀ a b, Recorded ops a b → a ≠ E ∧ b ≠ E) (fuel : Nat) :
    (dfs (fuel + 1) ((EdgeList.run ops).addVertex E).toGraph E = .ok [E] ∧
      bfs (fuel + 1) ((EdgeList.run ops).addVertex E).toGraph E = .ok [E]) ∧
    (dfs (fuel + 1) ((AdjacencyList.run ops).addVertex E).toGraph E = .ok [E] ∧
      bfs (fuel + 1) ((AdjacencyList.run ops).addVertex E).toGraph E = .ok [E]) ∧
    (∃ g, AdjacencyMatrix.run ops = .ok g ∧
      dfs (fuel + 1) (g.addVertex E).toGraph E = .ok [E] ∧
      bfs (fuel + 1) (g.addVertex E).toGraph E = .ok [E]) := by
  have hno : ∀ b, ¬ Recorded ops E b := fun b hb => (h E b hb).1 rfl
  have hnil : targets ops E = [] := targets_eq_nil_of_no_edge ops E hno
  have he : ((EdgeList.run ops).addVertex E).toGraph.getNeighbors E = .ok [] := by
    show (EdgeList.run ops).getNeighbors E = .ok []
    rw [edgeList_getNeighbors_run, hnil]
  have hl : ((AdjacencyList.run ops).addVertex E).toGraph.getNeighbors E = .ok [] := by
    have e : (AdjacencyList.run ops).addVertex E =
        AdjacencyList.run (ops ++ [Op.addVertex E]) := by
      rw [adjList_run_append]; rfl
    show ((AdjacencyList.run ops).addVertex E).getNeighbors E = .ok []
    rw [e, adjList_getNeighbors_run _ E
      ((mem_firstAppearance _ E).2 ⟨Op.addVertex E, by simp, by simp [Op.touched]⟩),
      targets_snoc_addVertex, hnil]
  obtain ⟨g, hg, hinv⟩ := AdjacencyMatrix.run_inv ops
  have hm : (g.addVertex E).toGraph.getNeighbors E = .ok [] := by
    show (g.addVertex E).getNeighbors E = .ok []
    rw [(hinv.addVertex E).getNeighbors ((mem_register _ E E).2 (Or.inr rfl))]
    congr 1
    rw [List.filter_eq_nil_iff]
    intro w _ hw
    exact hno w ((recorded_iff ops E w).1 hw)
  exact ⟨⟨dfs_of_no_neighbors he fuel, bfs_of_no_neighbors he fuel⟩,
    ⟨dfs_of_no_neighbors hl fuel, bfs_of_no_neighbors hl fuel⟩,
    ⟨g, hg, dfs_of_no_neighbors hm fuel, bfs_of_no_neighbors hm fuel⟩⟩

/-- Witness for C18: vertex `9` added to the graph `1 → 2`. -/
theorem isolated_vertex_witness :
    (∀ a b, Recorded [Op.addEdge 1 2] a b → a ≠ 9 ∧ b ≠ 9) ∧
    dfs 1 ((AdjacencyList.run [Op.addEdge 1 2]).addVertex 9).toGraph 9 = .ok [9] ∧
    ∃ g, AdjacencyMatrix.run [Op.addEdge 1 2] = .ok g ∧
      bfs 1 (g.addVertex 9).toGraph 9 = .ok [9] := by
  have hno : ∀ a b, Recorded [Op.addEdge 1 2] a b → a ≠ 9 ∧ b ≠ 9 := by
    intro a b hab
    simp only [Recorded, List.mem_singleton, Op.addEdge.injEq] at hab
    obtain ⟨rfl, rfl⟩ := hab
    exact ⟨by decide, by decide⟩
  obtain ⟨-, hl, g, hg, -, hb⟩ := isolated_vertex [Op.addEdge 1 2] 9 hno 0
  exact ⟨hno, hl.1, g, hg, hb⟩
/-! ## 32-bit `int` arithmetic -/

theorem wrapInt32_of_fits {x : Int} (h : FitsInt32 x) : wrapInt32 x = x := by
  unfold FitsInt32 at h
  unfold wrapInt32
  omega

theorem fits_wrapInt32 (x : Int) : FitsInt32 (wrapInt32 x) := by
  unfold FitsInt32 wrapInt32
  omega

theorem wrapInt32_add_wrap (a b : Int) :
    wrapInt32 (wrapInt32 a + wrapInt32 b) = wrapInt32 (a + b) := by
  unfold wrapInt32
  omega

theorem wrapInt32_add_wrap_right (a b : Int) :
    wrapInt32 (a + wrapInt32 b) = wrapInt32 (a + b) := by
  unfold wrapInt32
  omega

theorem wrapInt32_add_wrap_left (a b : Int) :
    wrapInt32 (wrapInt32 a + b) = wrapInt32 (a + b) := by
  unfold wrapInt32
  omega

theorem wrapInt32_wrap (a : Int) : wrapInt32 (wrapInt32 a) = wrapInt32 a := by
  unfold wrapInt32
  omega

theorem fits_intAdd (a b : Int) : FitsInt32 (intAdd a b) := fits_wrapInt32 _

theorem intAdd_of_fits {a b : Int} (h : FitsInt32 (a + b)) : intAdd a b = a + b :=
  wrapInt32_of_fits h
/-! ## Min cost climbing stairs -/

namespace MinCostClimbingStairs

theorem bruteForce_lt {cost : List Int} {step : Nat} (h : step < cost.length) :
    bruteForce cost step =
      intAdd cost[step] (min (bruteForce cost (step + 1)) (bruteForce cost (step + 2))) := by
  rw [bruteForce]
  simp only [h, dif_pos]

theorem bruteForce_ge {cost : List Int} {step : Nat} (h : cost.length ≤ step) :
    bruteForce cost step = 0 := by
  rw [bruteForce]
  simp only [Nat.not_lt.2 h, dif_neg, not_false_eq_true]

theorem memoOK_replicate (cost : List Int) :
    MemoOK cost (List.replicate cost.length (-1)) := by
  refine ⟨List.length_replicate _ _, ?_⟩
  intro i x hx hne
  rw [List.getElem?_replicate] at hx
  split at hx
  · cases hx
    exact absurd rfl hne
  · cases hx

theorem memoOK_set {cost memo : List Int} (h : MemoOK cost memo) (step : Nat) :
    MemoOK cost (memo.set step (bruteForce cost step)) := by
  refine ⟨by rw [List.length_set]; exact h.1, ?_⟩
  intro i x hx hne
  rw [List.getElem?_set] at hx
  split at hx
  · split at hx
    · cases hx
      subst_vars
      rfl
    · cases hx
  · exact h.2 i x hx hne

/-- The memoised helper returns the value of `bruteForce` from every sound table, and
leaves a sound table behind. -/
theorem minCost_topDownHelper_spec (cost : List Int) (k : Nat) :
    ∀ step memo, cost.length - step ≤ k → MemoOK cost memo →
      ∃ memo2, topDownHelper cost memo step = some (bruteForce cost step, memo2) ∧
        MemoOK cost memo2 := by
  induction k with
  | zero =>
    intro step memo hk hok
    have hge : cost.length ≤ step := by omega
    refine ⟨memo, ?_, hok⟩
    rw [topDownHelper, bruteForce_ge hge]
    simp only [Nat.not_lt.2 hge, dif_neg, not_false_eq_true]
  | succ k ih =>
    intro step memo hk hok
    by_cases hlt : step < cost.length
    · have hm : step < memo.length := by rw [hok.1]; exact hlt
      rw [topDownHelper]
      simp only [hlt, dif_pos, List.getElem?_eq_getElem hm]
      by_cases hx : memo[step] ≠ -1
      · refine ⟨memo, ?_, hok⟩
        rw [if_pos hx, hok.2 step _ (List.getElem?_eq_getElem hm) hx]
      · rw [if_neg hx]
        obtain ⟨memo1, h1, hok1⟩ := ih (step + 1) memo (by omega) hok
        obtain ⟨memo2, h2, hok2⟩ := ih (step + 2) memo1 (by omega) hok1
        have hm2 : step < memo2.length := by rw [hok2.1]; exact hlt
        refine ⟨memo2.set step (bruteForce cost step), ?_, memoOK_set hok2 step⟩
        rw [h1]
        simp only [h2, hm2, if_true]
        rw [bruteForce_lt hlt]
    · have hge : cost.length ≤ step := by omega
      refine ⟨memo, ?_, hok⟩
      rw [topDownHelper, bruteForce_ge hge]
      simp only [hlt, dif_neg, not_false_eq_true]

theorem minCost_topDown_eq (cost : List Int) :
    topDown cost = some (min (bruteForce cost 0) (bruteForce cost 1)) := by
  obtain ⟨memo1, h1, hok1⟩ :=
    minCost_topDownHelper_spec cost cost.length 0 _ (by omega) (memoOK_replicate cost)
  obtain ⟨memo2, h2, -⟩ := minCost_topDownHelper_spec cost cost.length 1 memo1 (by omega) hok1
  simp only [topDown, h1, h2]

theorem loopOK_init (cost : List Int) :
    LoopOK cost cost.length (List.replicate (cost.length + 2) 0) := by
  refine ⟨List.length_replicate _ _, ?_⟩
  intro j hj hlt
  rw [List.getElem?_replicate, if_pos hlt, bruteForce_ge hj]

theorem bottomUpLoop_spec (cost : List Int) (k : Nat) :
    ∀ memo, k ≤ cost.length → LoopOK cost k memo →
      ∃ memo2, bottomUpLoop cost k memo = some memo2 ∧ LoopOK cost 0 memo2 := by
  induction k with
  | zero =>
    intro memo _ hok
    exact ⟨memo, rfl, hok⟩
  | succ i ih =>
    intro memo hk hok
    have hi : i < cost.length := by omega
    have hm : i < memo.length := by rw [hok.1]; omega
    have ha := hok.2 (i + 1) (le_refl _) (by omega)
    have hb := hok.2 (i + 2) (by omega) (by omega)
    have hstep : LoopOK cost i (memo.set i (bruteForce cost i)) := by
      refine ⟨by rw [List.length_set]; exact hok.1, ?_⟩
      intro j hj hlt
      rw [List.getElem?_set]
      by_cases hij : i = j
      · subst hij
        simp only [hm, if_true]
      · rw [if_neg hij]
        exact hok.2 j (by omega) hlt
    obtain ⟨memo2, h2, hok2⟩ := ih _ (by omega) hstep
    refine ⟨memo2, ?_, hok2⟩
    rw [bottomUpLoop]
    simp only [List.getElem?_eq_getElem hi, ha, hb, hm, if_true]
    rw [← bruteForce_lt hi]
    exact h2

theorem minCost_bottomUp_eq (cost : List Int) :
    bottomUp cost = some (min (bruteForce cost 0) (bruteForce cost 1)) := by
  obtain ⟨memo, h, hok⟩ := bottomUpLoop_spec cost cost.length _ (le_refl _) (loopOK_init cost)
  have h0 := hok.2 0 (le_refl _) (by omega)
  have h1 := hok.2 1 (by omega) (by omega)
  simp only [bottomUp, h, h0, h1]

theorem exactCost_lt {cost : List Int} {step : Nat} (h : step < cost.length) :
    exactCost cost step =
      cost[step] + min (exactCost cost (step + 1)) (exactCost cost (step + 2)) := by
  rw [exactCost]
  simp only [h, dif_pos]

theorem exactCost_ge {cost : List Int} {step : Nat} (h : cost.length ≤ step) :
    exactCost cost step = 0 := by
  rw [exactCost]
  simp only [Nat.not_lt.2 h, dif_neg, not_false_eq_true]

/-- When no exact cost leaves the range of `int`, the `int` arithmetic of `bruteForce`
is exact. -/
theorem bruteForce_eq_exactCost {cost : List Int} (h : NoOverflow cost) (k : Nat) :
    ∀ step, cost.length - step ≤ k → bruteForce cost step = exactCost cost step := by
  induction k with
  | zero =>
    intro step hk
    rw [bruteForce_ge (by omega), exactCost_ge (by omega)]
  | succ k ih =>
    intro step hk
    by_cases hlt : step < cost.length
    · have hfit := h step
      rw [exactCost_lt hlt] at hfit
      rw [bruteForce_lt hlt, exactCost_lt hlt, ih (step + 1) (by omega),
        ih (step + 2) (by omega)]
      exact intAdd_of_fits hfit
    · rw [bruteForce_ge (by omega), exactCost_ge (by omega)]

end MinCostClimbingStairs

theorem OneDTopDown.dp_eq_topDownHelper (cost : List Int) (k : Nat) :
    ∀ index memo, cost.length - index ≤ k →
      OneDTopDown.dp cost memo index = MinCostClimbingStairs.topDownHelper cost memo index := by
  induction k with
  | zero =>
    intro index memo hk
    have hge : ¬ index < cost.length := by omega
    rw [OneDTopDown.dp, MinCostClimbingStairs.topDownHelper]
    simp only [hge, dif_neg, not_false_eq_true]
  | succ k ih =>
    intro index memo hk
    rw [OneDTopDown.dp, MinCostClimbingStairs.topDownHelper]
    by_cases hlt : index < cost.length
    · simp only [hlt, dif_pos]
      rw [ih (index + 1) memo (by omega)]
      cases memo[index]? with
      | none => rfl
      | some x =>
        simp only
        cases MinCostClimbingStairs.topDownHelper cost memo (index + 1) with
        | none => rfl
        | some r =>
          obtain ⟨a, memo1⟩ := r
          simp only
          rw [ih (index + 2) memo1 (by omega)]
    · simp only [hlt, dif_neg, not_false_eq_true]

theorem OneDTopDown.minCostClimbingStairs_eq_topDown (cost : List Int) :
    OneDTopDown.minCostClimbingStairs cost = MinCostClimbingStairs.topDown cost := by
  unfold OneDTopDown.minCostClimbingStairs MinCostClimbingStairs.topDown
  rw [OneDTopDown.dp_eq_topDownHelper cost cost.length 0 _ (by omega)]
  cases MinCostClimbingStairs.topDownHelper cost (List.replicate cost.length (-1)) 0 with
  | none => rfl
  | some r =>
    obtain ⟨a, memo1⟩ := r
    simp only
    rw [OneDTopDown.dp_eq_topDownHelper cost cost.length 1 memo1 (by omega)]

theorem OneDBottomUp.minCostLoop_eq (cost : List Int) (k : Nat) :
    ∀ memo, OneDBottomUp.minCostLoop cost k memo =
      MinCostClimbingStairs.bottomUpLoop cost k memo := by
  induction k with
  | zero => intro memo; rfl
  | succ i ih =>
    intro memo
    rw [OneDBottomUp.minCostLoop, MinCostClimbingStairs.bottomUpLoop]
    simp only [ih]

theorem OneDBottomUp.minCostClimbingStairs_eq_bottomUp (cost : List Int) :
    OneDBottomUp.minCostClimbingStairs cost = MinCostClimbingStairs.bottomUp cost := by
  unfold OneDBottomUp.minCostClimbingStairs MinCostClimbingStairs.bottomUp
  rw [OneDBottomUp.minCostLoop_eq]

/-- C19: for every cost vector (any length, any `int` entries, `-1` included) the
implementations of min cost climbing stairs agree: `bottomUp` and `topDown` both
return `min(bruteForce(cost, 0), bruteForce(cost, 1))`, without any access outside a
vector, and so do the copies in `1d-top-down.cpp` and `1d-bottom-up.cpp`. In particular
a computed value of `-1`, which the memo table cannot tell from "not yet computed",
does not change what `topDown` returns. This holds in 32-bit `int` arithmetic; when no
sum leaves the range of `int`, so that the arithmetic is that of exact integers, the
common result is the exact minimum cost. -/
theorem minCost_implementations_agree (cost : List Int) :
    MinCostClimbingStairs.bottomUp cost =
      some (min (MinCostClimbingStairs.bruteForce cost 0)
        (MinCostClimbingStairs.bruteForce cost 1)) ∧
    MinCostClimbingStairs.topDown cost =
      some (min (MinCostClimbingStairs.bruteForce cost 0)
        (MinCostClimbingStairs.bruteForce cost 1)) ∧
    OneDTopDown.minCostClimbingStairs cost = MinCostClimbingStairs.topDown cost ∧
    OneDBottomUp.minCostClimbingStairs cost = MinCostClimbingStairs.bottomUp cost ∧
    (MinCostClimbingStairs.NoOverflow cost →
      MinCostClimbingStairs.bottomUp cost =
        some (min (MinCostClimbingStairs.exactCost cost 0)
          (MinCostClimbingStairs.exactCost cost 1)) ∧
      MinCostClimbingStairs.topDown cost =
        some (min (MinCostClimbingStairs.exactCost cost 0)
          (MinCostClimbingStairs.exactCost cost 1))) := by
  refine ⟨MinCostClimbingStairs.minCost_bottomUp_eq cost,
    MinCostClimbingStairs.minCost_topDown_eq cost,
    OneDTopDown.minCostClimbingStairs_eq_topDown cost,
    OneDBottomUp.minCostClimbingStairs_eq_bottomUp cost, ?_⟩
  intro h
  have e0 := MinCostClimbingStairs.bruteForce_eq_exactCost h cost.length 0 (by omega)
  have e1 := MinCostClimbingStairs.bruteForce_eq_exactCost h cost.length 1 (by omega)
  rw [← e0, ← e1]
  exact ⟨MinCostClimbingStairs.minCost_bottomUp_eq cost,
    MinCostClimbingStairs.minCost_topDown_eq cost⟩

theorem MinCostClimbingStairs.exactCost_main :
    MinCostClimbingStairs.exactCost [10, 15, 20] 0 = 25 ∧
    MinCostClimbingStairs.exactCost [10, 15, 20] 1 = 15 ∧
    MinCostClimbingStairs.exactCost [10, 15, 20] 2 = 20 ∧
    ∀ k, MinCostClimbingStairs.exactCost [10, 15, 20] (k + 3) = 0 := by
  have h3 : ∀ k, MinCostClimbingStairs.exactCost [10, 15, 20] (k + 3) = 0 := fun k =>
    MinCostClimbingStairs.exactCost_ge (by simp)
  have h2 : MinCostClimbingStairs.exactCost [10, 15, 20] 2 = 20 := by
    rw [MinCostClimbingStairs.exactCost_lt (by decide), h3 0, h3 1]
    rfl
  have h1 : MinCostClimbingStairs.exactCost [10, 15, 20] 1 = 15 := by
    rw [MinCostClimbingStairs.exactCost_lt (by decide), h2, h3 0]
    rfl
  have h0 : MinCostClimbingStairs.exactCost [10, 15, 20] 0 = 25 := by
    rw [MinCostClimbingStairs.exactCost_lt (by decide), h1, h2]
    rfl
  exact ⟨h0, h1, h2, h3⟩

/-- Witness for C19: the cost vector `{10, 15, 20}` of the `main` functions; no sum
overflows and the result is `15`. -/
theorem minCost_implementations_agree_witness :
    MinCostClimbingStairs.NoOverflow [10, 15, 20] ∧
    MinCostClimbingStairs.bottomUp [10, 15, 20] = some 15 ∧
    MinCostClimbingStairs.topDown [10, 15, 20] = some 15 := by
  obtain ⟨h0, h1, h2, h3⟩ := MinCostClimbingStairs.exactCost_main
  have hno : MinCostClimbingStairs.NoOverflow [10, 15, 20] := by
    intro step
    unfold FitsInt32
    rcases step with _ | _ | _ | k
    · rw [h0]; omega
    · rw [h1]; omega
    · rw [h2]; omega
    · rw [h3 k]; omega
  have h := (minCost_implementations_agree [10, 15, 20]).2.2.2.2 hno
  rw [h0, h1] at h
  exact ⟨hno, h.1, h.2⟩

/-- The result on `{2147483647, 2147483647, 1}`, where the sum `2147483647 + 1` leaves
the range of `int`: both implementations return the reduced value `-2147483648`. -/
theorem minCost_overflow_example :
    MinCostClimbingStairs.bottomUp [2147483647, 2147483647, 1] = some (-2147483648) ∧
    MinCostClimbingStairs.topDown [2147483647, 2147483647, 1] = some (-2147483648) := by
  have hb : MinCostClimbingStairs.bottomUp [2147483647, 2147483647, 1] =
      some (-2147483648) := by decide
  refine ⟨hb, ?_⟩
  rw [MinCostClimbingStairs.minCost_topDown_eq,
    ← MinCostClimbingStairs.minCost_bottomUp_eq, hb]

/-! ## Unique paths -/

theorem cellGet_of_dims {memo : List (List Int)} {R C i j : Nat} (hr : memo.length = R)
    (hc : ∀ row ∈ memo, row.length = C) (hi : i < R) (hj : j < C) :
    ∃ x, cellGet memo i j = some x := by
  have hi2 : i < memo.length := by omega
  have hrow := hc _ (List.getElem_mem hi2)
  have hj2 : j < (memo[i]).length := by omega
  exact ⟨(memo[i])[j], by
    simp only [cellGet, List.getElem?_eq_getElem hi2, List.getElem?_eq_getElem hj2]⟩

theorem cellSet_of_dims {memo : List (List Int)} {R C i j : Nat} (hr : memo.length = R)
    (hc : ∀ row ∈ memo, row.length = C) (hi : i < R) (hj : j < C) (x : Int) :
    ∃ memo2, cellSet memo i j x = some memo2 := by
  have hi2 : i < memo.length := by omega
  have hrow := hc _ (List.getElem_mem hi2)
  have hj2 : j < (memo[i]).length := by omega
  exact ⟨memo.set i ((memo[i]).set j x), by
    simp only [cellSet, List.getElem?_eq_getElem hi2, hj2, if_true]⟩

theorem cellGet_cellSet {memo memo2 : List (List Int)} {i j : Nat} {x : Int}
    (h : cellSet memo i j x = some memo2) (i2 j2 : Nat) :
    cellGet memo2 i2 j2 = if i2 = i ∧ j2 = j then some x else cellGet memo i2 j2 := by
  unfold cellSet at h
  cases hrow : memo[i]? with
  | none => simp [hrow] at h
  | some row =>
    simp only [hrow] at h
    by_cases hj : j < row.length
    · simp only [hj, if_true] at h
      cases h
      have hi := getElem?_some_lt hrow
      unfold cellGet
      by_cases e1 : i2 = i
      · subst e1
        simp only [List.getElem?_set_self hi, hrow]
        by_cases e2 : j2 = j
        · subst e2
          simp [List.getElem?_set_self hj]
        · have e3 : ¬ j = j2 := fun e => e2 e.symm
          simp [List.getElem?_set_ne e3, e2]
      · have e3 : ¬ i = i2 := fun e => e1 e.symm
        simp [List.getElem?_set_ne e3, e1]
    · simp [hj] at h

theorem dims_cellSet {memo memo2 : List (List Int)} {i j : Nat} {x : Int}
    (h : cellSet memo i j x = some memo2) :
    memo2.length = memo.length ∧
      ∀ C, (∀ row ∈ memo, row.length = C) → ∀ row ∈ memo2, row.length = C := by
  unfold cellSet at h
  cases hrow : memo[i]? with
  | none => simp [hrow] at h
  | some row =>
    simp only [hrow] at h
    by_cases hj : j < row.length
    · simp only [hj, if_true] at h
      cases h
      refine ⟨by simp, ?_⟩
      intro C hC r hr
      rcases List.mem_or_eq_of_mem_set hr with h1 | h1
      · exact hC r h1
      · subst h1
        simpa using hC row (getElem?_some_mem hrow)
    · simp [hj] at h

theorem cellGet_replicate (R C : Nat) (v : Int) (i j : Nat) :
    cellGet (List.replicate R (List.replicate C v)) i j =
      if i < R ∧ j < C then some v else none := by
  unfold cellGet
  rw [List.getElem?_replicate]
  by_cases hi : i < R
  · simp only [hi, if_true, true_and]
    rw [List.getElem?_replicate]
  · simp only [hi, if_false, false_and]

namespace UniquePaths

theorem bruteForce_corner {m n i j : Nat} (h : i + 1 = m ∧ j + 1 = n) (t : Int) :
    bruteForce m n i j t = intAdd t 1 := by
  rw [bruteForce, if_pos h]

theorem bruteForce_outside {m n i j : Nat} (h1 : ¬ (i + 1 = m ∧ j + 1 = n))
    (h2 : m ≤ i ∨ n ≤ j) (t : Int) : bruteForce m n i j t = t := by
  rw [bruteForce, if_neg h1, dif_pos h2]

theorem bruteForce_inside {m n i j : Nat} (h1 : ¬ (i + 1 = m ∧ j + 1 = n))
    (h2 : ¬ (m ≤ i ∨ n ≤ j)) (t : Int) :
    bruteForce m n i j t = bruteForce m n i (j + 1) (bruteForce m n (i + 1) j t) := by
  rw [bruteForce, if_neg h1, dif_neg h2]

theorem fits_zero : FitsInt32 0 := by
  unfold FitsInt32
  omega

/-- The counter is only ever incremented: a run from the `int` value `total` adds, in
`int` arithmetic, what a run from `0` counts. -/
theorem bruteForce_acc (m n k : Nat) :
    ∀ i j t, (m - i) + (n - j) ≤ k → FitsInt32 t →
      bruteForce m n i j t = wrapInt32 (t + bruteForce m n i j 0) := by
  induction k with
  | zero =>
    intro i j t hk ht
    have h2 : m ≤ i ∨ n ≤ j := Or.inl (by omega)
    have h1 : ¬ (i + 1 = m ∧ j + 1 = n) := by omega
    rw [bruteForce_outside h1 h2, bruteForce_outside h1 h2, add_zero, wrapInt32_of_fits ht]
  | succ k ih =>
    intro i j t hk ht
    by_cases h1 : i + 1 = m ∧ j + 1 = n
    · rw [bruteForce_corner h1, bruteForce_corner h1]
      unfold intAdd wrapInt32
      omega
    · by_cases h2 : m ≤ i ∨ n ≤ j
      · rw [bruteForce_outside h1 h2, bruteForce_outside h1 h2, add_zero,
          wrapInt32_of_fits ht]
      · have hAt := ih (i + 1) j t (by omega) ht
        have hA := ih (i + 1) j 0 (by omega) fits_zero
        have fAt : FitsInt32 (bruteForce m n (i + 1) j t) := by
          rw [hAt]; exact fits_wrapInt32 _
        have fA : FitsInt32 (bruteForce m n (i + 1) j 0) := by
          rw [hA]; exact fits_wrapInt32 _
        rw [bruteForce_inside h1 h2 t, bruteForce_inside h1 h2 0,
          ih i (j + 1) _ (by omega) fAt, ih i (j + 1) _ (by omega) fA, hAt,
          wrapInt32_add_wrap_left, wrapInt32_add_wrap_right, add_assoc]

theorem count_fits (m n i j : Nat) : FitsInt32 (bruteForce m n i j 0) := by
  rw [bruteForce_acc m n ((m - i) + (n - j)) i j 0 (le_refl _) fits_zero]
  exact fits_wrapInt32 _

theorem count_inside {m n i j : Nat} (h1 : ¬ (i + 1 = m ∧ j + 1 = n))
    (h2 : ¬ (m ≤ i ∨ n ≤ j)) :
    bruteForce m n i j 0 =
      intAdd (bruteForce m n (i + 1) j 0) (bruteForce m n i (j + 1) 0) := by
  rw [bruteForce_inside h1 h2 0,
    bruteForce_acc m n ((m - i) + (n - (j + 1))) i (j + 1) _ (le_refl _) (count_fits _ _ _ _)]
  rfl

theorem wrapInt32_one : wrapInt32 1 = 1 := by
  unfold wrapInt32
  omega

theorem intAdd_zero_one : intAdd 0 1 = 1 := by
  unfold intAdd wrapInt32
  omega

/-- The number counted from a cell that is `a` rows and `b` columns away from the
last cell is the binomial coefficient `C(a + b, a)`, reduced to an `int`. -/
theorem count_choose (m n : Nat) :
    ∀ a b i j, i + a + 1 = m → j + b + 1 = n →
      bruteForce m n i j 0 = wrapInt32 ((Nat.choose (a + b) a : Nat) : Int) := by
  intro a
  induction a with
  | zero =>
    intro b
    induction b with
    | zero =>
      intro i j hi hj
      rw [bruteForce_corner ⟨by omega, by omega⟩]
      simp only [intAdd, zero_add, Nat.choose_self, Nat.cast_one]
    | succ b ihb =>
      intro i j hi hj
      have h1 : ¬ (i + 1 = m ∧ j + 1 = n) := by omega
      have h2 : ¬ (m ≤ i ∨ n ≤ j) := by omega
      have h3 : ¬ (i + 1 + 1 = m ∧ j + 1 = n) := by omega
      rw [count_inside h1 h2, bruteForce_outside h3 (Or.inl (by omega)),
        ihb i (j + 1) hi (by omega)]
      simp only [intAdd, zero_add, Nat.choose_zero_right, Nat.cast_one, wrapInt32_wrap]
  | succ a iha =>
    intro b
    induction b with
    | zero =>
      intro i j hi hj
      have h1 : ¬ (i + 1 = m ∧ j + 1 = n) := by omega
      have h2 : ¬ (m ≤ i ∨ n ≤ j) := by omega
      have h3 : ¬ (i + 1 = m ∧ j + 1 + 1 = n) := by omega
      rw [count_inside h1 h2, bruteForce_outside h3 (Or.inr (by omega)),
        iha 0 (i + 1) j (by omega) hj]
      simp only [intAdd, add_zero, Nat.choose_self, Nat.cast_one, wrapInt32_wrap]
    | succ b ihb =>
      intro i j hi hj
      have h1 : ¬ (i + 1 = m ∧ j + 1 = n) := by omega
      have h2 : ¬ (m ≤ i ∨ n ≤ j) := by omega
      rw [count_inside h1 h2, iha (b + 1) (i + 1) j (by omega) hj,
        ihb i (j + 1) hi (by omega)]
      have e : a + 1 + (b + 1) = (a + (b + 1)) + 1 := by omega
      have e2 : a + 1 + b = a + (b + 1) := by omega
      rw [e, Nat.choose_succ_succ, e2]
      push_cast
      exact wrapInt32_add_wrap _ _

end UniquePaths
namespace UniquePaths

theorem tblOK_replicate (m n : Nat) :
    TblOK m n (List.replicate m (List.replicate n (-1))) := by
  refine ⟨List.length_replicate _ _, ?_, ?_⟩
  · intro row hrow
    rw [List.eq_of_mem_replicate hrow, List.length_replicate]
  · intro i j x hx hne
    rw [cellGet_replicate] at hx
    split at hx
    · cases hx
      exact absurd rfl hne
    · cases hx

theorem tblOK_cellSet {m n : Nat} {memo memo2 : List (List Int)} (h : TblOK m n memo)
    {i j : Nat} (hset : cellSet memo i j (bruteForce m n i j 0) = some memo2) :
    TblOK m n memo2 := by
  obtain ⟨hlen, hcols⟩ := dims_cellSet hset
  refine ⟨hlen.trans h.1, hcols n h.2.1, ?_⟩
  intro i2 j2 x hx hne
  rw [cellGet_cellSet hset] at hx
  split at hx
  · rename_i hc
    obtain ⟨rfl, rfl⟩ := hc
    cases hx
    rfl
  · exact h.2.2 i2 j2 x hx hne

/-- The memoised helper returns the number counted by `bruteForce` from every sound
table, and leaves a sound table behind. -/
theorem topDownHelper_spec (m n k : Nat) :
    ∀ i j memo, (m - i) + (n - j) ≤ k → TblOK m n memo →
      ∃ memo2, topDownHelper i j m n memo = some (bruteForce m n i j 0, memo2) ∧
        TblOK m n memo2 := by
  induction k with
  | zero =>
    intro i j memo hk hok
    have h2 : m ≤ i ∨ n ≤ j := Or.inl (by omega)
    have h1 : ¬ (i + 1 = m ∧ j + 1 = n) := by omega
    refine ⟨memo, ?_, hok⟩
    rw [topDownHelper, if_neg h1, dif_pos h2, bruteForce_outside h1 h2]
  | succ k ih =>
    intro i j memo hk hok
    by_cases h1 : i + 1 = m ∧ j + 1 = n
    · refine ⟨memo, ?_, hok⟩
      rw [topDownHelper, if_pos h1, bruteForce_corner h1, intAdd_zero_one]
    · by_cases h2 : m ≤ i ∨ n ≤ j
      · refine ⟨memo, ?_, hok⟩
        rw [topDownHelper, if_neg h1, dif_pos h2, bruteForce_outside h1 h2]
      · have hi : i < m := by omega
        have hj : j < n := by omega
        obtain ⟨x, hx⟩ := cellGet_of_dims hok.1 hok.2.1 hi hj
        rw [topDownHelper, if_neg h1, dif_neg h2]
        simp only [hx]
        by_cases hne : x ≠ -1
        · refine ⟨memo, ?_, hok⟩
          rw [if_pos hne, hok.2.2 i j x hx hne]
        · rw [if_neg hne]
          obtain ⟨memo1, hr1, hok1⟩ := ih (i + 1) j memo (by omega) hok
          obtain ⟨memo2, hr2, hok2⟩ := ih i (j + 1) memo1 (by omega) hok1
          obtain ⟨memo3, hset⟩ := cellSet_of_dims hok2.1 hok2.2.1 hi hj (bruteForce m n i j 0)
          refine ⟨memo3, ?_, tblOK_cellSet hok2 hset⟩
          rw [hr1]
          simp only [hr2]
          rw [← count_inside h1 h2, hset]

theorem topDown_eq (m n : Nat) : topDown m n = some (bruteForce m n 0 0 0) := by
  obtain ⟨memo2, h, -⟩ :=
    topDownHelper_spec m n ((m - 0) + (n - 0)) 0 0 _ (le_refl _) (tblOK_replicate m n)
  simp only [topDown, h]

theorem cellExpected_step (m n i j i2 j2 : Nat) (hi : i < m) (hj : j < n) :
    cellExpected m n (i + 1) j i2 j2 =
      if i2 = i ∧ j2 = j then bruteForce m n i j 0
      else cellExpected m n (i + 1) (j + 1) i2 j2 := by
  unfold cellExpected
  by_cases hc : i2 = i ∧ j2 = j
  · obtain ⟨rfl, rfl⟩ := hc
    rw [if_pos (Or.inl (Or.inr ⟨rfl, le_refl _⟩)), if_pos ⟨rfl, rfl⟩]
  · rw [if_neg hc]
    have hiff : ((i + 1 ≤ i2 ∨ (i2 + 1 = i + 1 ∧ j ≤ j2)) ∨ m ≤ i2 ∨ n ≤ j2) ↔
        ((i + 1 ≤ i2 ∨ (i2 + 1 = i + 1 ∧ j + 1 ≤ j2)) ∨ m ≤ i2 ∨ n ≤ j2) := by
      constructor <;> intro h <;> omega
    exact if_congr hiff rfl rfl

theorem cellExpected_next_row (m n i i2 j2 : Nat) :
    cellExpected m n (i + 1) 0 i2 j2 = cellExpected m n i n i2 j2 := by
  unfold cellExpected
  have hiff : ((i + 1 ≤ i2 ∨ (i2 + 1 = i + 1 ∧ 0 ≤ j2)) ∨ m ≤ i2 ∨ n ≤ j2) ↔
      ((i ≤ i2 ∨ (i2 + 1 = i ∧ n ≤ j2)) ∨ m ≤ i2 ∨ n ≤ j2) := by
    constructor <;> intro h <;> omega
  exact if_congr hiff rfl rfl

theorem cellExpected_pending {m n i j : Nat} (hi : i < m) (hj : j < n) :
    cellExpected m n (i + 1) (j + 1) i j = if i + 1 = m ∧ j + 1 = n then 1 else 0 := by
  unfold cellExpected
  rw [if_neg (by omega)]

theorem cellExpected_below (m n i j : Nat) :
    cellExpected m n (i + 1) (j + 1) (i + 1) j = bruteForce m n (i + 1) j 0 := by
  unfold cellExpected
  rw [if_pos (Or.inl (Or.inl (le_refl _)))]

theorem cellExpected_right (m n i j : Nat) :
    cellExpected m n (i + 1) (j + 1) i (j + 1) = bruteForce m n i (j + 1) 0 := by
  unfold cellExpected
  rw [if_pos (Or.inl (Or.inr ⟨rfl, le_refl _⟩))]

theorem pending_add {m n i j : Nat} (hi : i < m) (hj : j < n) :
    intAdd (if i + 1 = m ∧ j + 1 = n then (1 : Int) else 0)
      (intAdd (bruteForce m n (i + 1) j 0) (bruteForce m n i (j + 1) 0)) =
      bruteForce m n i j 0 := by
  by_cases h1 : i + 1 = m ∧ j + 1 = n
  · rw [if_pos h1, bruteForce_corner h1,
      bruteForce_outside (by omega) (Or.inl (by omega)),
      bruteForce_outside (by omega) (Or.inr (by omega))]
    unfold intAdd wrapInt32
    omega
  · rw [if_neg h1, count_inside h1 (by omega)]
    unfold intAdd
    rw [zero_add, wrapInt32_wrap]

theorem bottomUpRow_spec (m n i : Nat) (hi : i < m) (l : Nat) :
    ∀ memo, l ≤ n → GridOK m n (i + 1) l memo →
      ∃ memo2, bottomUpRow i l memo = some memo2 ∧ GridOK m n (i + 1) 0 memo2 := by
  induction l with
  | zero =>
    intro memo _ hok
    exact ⟨memo, rfl, hok⟩
  | succ j ih =>
    intro memo hl hok
    have hj : j < n := by omega
    have hx := hok.2.2 i j (by omega) (by omega)
    have hd := hok.2.2 (i + 1) j (by omega) (by omega)
    have hr := hok.2.2 i (j + 1) (by omega) (by omega)
    rw [cellExpected_pending hi hj] at hx
    rw [cellExpected_below] at hd
    rw [cellExpected_right] at hr
    obtain ⟨memo1, hset⟩ := cellSet_of_dims hok.1 hok.2.1 (show i < m + 1 by omega)
      (show j < n + 1 by omega) (bruteForce m n i j 0)
    have hok1 : GridOK m n (i + 1) j memo1 := by
      obtain ⟨hlen, hcols⟩ := dims_cellSet hset
      refine ⟨hlen.trans hok.1, hcols _ hok.2.1, ?_⟩
      intro i2 j2 hi2 hj2
      rw [cellGet_cellSet hset, cellExpected_step m n i j i2 j2 hi hj]
      by_cases hc : i2 = i ∧ j2 = j
      · rw [if_pos hc, if_pos hc]
      · rw [if_neg hc, if_neg hc]
        exact hok.2.2 i2 j2 hi2 hj2
    obtain ⟨memo2, hrun, hok2⟩ := ih memo1 (by omega) hok1
    refine ⟨memo2, ?_, hok2⟩
    rw [bottomUpRow]
    simp only [hx, hd, hr]
    rw [pending_add hi hj, hset]
    exact hrun

theorem bottomUpRows_spec (m n : Nat) (k : Nat) :
    ∀ memo, k ≤ m → GridOK m n k n memo →
      ∃ memo2, bottomUpRows n k memo = some memo2 ∧ GridOK m n 0 n memo2 := by
  induction k with
  | zero =>
    intro memo _ hok
    exact ⟨memo, rfl, hok⟩
  | succ i ih =>
    intro memo hk hok
    obtain ⟨memo1, hrun1, hok1⟩ := bottomUpRow_spec m n i (by omega) n memo (le_refl _) hok
    have hok1b : GridOK m n i n memo1 := by
      refine ⟨hok1.1, hok1.2.1, ?_⟩
      intro i2 j2 hi2 hj2
      rw [← cellExpected_next_row]
      exact hok1.2.2 i2 j2 hi2 hj2
    obtain ⟨memo2, hrun2, hok2⟩ := ih memo1 (by omega) hok1b
    refine ⟨memo2, ?_, hok2⟩
    rw [bottomUpRows]
    simp only [hrun1]
    exact hrun2

theorem gridOK_init {m n : Nat} (hm : 1 ≤ m) (hn : 1 ≤ n) :
    ∃ memo0, cellSet (List.replicate (m + 1) (List.replicate (n + 1) 0)) (m - 1) (n - 1) 1 =
        some memo0 ∧ GridOK m n m n memo0 := by
  have hlen : (List.replicate (m + 1) (List.replicate (n + 1) (0 : Int))).length = m + 1 :=
    List.length_replicate _ _
  have hcols : ∀ row ∈ List.replicate (m + 1) (List.replicate (n + 1) (0 : Int)),
      row.length = n + 1 := by
    intro row hrow
    rw [List.eq_of_mem_replicate hrow, List.length_replicate]
  obtain ⟨memo0, hset⟩ := cellSet_of_dims hlen hcols (show m - 1 < m + 1 by omega)
    (show n - 1 < n + 1 by omega) 1
  obtain ⟨hlen2, hcols2⟩ := dims_cellSet hset
  refine ⟨memo0, hset, hlen2.trans hlen, hcols2 _ hcols, ?_⟩
  intro i j hi hj
  have hg : cellGet (List.replicate (m + 1) (List.replicate (n + 1) (0 : Int))) i j =
      some 0 := by
    rw [cellGet_replicate]
    exact if_pos ⟨by omega, by omega⟩
  rw [cellGet_cellSet hset, hg]
  unfold cellExpected
  by_cases hb : m ≤ i ∨ n ≤ j
  · have h1 : ¬ (i + 1 = m ∧ j + 1 = n) := by omega
    have hc : ¬ (i = m - 1 ∧ j = n - 1) := by omega
    have hp : (m ≤ i ∨ (i + 1 = m ∧ n ≤ j)) ∨ m ≤ i ∨ n ≤ j := Or.inr hb
    rw [if_neg hc, if_pos hp, bruteForce_outside h1 hb]
  · have hp : ¬ ((m ≤ i ∨ (i + 1 = m ∧ n ≤ j)) ∨ m ≤ i ∨ n ≤ j) := by omega
    rw [if_neg hp]
    by_cases hc : i = m - 1 ∧ j = n - 1
    · have h1 : i + 1 = m ∧ j + 1 = n := by omega
      rw [if_pos hc, if_pos h1]
    · have h1 : ¬ (i + 1 = m ∧ j + 1 = n) := by omega
      rw [if_neg hc, if_neg h1]

theorem bottomUp_eq {m n : Nat} (hm : 1 ≤ m) (hn : 1 ≤ n) :
    bottomUp m n = some (bruteForce m n 0 0 0) := by
  obtain ⟨memo0, hset, hok0⟩ := gridOK_init hm hn
  obtain ⟨memo, hrun, hok⟩ := bottomUpRows_spec m n m memo0 (le_refl _) hok0
  have h00 := hok.2.2 0 0 (by omega) (by omega)
  unfold cellExpected at h00
  rw [if_pos (Or.inl (Or.inl (le_refl _)))] at h00
  unfold bottomUp
  rw [if_pos ⟨hm, hn⟩]
  simp only [hset, hrun, h00]

end UniquePaths
theorem TwoDTopDown.bottomUpHelper_eq (m n k : Nat) :
    ∀ i j memo, (m - i) + (n - j) ≤ k →
      TwoDTopDown.bottomUpHelper i j m n memo = UniquePaths.topDownHelper i j m n memo := by
  induction k with
  | zero =>
    intro i j memo hk
    have h2 : m ≤ i ∨ n ≤ j := Or.inl (by omega)
    have h1 : ¬ (i + 1 = m ∧ j + 1 = n) := by omega
    rw [TwoDTopDown.bottomUpHelper, UniquePaths.topDownHelper, if_neg h1, if_neg h1,
      dif_pos h2, dif_pos h2]
  | succ k ih =>
    intro i j memo hk
    rw [TwoDTopDown.bottomUpHelper, UniquePaths.topDownHelper]
    by_cases h1 : i + 1 = m ∧ j + 1 = n
    · rw [if_pos h1, if_pos h1]
    · by_cases h2 : m ≤ i ∨ n ≤ j
      · rw [if_neg h1, if_neg h1, dif_pos h2, dif_pos h2]
      · rw [if_neg h1, if_neg h1, dif_neg h2, dif_neg h2, ih (i + 1) j memo (by omega)]
        cases cellGet memo i j with
        | none => rfl
        | some x =>
          simp only
          cases UniquePaths.topDownHelper (i + 1) j m n memo with
          | none => rfl
          | some r =>
            obtain ⟨a, memo1⟩ := r
            simp only
            rw [ih i (j + 1) memo1 (by omega)]

theorem TwoDTopDown.uniquePaths_eq_topDown (m n : Nat) :
    TwoDTopDown.uniquePaths m n = UniquePaths.topDown m n := by
  unfold TwoDTopDown.uniquePaths UniquePaths.topDown
  rw [TwoDTopDown.bottomUpHelper_eq m n ((m - 0) + (n - 0)) 0 0 _ (le_refl _)]

theorem TwoDBottomUp.uniquePathsRow_eq (i l : Nat) :
    ∀ memo, TwoDBottomUp.uniquePathsRow i l memo = UniquePaths.bottomUpRow i l memo := by
  induction l with
  | zero => intro memo; rfl
  | succ j ih =>
    intro memo
    rw [TwoDBottomUp.uniquePathsRow, UniquePaths.bottomUpRow]
    simp only [ih]

theorem TwoDBottomUp.uniquePathsRows_eq (n k : Nat) :
    ∀ memo, TwoDBottomUp.uniquePathsRows n k memo = UniquePaths.bottomUpRows n k memo := by
  induction k with
  | zero => intro memo; rfl
  | succ i ih =>
    intro memo
    rw [TwoDBottomUp.uniquePathsRows, UniquePaths.bottomUpRows, TwoDBottomUp.uniquePathsRow_eq]
    simp only [ih]

theorem TwoDBottomUp.uniquePaths_eq_bottomUp (m n : Nat) :
    TwoDBottomUp.uniquePaths m n = UniquePaths.bottomUp m n := by
  unfold TwoDBottomUp.uniquePaths UniquePaths.bottomUp
  simp only [TwoDBottomUp.uniquePathsRows_eq]

theorem choose_sub_le (m n i j : Nat) (hm : 1 ≤ m) (hn : 1 ≤ n) :
    Nat.choose ((m - 1 - i) + (n - 1 - j)) (m - 1 - i) ≤ Nat.choose (m + n - 2) (m - 1) := by
  have h1 : Nat.choose ((m - 1 - i) + (n - 1 - j)) (m - 1 - i) ≤
      Nat.choose ((m - 1) + (n - 1 - j)) (m - 1) := by
    rw [Nat.choose_symm_add, Nat.choose_symm_add]
    exact Nat.choose_le_choose _ (by omega)
  have h2 : Nat.choose ((m - 1) + (n - 1 - j)) (m - 1) ≤ Nat.choose (m + n - 2) (m - 1) :=
    Nat.choose_le_choose _ (by omega)
  exact le_trans h1 h2

/-- C20: for all grid sizes `m ≥ 1` and `n ≥ 1` the implementations of unique paths
return the same number: `bottomUp(m, n)` and `topDown(m, n)` both return, without any
access outside a table, the total that `bruteForce(m, n, 0, 0, total)` counts from
`total = 0`, and so do the copies in `2d-top-down.cpp` and `2d-bottom-up.cpp`. In 32-bit
`int` arithmetic this number is the binomial coefficient `C(m + n - 2, m - 1)` reduced
to an `int`. When the coefficient is at most `2^31 - 1`, so that the arithmetic is that
of exact integers, the number is the coefficient itself, and so is the count from every
cell of the grid: no addition leaves the range of `int`. -/
theorem uniquePaths_implementations_agree (m n : Nat) (hm : 1 ≤ m) (hn : 1 ≤ n) :
    UniquePaths.bottomUp m n = some (UniquePaths.bruteForce m n 0 0 0) ∧
    UniquePaths.topDown m n = some (UniquePaths.bruteForce m n 0 0 0) ∧
    TwoDTopDown.uniquePaths m n = UniquePaths.topDown m n ∧
    TwoDBottomUp.uniquePaths m n = UniquePaths.bottomUp m n ∧
    UniquePaths.bruteForce m n 0 0 0 =
      wrapInt32 ((Nat.choose (m + n - 2) (m - 1) : Nat) : Int) ∧
    (Nat.choose (m + n - 2) (m - 1) ≤ 2147483647 →
      UniquePaths.bruteForce m n 0 0 0 = ((Nat.choose (m + n - 2) (m - 1) : Nat) : Int) ∧
      ∀ i j, i < m → j < n →
        UniquePaths.bruteForce m n i j 0 =
          ((Nat.choose ((m - 1 - i) + (n - 1 - j)) (m - 1 - i) : Nat) : Int)) := by
  have e : m + n - 2 = (m - 1) + (n - 1) := by omega
  have hcell : ∀ i j, i < m → j < n → UniquePaths.bruteForce m n i j 0 =
      wrapInt32 ((Nat.choose ((m - 1 - i) + (n - 1 - j)) (m - 1 - i) : Nat) : Int) :=
    fun i j hi hj =>
      UniquePaths.count_choose m n (m - 1 - i) (n - 1 - j) i j (by omega) (by omega)
  have h00 : UniquePaths.bruteForce m n 0 0 0 =
      wrapInt32 ((Nat.choose (m + n - 2) (m - 1) : Nat) : Int) := by
    rw [e]
    exact UniquePaths.count_choose m n (m - 1) (n - 1) 0 0 (by omega) (by omega)
  refine ⟨UniquePaths.bottomUp_eq hm hn, UniquePaths.topDown_eq m n,
    TwoDTopDown.uniquePaths_eq_topDown m n, TwoDBottomUp.uniquePaths_eq_bottomUp m n,
    h00, ?_⟩
  intro hle
  have hfit : ∀ c : Nat, c ≤ Nat.choose (m + n - 2) (m - 1) → wrapInt32 (c : Int) = c := by
    intro c hc
    apply wrapInt32_of_fits
    unfold FitsInt32
    omega
  refine ⟨by rw [h00, hfit _ (le_refl _)], ?_⟩
  intro i j hi hj
  rw [hcell i j hi hj, hfit _ (choose_sub_le m n i j hm hn)]

/-- Witness for C20: the grid of three rows and seven columns of the `main` functions
has `C(8, 2) = 28` paths. -/
theorem uniquePaths_implementations_agree_witness :
    1 ≤ 3 ∧ 1 ≤ 7 ∧ Nat.choose (3 + 7 - 2) (3 - 1) ≤ 2147483647 ∧
    UniquePaths.bottomUp 3 7 = some 28 ∧ UniquePaths.topDown 3 7 = some 28 ∧
    UniquePaths.bruteForce 3 7 0 0 0 = 28 := by
  obtain ⟨hb, ht, -, -, -, hc⟩ :=
    uniquePaths_implementations_agree 3 7 (by decide) (by decide)
  have hle : Nat.choose (3 + 7 - 2) (3 - 1) ≤ 2147483647 := by decide
  have h28 : ((Nat.choose (3 + 7 - 2) (3 - 1) : Nat) : Int) = 28 := by decide
  have hv := (hc hle).1
  rw [h28] at hv
  rw [hv] at hb ht
  exact ⟨by decide, by decide, hle, hb, ht, hv⟩

/-- The result on an 18 by 18 grid, where `C(34, 17) = 2333606220` exceeds `2^31 - 1`:
all implementations return the reduced value `-1961361076`. -/
theorem uniquePaths_overflow_example :
    UniquePaths.bottomUp 18 18 = some (-1961361076) ∧
    UniquePaths.topDown 18 18 = some (-1961361076) ∧
    UniquePaths.bruteForce 18 18 0 0 0 = -1961361076 := by
  have hc : UniquePaths.bruteForce 18 18 0 0 0 = -1961361076 := by
    rw [UniquePaths.count_choose 18 18 17 17 0 0 rfl rfl]
    have h : Nat.choose (17 + 17) 17 = 2333606220 := by
      rw [Nat.choose_eq_factorial_div_factorial (by omega)]
      rfl
    rw [h]
    unfold wrapInt32
    omega
  refine ⟨?_, ?_, hc⟩
  · rw [UniquePaths.bottomUp_eq (by omega) (by omega), hc]
  · rw [UniquePaths.topDown_eq, hc]

end Edugator
